import Mathlib

/-!
Verification of the quadtree image codec (`libqtc`): a shallow embedding in
Lean 4 of the bit buffer (`src/src/bit.c`), the quadtree store
(`src/src/quadtree.c`), the builder, encoder and lossy filter
(`src/src/encode.c`) and the decoder and painter (`decode.c`), together with
proofs and refutations of the specified properties.

Modelling conventions:
* C `unsigned char` values are `ℕ` together with the invariant `< 256`;
  wherever the C performs an implicit conversion that can truncate, the
  model takes `% 256` explicitly.
* the byte buffer backing a `BitStream` is a total function `ℕ → ℕ`
  (the C buffer is a fixed `malloc` region whose fresh content is
  indeterminate; the model initialises it with zeros, and no claim below
  depends on bytes that were never written);
* C `double` values (node variance, `sigma`, `alpha`) are modelled as `ℚ`;
  the `sqrt` function on doubles is an abstract parameter `sq : ℚ → ℚ` of
  the builder, and theorems that need facts about it take them as explicit
  hypotheses satisfied by the real square root.
-/

set_option maxRecDepth 1000000

namespace QTC

/-! ## Definitions: shallow embedding of the program -/

/-- Model of the `BitStream` structure of `src/src/bit.c`: `data` is the byte
buffer, `wpos` the offset of `ptr` (the write cursor) from the buffer base,
`rpos` the offset of `start` (the read cursor, which the C code advances
in `pullbits`), and `capa` the single capacity counter that the C structure
shares between the two cursors. -/
@[ext] structure BitStream where
  data : ℕ → ℕ
  wpos : ℕ
  rpos : ℕ
  capa : ℕ

/-- Model of `initBitStream`: both cursors at the buffer base, capacity 8.
The `size` argument only dimensions the C allocation; the model's buffer is
unbounded and zero-initialised. -/
def initBitStream (size : ℕ) : BitStream :=
  { data := fun _ => 0, wpos := 0, rpos := 0, capa := 8 }

/-- Model of `getbit`: `(byte >> b) & 1`. -/
def getbit (byte b : ℕ) : ℕ :=
  (byte >>> b) &&& 1

/-- Model of `setbit`: sets or clears bit `b`.  The cleared branch
`*byte &= ~(1 << b)` acts on an `unsigned char`, i.e. keeps the low 8 bits. -/
def setbit (byte b valb : ℕ) : ℕ :=
  if valb ≠ 0 then byte ||| (1 <<< b) else byte &&& (255 - (1 <<< b))

/-- One iteration of the loop of `pushbits`: advance to the next byte when
the current one is full (capacity reset to 8), then write one bit at position
`capa - 1` and decrement the capacity.  The advance and the write are fused
into a single conditional here. -/
def pushStep (curr : BitStream) (bit : ℕ) : BitStream :=
  if curr.capa = 0 then
    { curr with
      data := fun j =>
        if j = curr.wpos + 1 then setbit (curr.data (curr.wpos + 1)) 7 bit else curr.data j,
      wpos := curr.wpos + 1, capa := 7 }
  else
    { curr with
      data := fun j =>
        if j = curr.wpos then setbit (curr.data curr.wpos) (curr.capa - 1) bit else curr.data j,
      capa := curr.capa - 1 }

/-- Model of `pushbits`: writes the low `nbit` bits of `src`, most
significant first, and returns `bits_written` together with the new state.
The loop runs over `i = 0, …, nbit-1` writing bit `nbit - 1 - i`; the model
recurses on the remaining count `n`, so the bit written first is bit `n-1`. -/
def pushbits : BitStream → ℕ → ℕ → ℕ × BitStream
  | curr, _, 0 => (0, curr)
  | curr, src, n + 1 =>
    let r := pushbits (pushStep curr (getbit src n)) src n
    (r.1 + 1, r.2)

/-- One iteration of the loop of `pullbits`: advance `start` to the next byte
when the current one is exhausted (capacity reset to 8), then read one bit at
position `capa - 1` and decrement.  Note the C code really does use the same
`capa` field as the write path. -/
def pullStep (curr : BitStream) : BitStream × ℕ :=
  if curr.capa = 0 then
    ({ curr with rpos := curr.rpos + 1, capa := 7 }, getbit (curr.data (curr.rpos + 1)) 7)
  else
    ({ curr with capa := curr.capa - 1 }, getbit (curr.data curr.rpos) (curr.capa - 1))

/-- Model of `pullbits`: reads `nbit` bits MSB-first into `dest` (which the C
code zeroes on entry; callers pass `0`), returning `bits_readed`, the value
and the new state. -/
def pullbits : BitStream → ℕ → ℕ → ℕ × ℕ × BitStream
  | curr, dest, 0 => (0, dest, curr)
  | curr, dest, n + 1 =>
    let s := pullStep curr
    let r := pullbits s.1 (setbit dest n s.2) n
    (r.1 + 1, r.2.1, r.2.2)

/-- Model of `read_n_bits`.  The C function checks
`pullbits(stream, dest, n) != n` and exits on failure; the loop of
`pullbits` runs exactly `nbit` iterations unconditionally, so that branch is
dead code (see the theorem refuting the Underflow behaviour below) and the
model returns the value and new state directly. -/
def read_n_bits (stream : BitStream) (n : ℕ) : ℕ × BitStream :=
  let r := pullbits stream 0 n
  (r.2.1, r.2.2)

/-- Model of `push_n_bits`.  `src` is an `unsigned char` parameter in C, so
the argument is reduced mod 256 at the call boundary; the error branch is
dead for the same reason as in `read_n_bits`. -/
def push_n_bits (stream : BitStream) (src n : ℕ) : BitStream :=
  (pushbits stream (src % 256) n).2

/-- Model of `finishBitStream`: pad the current partially filled byte with
zero bits and step to the next byte. -/
def finishBitStream (stream : BitStream) : BitStream :=
  if stream.capa ≠ 8 then
    let s := push_n_bits stream 0 stream.capa
    { s with wpos := s.wpos + 1, capa := 8 }
  else stream

/-- Model of `BitStream_size`: `(ptr - start) * CHAR_BIT + (CHAR_BIT - capa)`. -/
def BitStream_size (stream : BitStream) : ℕ :=
  (stream.wpos - stream.rpos) * 8 + (8 - stream.capa)

/-! ### Cursor arithmetic

After `b` bits have been pushed into a fresh stream the write cursor sits at
byte `posOf b` with capacity `capOf b` (the advance to the next byte is lazy:
after exactly 8 bits the cursor is still on byte 0 with capacity 0).  The
read cursor behaves identically, so the same functions describe a stream
that has had `p` bits pulled since its capacity was last reset to 8. -/

/-- Byte index of the cursor after `b` bits have been processed. -/
def posOf (b : ℕ) : ℕ := (b - 1) / 8

/-- Capacity of the cursor after `b` bits have been processed. -/
def capOf (b : ℕ) : ℕ := 8 * ((b - 1) / 8) + 8 - b

/-- Stream state during a write-only phase: `b` bits pushed, read cursor
still at byte `r`. -/
def ws (d : ℕ → ℕ) (r b : ℕ) : BitStream :=
  { data := d, wpos := posOf b, rpos := r, capa := capOf b }

/-- Stream state during a read-only phase: `p` bits pulled since the last
capacity reset, write cursor parked at byte `w`. -/
def rs (d : ℕ → ℕ) (w p : ℕ) : BitStream :=
  { data := d, wpos := w, rpos := posOf p, capa := capOf p }

/-- Bit number `p` of the buffer, counting MSB-first from byte 0. -/
def bitAt (d : ℕ → ℕ) (p : ℕ) : ℕ :=
  getbit (d (p / 8)) (7 - p % 8)

/-- Invariant: every byte of the buffer is an `unsigned char` value. -/
def byteOK (d : ℕ → ℕ) : Prop := ∀ j, d j < 256

/-- The buffer after bit number `b` has been written with value `bit`. -/
def updData (d : ℕ → ℕ) (b bit : ℕ) : ℕ → ℕ :=
  fun j => if j = b / 8 then setbit (d (b / 8)) (7 - b % 8) bit else d j

/-- Value read by `pullbits`: the bits of the buffer starting at bit `p`,
interpreted MSB-first. -/
def valOf (d : ℕ → ℕ) : ℕ → ℕ → ℕ
  | _, 0 => 0
  | p, n + 1 => bitAt d p * 2 ^ n + valOf d (p + 1) n

/-! ## Quadtree store (`src/src/quadtree.c`) and image (`src/src/image.c`) -/

/-- Model of the `Node` structure: `moyenne`, `epsilon` and `u` are
`unsigned char` fields (naturals kept below 256 by the invariants), and `v`
is the `double` variance, modelled as a rational. -/
@[ext] structure Node where
  moyenne : ℕ
  epsilon : ℕ
  u : ℕ
  v : ℚ
deriving DecidableEq

/-- Model of the `Quadtree` structure; the flat node array is a total
function on indices. -/
@[ext] structure Quadtree where
  nodes : ℕ → Node
  total_nodes : ℕ
  levels : ℕ
  medvar : ℚ
  maxvar : ℚ

/-- Model of the `Image` structure. -/
@[ext] structure Image where
  width : ℕ
  image_size : ℕ
  max_val : ℕ
  image : ℕ → ℕ

/-- Model of `allocate_image`; the C pixel buffer is fresh `malloc` memory,
modelled as zeros (the painter overwrites every pixel it defines). -/
def allocate_image (width image_size max_val : ℕ) : Image :=
  { width := width, image_size := image_size, max_val := max_val, image := fun _ => 0 }

/-- Model of `is_leaf`: `index >= total_nodes - (1 << (2 * levels))`. -/
def is_leaf (quadtree : Quadtree) (index : ℕ) : Bool :=
  index ≥ quadtree.total_nodes - (1 <<< (2 * quadtree.levels))

/-- Model of `create_empty_quadtree`: `total_nodes` accumulates
`1 << (2 i)` for `i = 0, …, levels`; fresh nodes are `malloc` memory,
modelled as zeros (every node is written before it is read). -/
def create_empty_quadtree (levels : ℕ) : Quadtree :=
  let total_nodes := (List.range (levels + 1)).foldl (fun total i => total + (1 <<< (2 * i))) 0
  { nodes := fun _ => { moyenne := 0, epsilon := 0, u := 0, v := 0 },
    total_nodes := total_nodes, levels := levels, medvar := 0, maxvar := 0 }

/-- Update of the flat node array at one index. -/
def updN (f : ℕ → Node) (i : ℕ) (nd : Node) : ℕ → Node :=
  fun j => if j = i then nd else f j

/-! ### Heap-index geometry

`tLevel d` is the index of the first node of depth `d` in the flat layout
(`(4^d - 1) / 3`); `descAt d i j` says that `j` is a depth-`d` descendant of
node `i`. -/

/-- First flat index of tree level `d`; also the node count of a complete
tree of `d` levels. -/
def tLevel : ℕ → ℕ
  | 0 => 0
  | d + 1 => 4 * tLevel d + 1

/-- Membership at depth `d` of the subtree rooted at flat index `i`. -/
def descAt : ℕ → ℕ → ℕ → Prop
  | 0, i, j => j = i
  | d + 1, i, j =>
    descAt d (4 * i + 1) j ∨ descAt d (4 * i + 2) j ∨ descAt d (4 * i + 3) j ∨ descAt d (4 * i + 4) j

/-- Membership anywhere in the first `n + 1` levels of the subtree at `i`:
exactly the set of indices a depth-`n` recursion rooted at `i` touches. -/
def inSub (n i j : ℕ) : Prop := ∃ d, d ≤ n ∧ descAt d i j

/-! ## Builder, encoder and filter (`src/src/encode.c`) -/

/-- Model of `build_quadtree_rec`.  The parameter `sq` stands for the `sqrt`
function of `math.h` acting on the `double` variance values, kept abstract;
theorems that need its properties state them as hypotheses satisfied by the
real square root.  The C recursion is on the block `size`, halved at each
step and stopping at `size == 1`; every call site uses a power-of-two size,
so the model recurses on the exponent `n` with `size = 2 ^ n` (for
`size = 0` the C code would not terminate). -/
def build_quadtree_rec (sq : ℚ → ℚ) (image : Image) : ℕ → Quadtree → ℕ → ℕ → ℕ → Quadtree
  | 0, quadtree, index, x, y =>
    { quadtree with
      nodes := updN quadtree.nodes index
        ({ moyenne := image.image (y * image.width + x), epsilon := 0, u := 1, v := 0 }) }
  | n + 1, quadtree, index, x, y =>
    let child_size := 2 ^ n
    let qt1 := build_quadtree_rec sq image n quadtree (4 * index + 1) x y
    let qt2 := build_quadtree_rec sq image n qt1 (4 * index + 2) (x + child_size) y
    let qt3 := build_quadtree_rec sq image n qt2 (4 * index + 3) (x + child_size) (y + child_size)
    let qt4 := build_quadtree_rec sq image n qt3 (4 * index + 4) x (y + child_size)
    let m1 := (qt4.nodes (4 * index + 1)).moyenne
    let m2 := (qt4.nodes (4 * index + 2)).moyenne
    let m3 := (qt4.nodes (4 * index + 3)).moyenne
    let m4 := (qt4.nodes (4 * index + 4)).moyenne
    let somme_moyennes := m1 + m2 + m3 + m4
    -- the stores into the `unsigned char` fields truncate mod 256
    let moyenne := somme_moyennes / 4 % 256
    let epsilon := somme_moyennes % 4
    let somme_v :=
      ((qt4.nodes (4 * index + 1)).v ^ 2 + ((moyenne : ℚ) - (m1 : ℚ)) ^ 2) +
      ((qt4.nodes (4 * index + 2)).v ^ 2 + ((moyenne : ℚ) - (m2 : ℚ)) ^ 2) +
      ((qt4.nodes (4 * index + 3)).v ^ 2 + ((moyenne : ℚ) - (m3 : ℚ)) ^ 2) +
      ((qt4.nodes (4 * index + 4)).v ^ 2 + ((moyenne : ℚ) - (m4 : ℚ)) ^ 2)
    let v := sq somme_v / 4
    let u : ℕ := if m1 = m2 ∧ m2 = m3 ∧ m3 = m4 ∧
        (qt4.nodes (4 * index + 1)).u = 1 ∧ (qt4.nodes (4 * index + 2)).u = 1 ∧
        (qt4.nodes (4 * index + 3)).u = 1 ∧ (qt4.nodes (4 * index + 4)).u = 1 then 1 else 0
    { qt4 with
      nodes := updN qt4.nodes index ({ moyenne := moyenne, epsilon := epsilon, u := u, v := v }),
      medvar := qt4.medvar + v,
      maxvar := if v > qt4.maxvar then v else qt4.maxvar }

/-- Floor base-2 logarithm (`(int) log2((double) width)` in the C code,
exact for the integer widths in range), written with a structural fuel
argument so that it evaluates by kernel reduction; agrees with `Nat.log2`. -/
def log2fuel : ℕ → ℕ → ℕ
  | 0, _ => 0
  | fuel + 1, n => if n ≥ 2 then log2fuel fuel (n / 2) + 1 else 0

/-- Floor base-2 logarithm of the width. -/
def log2i (n : ℕ) : ℕ := log2fuel n n

/-- Model of `build_quadtree_from_image`: `n = log2(width)` (truncating, with
no validation of the width), build, then divide the accumulated `medvar` by
the number of internal nodes. -/
def build_quadtree_from_image (sq : ℚ → ℚ) (image : Image) : Quadtree :=
  let n := log2i image.width
  let quadtree := create_empty_quadtree n
  let quadtree := build_quadtree_rec sq image n quadtree 0 0 0
  { quadtree with
    medvar := quadtree.medvar / ((quadtree.total_nodes - (1 <<< (2 * quadtree.levels)) : ℕ) : ℚ) }

/-- Model of `write_node`: mean unless a fourth child, then epsilon, then the
uniformity bit when epsilon is zero. -/
def write_node (stream : BitStream) (node : Node) (index : ℕ) : BitStream :=
  let stream :=
    if index % 4 ≠ 0 ∨ index = 0 then push_n_bits stream node.moyenne 8 else stream
  let stream := push_n_bits stream node.epsilon 2
  if node.epsilon = 0 then push_n_bits stream node.u 1 else stream

/-- Model of `write_leaf`: mean only, and nothing for a fourth child. -/
def write_leaf (stream : BitStream) (node : Node) (index : ℕ) : BitStream :=
  if index % 4 ≠ 0 then push_n_bits stream node.moyenne 8 else stream

/-- Body of the `encode` loop for index `i`. -/
def encode_node (quadtree : Quadtree) (i : ℕ) (stream : BitStream) : BitStream :=
  if i = 0 then write_node stream (quadtree.nodes 0) 0
  else if (quadtree.nodes ((i - 1) / 4)).u ≠ 0 then stream
  else if is_leaf quadtree i then write_leaf stream (quadtree.nodes i) i
  else write_node stream (quadtree.nodes i) i

/-- The `encode` loop over indices `0, …, m - 1`. -/
def encodeLoop (quadtree : Quadtree) : ℕ → BitStream → BitStream
  | 0, stream => stream
  | m + 1, stream => encode_node quadtree m (encodeLoop quadtree m stream)

/-- Model of `encode`: header byte with the levels, loop over all nodes,
then `finishBitStream`. -/
def encode (quadtree : Quadtree) : BitStream :=
  let stream := initBitStream (quadtree.total_nodes * 2)
  let stream := push_n_bits stream quadtree.levels 8
  finishBitStream (encodeLoop quadtree quadtree.total_nodes stream)

/-! ## Decoder and painter (`decode.c`) -/

/-- Model of `read_node`: mean and epsilon, then the uniformity bit when
epsilon is zero (otherwise `u` is set to 0). -/
def read_node (stream : BitStream) (node : Node) : Node × BitStream :=
  let rm := read_n_bits stream 8
  let re := read_n_bits rm.2 2
  if re.1 = 0 then
    let ru := read_n_bits re.2 1
    ({ node with moyenne := rm.1, epsilon := re.1, u := ru.1 }, ru.2)
  else
    ({ node with moyenne := rm.1, epsilon := re.1, u := 0 }, re.2)

/-- Model of `read_leaf`: mean only; epsilon and uniformity are constants. -/
def read_leaf (stream : BitStream) (node : Node) : Node × BitStream :=
  let rm := read_n_bits stream 8
  ({ node with moyenne := rm.1, epsilon := 0, u := 1 }, rm.2)

/-- Model of `interpolation_4th_child`: the mean is reconstructed by `int`
arithmetic from the parent and the three siblings, then stored into the
`unsigned char` field (truncation mod 256, negative values wrapping). -/
def interpolation_4th_child (stream : BitStream) (quadtree : Quadtree) (node parent_node : Node)
    (index : ℕ) : Node × BitStream :=
  let m : ℤ := 4 * (parent_node.moyenne : ℤ) + (parent_node.epsilon : ℤ) -
    ((quadtree.nodes (index - 1)).moyenne : ℤ) - ((quadtree.nodes (index - 2)).moyenne : ℤ) -
    ((quadtree.nodes (index - 3)).moyenne : ℤ)
  let moyenne : ℕ := (m % 256).toNat
  if is_leaf quadtree index then
    ({ node with moyenne := moyenne, epsilon := 0, u := 1 }, stream)
  else
    let re := read_n_bits stream 2
    if re.1 = 0 then
      let ru := read_n_bits re.2 1
      ({ node with moyenne := moyenne, epsilon := re.1, u := ru.1 }, ru.2)
    else
      ({ node with moyenne := moyenne, epsilon := re.1, u := 0 }, re.2)

/-- Body of the `decode` loop for index `i`. -/
def decode_node (i : ℕ) (st : Quadtree × BitStream) : Quadtree × BitStream :=
  let quadtree := st.1
  let stream := st.2
  if i = 0 then
    let rn := read_node stream (quadtree.nodes 0)
    ({ quadtree with nodes := updN quadtree.nodes 0 rn.1 }, rn.2)
  else
    let parent := quadtree.nodes ((i - 1) / 4)
    if parent.u ≠ 0 then
      ({ quadtree with
         nodes := updN quadtree.nodes i
           ({ quadtree.nodes i with moyenne := parent.moyenne, epsilon := 0, u := 1 }) }, stream)
    else if i % 4 = 0 then
      let rn := interpolation_4th_child stream quadtree (quadtree.nodes i) parent i
      ({ quadtree with nodes := updN quadtree.nodes i rn.1 }, rn.2)
    else if is_leaf quadtree i then
      let rn := read_leaf stream (quadtree.nodes i)
      ({ quadtree with nodes := updN quadtree.nodes i rn.1 }, rn.2)
    else
      let rn := read_node stream (quadtree.nodes i)
      ({ quadtree with nodes := updN quadtree.nodes i rn.1 }, rn.2)

/-- The `decode` loop over indices `0, …, m - 1`. -/
def decodeLoop : ℕ → Quadtree × BitStream → Quadtree × BitStream
  | 0, st => st
  | m + 1, st => decode_node m (decodeLoop m st)

/-- Model of `decode`: read the levels byte, allocate the empty tree, fill
all nodes in index order. -/
def decode (stream : BitStream) : Quadtree :=
  let rl := read_n_bits stream 8
  let quadtree := create_empty_quadtree rl.1
  (decodeLoop quadtree.total_nodes (quadtree, rl.2)).1

/-- Model of `build_image_from_quadtree_rec`: preorder paint; a leaf writes
one pixel at `(x, y)`, an internal node recurses into the four half-size
quadrants clockwise.  The C recursion stops at the leaf level, whose index
test bounds the depth by `levels` on any well-shaped tree; the model adds
that depth bound as a structural `fuel` argument (the wrapper passes
`levels`), so that the function evaluates by kernel reduction.  With fuel
exhausted on a non-leaf index, where the C code would recurse further, the
model leaves the image unchanged; the proofs show this is unreachable on
well-shaped trees. -/
def build_image_from_quadtree_rec (quadtree : Quadtree) :
    ℕ → Image → ℕ → ℕ → ℕ → ℕ → Image
  | fuel, image, index, x, y, size =>
    if is_leaf quadtree index then
      { image with image := fun q =>
          if q = y * image.width + x then (quadtree.nodes index).moyenne else image.image q }
    else
      match fuel with
      | 0 => image
      | fuel + 1 =>
        let child_size := size / 2
        let image1 := build_image_from_quadtree_rec quadtree fuel image (4 * index + 1) x y
          child_size
        let image2 := build_image_from_quadtree_rec quadtree fuel image1 (4 * index + 2)
          (x + child_size) y child_size
        let image3 := build_image_from_quadtree_rec quadtree fuel image2 (4 * index + 3)
          (x + child_size) (y + child_size) child_size
        build_image_from_quadtree_rec quadtree fuel image3 (4 * index + 4) x (y + child_size)
          child_size

/-- Model of `build_image_from_quadtree`: allocate a `2^levels` square image
with `max_val` 255 and paint from the root. -/
def build_image_from_quadtree (quadtree : Quadtree) : Image :=
  let width := 1 <<< quadtree.levels
  let image_size := width * width
  let image := allocate_image width image_size 255
  build_image_from_quadtree_rec quadtree quadtree.levels image 0 0 0 width

/-- Model of `filtrage`.  The C recursion descends as long as the node is not
uniform; on a built tree every leaf is uniform, so the recursion depth is
bounded by `levels`.  The model adds that depth bound as a `fuel` argument
(the caller passes `levels`); with fuel exhausted on a non-uniform node the
C code would read past the node array. -/
def filtrage : ℕ → Quadtree → ℕ → ℚ → ℚ → ℕ × Quadtree
  | 0, quadtree, index, _, _ =>
    if (quadtree.nodes index).u ≠ 0 then (1, quadtree) else (0, quadtree)
  | fuel + 1, quadtree, index, sigma, alpha =>
    if (quadtree.nodes index).u ≠ 0 then (1, quadtree)
    else
      let r1 := filtrage fuel quadtree (4 * index + 1) (sigma * alpha) alpha
      let r2 := filtrage fuel r1.2 (4 * index + 2) (sigma * alpha) alpha
      let r3 := filtrage fuel r2.2 (4 * index + 3) (sigma * alpha) alpha
      let r4 := filtrage fuel r3.2 (4 * index + 4) (sigma * alpha) alpha
      let s := r1.1 + r2.1 + r3.1 + r4.1
      if s < 4 ∨ (r4.2.nodes index).v > sigma then (0, r4.2)
      else
        (1, { r4.2 with
              nodes := updN r4.2.nodes index
                ({ r4.2.nodes index with epsilon := 0, u := 1 }) })

/-- The filter exactly as `main` (`src/src/quadtree.c`) invokes it when `-a`
is given: root index 0, `sigma = medvar / maxvar`, recursion depth bounded by
the tree depth. -/
def applyFilter (quadtree : Quadtree) (alpha : ℚ) : Quadtree :=
  (filtrage quadtree.levels quadtree 0 (quadtree.medvar / quadtree.maxvar) alpha).2

/-- The per-node effect of the filter: mean and variance never change, and a
node is either untouched or collapsed (`u` from 0 to 1, `epsilon` to 0). -/
def nodeRel (a b : Node) : Prop :=
  b.moyenne = a.moyenne ∧ b.v = a.v ∧ (b = a ∨ (a.u = 0 ∧ b.u = 1 ∧ b.epsilon = 0))

/-! ## Field sequences

A field is a width/value pair; the encoder emits a sequence of fields and
the decoder reads them back in order.  `bitsSpec` says the buffer holds the
bits of a field sequence starting at bit `b`. -/

/-- Push a list of (width, value) fields in order. -/
def pushFields (stream : BitStream) : List (ℕ × ℕ) → BitStream
  | [] => stream
  | f :: fs => pushFields (push_n_bits stream f.2 f.1) fs

/-- Pull a list of field widths in order, collecting the values. -/
def pullFields (stream : BitStream) : List ℕ → List ℕ × BitStream
  | [] => ([], stream)
  | w :: rest =>
    let r := read_n_bits stream w
    let rr := pullFields r.2 rest
    (r.1 :: rr.1, rr.2)

/-- Total bit length of a field sequence. -/
def bitsLen : List (ℕ × ℕ) → ℕ
  | [] => 0
  | f :: fs => f.1 + bitsLen fs

/-- The buffer `d` holds the bits of the fields `fs` starting at bit `b`. -/
def bitsSpec (d : ℕ → ℕ) : ℕ → List (ℕ × ℕ) → Prop
  | _, [] => True
  | b, f :: fs => valOf d b f.1 = f.2 % 2 ^ f.1 ∧ bitsSpec d (b + f.1) fs

/-! ## Concrete inputs used by refutations and witnesses -/

/-- Stand-in for the abstract `sqrt` in claims whose conclusions do not
involve variances. -/
def sqZero : ℚ → ℚ := fun _ => 0

/-- The 1×1 raster `[128]` of the spec's first concrete scenario. -/
def raster1x1 : Image :=
  { width := 1, image_size := 1, max_val := 255, image := fun _ => 128 }

/-- A 3×3 raster (width not a power of two) with pixels `1, …, 9`. -/
def raster3 : Image :=
  { width := 3, image_size := 9, max_val := 255, image := fun p => p + 1 }

/-- The 2×2 raster `[10, 20, 30, 40]` (pixels `p % 4 * 10 + 10`). -/
def raster2x2 : Image :=
  { width := 2, image_size := 4, max_val := 255, image := fun p => p % 4 * 10 + 10 }

/-! ## Characterisation of the built tree -/

/-- Sum of the four children's means. -/
def childSum (qt : Quadtree) (j : ℕ) : ℕ :=
  (qt.nodes (4 * j + 1)).moyenne + (qt.nodes (4 * j + 2)).moyenne +
  (qt.nodes (4 * j + 3)).moyenne + (qt.nodes (4 * j + 4)).moyenne

/-- The quantity the builder passes to `sqrt` at an internal node. -/
def sommeV (qt : Quadtree) (j : ℕ) : ℚ :=
  ((qt.nodes (4 * j + 1)).v ^ 2 +
    (((qt.nodes j).moyenne : ℚ) - ((qt.nodes (4 * j + 1)).moyenne : ℚ)) ^ 2) +
  ((qt.nodes (4 * j + 2)).v ^ 2 +
    (((qt.nodes j).moyenne : ℚ) - ((qt.nodes (4 * j + 2)).moyenne : ℚ)) ^ 2) +
  ((qt.nodes (4 * j + 3)).v ^ 2 +
    (((qt.nodes j).moyenne : ℚ) - ((qt.nodes (4 * j + 3)).moyenne : ℚ)) ^ 2) +
  ((qt.nodes (4 * j + 4)).v ^ 2 +
    (((qt.nodes j).moyenne : ℚ) - ((qt.nodes (4 * j + 4)).moyenne : ℚ)) ^ 2)

/-- The node the builder stores at an internal index, as a function of the
four already-built children (the variance difference terms use the freshly
stored mean, as in the C code). -/
def buildNode (sq : ℚ → ℚ) (qt : Quadtree) (j : ℕ) : Node :=
  let m1 := (qt.nodes (4 * j + 1)).moyenne
  let m2 := (qt.nodes (4 * j + 2)).moyenne
  let m3 := (qt.nodes (4 * j + 3)).moyenne
  let m4 := (qt.nodes (4 * j + 4)).moyenne
  let somme_moyennes := m1 + m2 + m3 + m4
  let moyenne := somme_moyennes / 4 % 256
  let somme_v :=
    ((qt.nodes (4 * j + 1)).v ^ 2 + ((moyenne : ℚ) - (m1 : ℚ)) ^ 2) +
    ((qt.nodes (4 * j + 2)).v ^ 2 + ((moyenne : ℚ) - (m2 : ℚ)) ^ 2) +
    ((qt.nodes (4 * j + 3)).v ^ 2 + ((moyenne : ℚ) - (m3 : ℚ)) ^ 2) +
    ((qt.nodes (4 * j + 4)).v ^ 2 + ((moyenne : ℚ) - (m4 : ℚ)) ^ 2)
  { moyenne := moyenne,
    epsilon := somme_moyennes % 4,
    u := if m1 = m2 ∧ m2 = m3 ∧ m3 = m4 ∧
        (qt.nodes (4 * j + 1)).u = 1 ∧ (qt.nodes (4 * j + 2)).u = 1 ∧
        (qt.nodes (4 * j + 3)).u = 1 ∧ (qt.nodes (4 * j + 4)).u = 1 then 1 else 0,
    v := sq somme_v / 4 }

/-- The field equations the builder establishes at an internal node. -/
def internalEq (sq : ℚ → ℚ) (qt : Quadtree) (j : ℕ) : Prop :=
  (qt.nodes j).moyenne = childSum qt j / 4 % 256 ∧
  (qt.nodes j).epsilon = childSum qt j % 4 ∧
  (qt.nodes j).u = (if (qt.nodes (4 * j + 1)).moyenne = (qt.nodes (4 * j + 2)).moyenne ∧
      (qt.nodes (4 * j + 2)).moyenne = (qt.nodes (4 * j + 3)).moyenne ∧
      (qt.nodes (4 * j + 3)).moyenne = (qt.nodes (4 * j + 4)).moyenne ∧
      (qt.nodes (4 * j + 1)).u = 1 ∧ (qt.nodes (4 * j + 2)).u = 1 ∧
      (qt.nodes (4 * j + 3)).u = 1 ∧ (qt.nodes (4 * j + 4)).u = 1 then 1 else 0) ∧
  (qt.nodes j).v = sq (sommeV qt j) / 4

/-! ## Pixel addressing of the quadrant decomposition -/

/-- Flat index of the cell at offset `(a, b)` (column, row) inside the
depth-`n` subtree rooted at `i`, following the clockwise child layout of the
code: top-left, top-right, bottom-right, bottom-left. -/
def qIndex : ℕ → ℕ → ℕ → ℕ → ℕ
  | 0, i, _, _ => i
  | n + 1, i, a, b =>
    if a < 2 ^ n then
      if b < 2 ^ n then qIndex n (4 * i + 1) a b
      else qIndex n (4 * i + 4) a (b - 2 ^ n)
    else
      if b < 2 ^ n then qIndex n (4 * i + 2) (a - 2 ^ n) b
      else qIndex n (4 * i + 3) (a - 2 ^ n) (b - 2 ^ n)

/-! ## The encoder as a field sequence -/

/-- The fields `write_node` pushes. -/
def writeNodeFields (nd : Node) (index : ℕ) : List (ℕ × ℕ) :=
  (if index % 4 ≠ 0 ∨ index = 0 then [(8, nd.moyenne)] else []) ++
    ((2, nd.epsilon) :: (if nd.epsilon = 0 then [(1, nd.u)] else []))

/-- The fields `write_leaf` pushes. -/
def writeLeafFields (nd : Node) (index : ℕ) : List (ℕ × ℕ) :=
  if index % 4 ≠ 0 then [(8, nd.moyenne)] else []

/-- The fields the `encode` loop pushes for index `i`. -/
def nodeFields (B : Quadtree) (i : ℕ) : List (ℕ × ℕ) :=
  if i = 0 then writeNodeFields (B.nodes 0) 0
  else if (B.nodes ((i - 1) / 4)).u ≠ 0 then []
  else if is_leaf B i then writeLeafFields (B.nodes i) i
  else writeNodeFields (B.nodes i) i

/-- All fields pushed for indices `0, …, m - 1`. -/
def allFields (B : Quadtree) : ℕ → List (ℕ × ℕ)
  | 0 => []
  | m + 1 => allFields B m ++ nodeFields B m

/-- The `int` value the decoder reconstructs for a fourth child, truncated
into the `unsigned char` field. -/
def interpVal (quadtree : Quadtree) (parent_node : Node) (index : ℕ) : ℕ :=
  ((4 * (parent_node.moyenne : ℤ) + (parent_node.epsilon : ℤ) -
    ((quadtree.nodes (index - 1)).moyenne : ℤ) - ((quadtree.nodes (index - 2)).moyenne : ℤ) -
    ((quadtree.nodes (index - 3)).moyenne : ℤ)) % 256).toNat

/-- The node the decoder stores when copying a uniform parent. -/
def copyNode (qtm : Quadtree) (i : ℕ) : Node :=
  { qtm.nodes i with moyenne := (qtm.nodes ((i - 1) / 4)).moyenne, epsilon := 0, u := 1 }

/-! ## Theorems -/

theorem getbit_eq (x i : ℕ) : getbit x i = x / 2 ^ i % 2 := by
  simp [getbit, Nat.shiftRight_eq_div_pow, Nat.and_one_is_mod]

theorem getbit_le_one (x i : ℕ) : getbit x i ≤ 1 := by
  rw [getbit_eq]; omega

theorem setbit_lt_256 : ∀ x < 256, ∀ j < 8, ∀ v ≤ 1, setbit x j v < 256 := by decide

theorem getbit_setbit_self : ∀ x < 256, ∀ j < 8, ∀ v ≤ 1,
    getbit (setbit x j v) j = v := by decide

theorem getbit_setbit_other : ∀ x < 256, ∀ j < 8, ∀ k < 8, j ≠ k → ∀ v ≤ 1,
    getbit (setbit x j v) k = getbit x k := by decide

theorem setbit_eq : ∀ x < 256, ∀ j < 8, ∀ v ≤ 1,
    setbit x j v = 2 ^ (j + 1) * (x / 2 ^ (j + 1)) + v * 2 ^ j + x % 2 ^ j := by decide

theorem bitAt_le_one (d : ℕ → ℕ) (p : ℕ) : bitAt d p ≤ 1 :=
  getbit_le_one _ _

theorem byteOK_updData {d : ℕ → ℕ} (hd : byteOK d) {β : ℕ} (hβ : β ≤ 1) (b : ℕ) :
    byteOK (updData d b β) := by
  intro j
  unfold updData
  split
  · exact setbit_lt_256 _ (hd _) _ (by omega) _ hβ
  · exact hd j

theorem bitAt_updData {d : ℕ → ℕ} (hd : byteOK d) {β : ℕ} (hβ : β ≤ 1) (b p : ℕ) :
    bitAt (updData d b β) p = if p = b then β else bitAt d p := by
  unfold bitAt updData
  by_cases hb : p / 8 = b / 8
  · rw [hb, if_pos rfl]
    by_cases hpb : p = b
    · rw [if_pos hpb, hpb]
      exact getbit_setbit_self _ (hd _) _ (by omega) _ hβ
    · rw [if_neg hpb]
      have hne : 7 - b % 8 ≠ 7 - p % 8 := by omega
      rw [getbit_setbit_other _ (hd _) _ (by omega) _ (by omega) hne _ hβ]
  · have hpb : p ≠ b := by intro h; exact hb (by rw [h])
    rw [if_neg (fun h => hb (by rw [h])), if_neg hpb]

theorem pushStep_ws (d : ℕ → ℕ) (r b β : ℕ) :
    pushStep (ws d r b) β = ws (updData d b β) r (b + 1) := by
  unfold pushStep
  split
  · next h =>
    have hb : 0 < b ∧ b % 8 = 0 := by
      have : capOf b = 0 := h
      unfold capOf at this; omega
    have h1 : posOf b + 1 = b / 8 := by unfold posOf; omega
    have h2 : (7 : ℕ) = 7 - b % 8 := by omega
    have h3 : posOf (b + 1) = b / 8 := by unfold posOf; omega
    have h4 : capOf (b + 1) = 7 := by unfold capOf; omega
    refine BitStream.ext ?_ ?_ rfl ?_
    · funext j
      show (if j = posOf b + 1 then setbit (d (posOf b + 1)) 7 β else d j) = updData d b β j
      unfold updData
      rw [h1, ← h2]
    · show posOf b + 1 = posOf (b + 1)
      omega
    · show (7 : ℕ) = capOf (b + 1)
      omega
  · next h =>
    have hb : b = 0 ∨ b % 8 ≠ 0 := by
      have : capOf b ≠ 0 := h
      unfold capOf at this; omega
    have h1 : posOf b = b / 8 := by unfold posOf; omega
    have h2 : capOf b - 1 = 7 - b % 8 := by unfold capOf; omega
    have h3 : posOf (b + 1) = b / 8 := by unfold posOf; omega
    have h4 : capOf (b + 1) = capOf b - 1 := by unfold capOf; omega
    refine BitStream.ext ?_ ?_ rfl ?_
    · funext j
      show (if j = posOf b then setbit (d (posOf b)) (capOf b - 1) β else d j) = updData d b β j
      unfold updData
      rw [h1, h2]
    · show posOf b = posOf (b + 1)
      omega
    · show capOf b - 1 = capOf (b + 1)
      omega

theorem pullStep_rs (d : ℕ → ℕ) (w p : ℕ) :
    pullStep (rs d w p) = (rs d w (p + 1), bitAt d p) := by
  unfold pullStep
  split
  · next h =>
    have hb : 0 < p ∧ p % 8 = 0 := by
      have : capOf p = 0 := h
      unfold capOf at this; omega
    have h1 : posOf p + 1 = p / 8 := by unfold posOf; omega
    have h2 : (7 : ℕ) = 7 - p % 8 := by omega
    have h3 : posOf (p + 1) = p / 8 := by unfold posOf; omega
    have h4 : capOf (p + 1) = 7 := by unfold capOf; omega
    refine Prod.ext ?_ ?_
    · refine BitStream.ext rfl rfl ?_ ?_
      · show posOf p + 1 = posOf (p + 1); omega
      · show (7 : ℕ) = capOf (p + 1); omega
    · show getbit (d (posOf p + 1)) 7 = bitAt d p
      unfold bitAt
      rw [h1, ← h2]
  · next h =>
    have hb : p = 0 ∨ p % 8 ≠ 0 := by
      have : capOf p ≠ 0 := h
      unfold capOf at this; omega
    have h1 : posOf p = p / 8 := by unfold posOf; omega
    have h2 : capOf p - 1 = 7 - p % 8 := by unfold capOf; omega
    have h3 : posOf (p + 1) = p / 8 := by unfold posOf; omega
    have h4 : capOf (p + 1) = capOf p - 1 := by unfold capOf; omega
    refine Prod.ext ?_ ?_
    · refine BitStream.ext rfl rfl ?_ ?_
      · show posOf p = posOf (p + 1); omega
      · show capOf p - 1 = capOf (p + 1); omega
    · show getbit (d (posOf p)) (capOf p - 1) = bitAt d p
      unfold bitAt
      rw [h1, h2]

/-- Main characterisation of `pushbits` during a write-only phase: starting
with `b` bits already written, pushing the low `n` bits of `src` advances the
cursor to `b + n`, leaves all other bits unchanged, and records the bits of
`src` MSB-first. -/
theorem pushbits_ws :
    ∀ n b d r src, byteOK d →
    ∃ e, pushbits (ws d r b) src n = (n, ws e r (b + n)) ∧ byteOK e ∧
      (∀ p, p < b ∨ b + n ≤ p → bitAt e p = bitAt d p) ∧
      (∀ i, i < n → bitAt e (b + i) = getbit src (n - 1 - i)) := by
  intro n
  induction n with
  | zero => intro b d r src hd; exact ⟨d, rfl, hd, fun p _ => rfl, fun i hi => by omega⟩
  | succ n ih =>
    intro b d r src hd
    have hβ : getbit src n ≤ 1 := getbit_le_one _ _
    have hstep := pushStep_ws d r b (getbit src n)
    have hd1 : byteOK (updData d b (getbit src n)) := byteOK_updData hd hβ b
    obtain ⟨e, heq, he, hpres, hbits⟩ := ih (b + 1) (updData d b (getbit src n)) r src hd1
    refine ⟨e, ?_, he, ?_, ?_⟩
    · show (let r := pushbits (pushStep (ws d r b) (getbit src n)) src n; (r.1 + 1, r.2)) = _
      rw [hstep, heq]
      show (n + 1, ws e r (b + 1 + n)) = (n + 1, ws e r (b + (n + 1)))
      exact Prod.ext rfl (congrArg (ws e r) (by omega))
    · intro p hp
      rw [hpres p (by omega), bitAt_updData hd hβ b p, if_neg (by omega)]
    · intro i hi
      rcases Nat.eq_zero_or_pos i with hi0 | hipos
      · subst hi0
        rw [show b + 0 = b from rfl, hpres b (by omega), bitAt_updData hd hβ b b, if_pos rfl,
          show n + 1 - 1 - 0 = n from by omega]
      · obtain ⟨j, rfl⟩ : ∃ j, i = j + 1 := ⟨i - 1, by omega⟩
        have := hbits j (by omega)
        rw [show b + (j + 1) = b + 1 + j from by omega, this]
        congr 1
        omega

theorem valOf_lt (d : ℕ → ℕ) : ∀ n p, valOf d p n < 2 ^ n := by
  intro n
  induction n with
  | zero => intro p; simp [valOf]
  | succ n ih =>
    intro p
    have h1 := bitAt_le_one d p
    have h2 := ih (p + 1)
    have : (2:ℕ) ^ (n+1) = 2 ^ n + 2 ^ n := by rw [pow_succ]; omega
    simp only [valOf]
    nlinarith

theorem valOf_congr {d e : ℕ → ℕ} : ∀ n p, (∀ i, i < n → bitAt d (p + i) = bitAt e (p + i)) →
    valOf d p n = valOf e p n := by
  intro n
  induction n with
  | zero => intro p _; rfl
  | succ n ih =>
    intro p h
    simp only [valOf]
    rw [show p = p + 0 from rfl, h 0 (by omega)]
    have := ih (p + 1) (fun i hi => by
      have := h (i + 1) (by omega)
      rwa [show p + (i + 1) = p + 1 + i from by omega] at this)
    rw [this]

/-- Reading back bits that were written from `src` yields `src % 2 ^ n`. -/
theorem valOf_of_bits {e : ℕ → ℕ} {src : ℕ} :
    ∀ n b, (∀ i, i < n → bitAt e (b + i) = getbit src (n - 1 - i)) →
    valOf e b n = src % 2 ^ n := by
  intro n
  induction n with
  | zero => intro b _; simp [valOf, Nat.mod_one]
  | succ n ih =>
    intro b h
    simp only [valOf]
    have h0 : bitAt e b = getbit src n := by
      have := h 0 (by omega)
      rwa [show b + 0 = b from rfl, show n + 1 - 1 - 0 = n from by omega] at this
    have htail : valOf e (b + 1) n = src % 2 ^ n := by
      refine ih (b + 1) (fun i hi => ?_)
      have := h (i + 1) (by omega)
      rwa [show b + (i + 1) = b + 1 + i from by omega,
        show n + 1 - 1 - (i + 1) = n - 1 - i from by omega] at this
    rw [h0, htail, getbit_eq]
    have hmm : src % (2 ^ n * 2) = src % 2 ^ n + src / 2 ^ n % 2 * 2 ^ n := by
      rw [Nat.mod_mul]; ring
    rw [pow_succ]
    omega

/-- Main characterisation of `pullbits` during a read-only phase: starting at
read position `p`, pulling `n ≤ 8` bits yields the value `valOf d p n` in the
low `n` bits of `dest` and advances the read position to `p + n`. -/
theorem pullbits_rs :
    ∀ n, n ≤ 8 → ∀ p dest d w, dest < 256 → byteOK d →
    pullbits (rs d w p) dest n = (n, 2 ^ n * (dest / 2 ^ n) + valOf d p n, rs d w (p + n)) := by
  intro n
  induction n with
  | zero =>
    intro _ p dest d w _ _
    simp [pullbits, valOf]
  | succ n ih =>
    intro hn p dest d w hdest hd
    have hβ : bitAt d p ≤ 1 := bitAt_le_one d p
    have hdest1 : setbit dest n (bitAt d p) < 256 :=
      setbit_lt_256 _ hdest _ (by omega) _ hβ
    show (let s := pullStep (rs d w p);
          let r := pullbits s.1 (setbit dest n s.2) n;
          (r.1 + 1, r.2.1, r.2.2)) = _
    rw [pullStep_rs]
    simp only []
    rw [ih (by omega) (p + 1) _ d w hdest1 hd]
    refine Prod.ext rfl (Prod.ext ?_ ?_)
    · show 2 ^ n * (setbit dest n (bitAt d p) / 2 ^ n) + valOf d (p + 1) n =
        2 ^ (n + 1) * (dest / 2 ^ (n + 1)) + valOf d p (n + 1)
      have hsb : setbit dest n (bitAt d p) =
          2 ^ (n + 1) * (dest / 2 ^ (n + 1)) + bitAt d p * 2 ^ n + dest % 2 ^ n :=
        setbit_eq _ hdest _ (by omega) _ hβ
      have hP : (0:ℕ) < 2 ^ n := Nat.pos_pow_of_pos n (by omega)
      have hdiv : setbit dest n (bitAt d p) / 2 ^ n =
          2 * (dest / 2 ^ (n + 1)) + bitAt d p := by
        rw [hsb, show 2 ^ (n + 1) * (dest / 2 ^ (n + 1)) + bitAt d p * 2 ^ n + dest % 2 ^ n =
          2 ^ n * (2 * (dest / 2 ^ (n + 1)) + bitAt d p) + dest % 2 ^ n from by ring,
          Nat.mul_add_div hP, Nat.div_eq_of_lt (Nat.mod_lt _ hP)]
        omega
      rw [hdiv]
      simp only [valOf]
      ring
    · show rs d w (p + 1 + n) = rs d w (p + (n + 1))
      rw [show p + 1 + n = p + (n + 1) from by omega]

/-- The loop of `pullbits` always reports `nbit` bits read, whatever the
stream state: there is no representation of "remaining bits" to run out of. -/
theorem pullbits_count : ∀ n st dest, (pullbits st dest n).1 = n := by
  intro n
  induction n with
  | zero => intro st dest; rfl
  | succ n ih => intro st dest; simp only [pullbits, ih]

theorem read_n_bits_rs {n : ℕ} (hn : n ≤ 8) (d : ℕ → ℕ) (w p : ℕ) (hd : byteOK d) :
    read_n_bits (rs d w p) n = (valOf d p n, rs d w (p + n)) := by
  unfold read_n_bits
  rw [pullbits_rs n hn p 0 d w (by omega) hd]
  simp

theorem push_n_bits_ws {b : ℕ} {d : ℕ → ℕ} (r src n : ℕ) (hd : byteOK d) :
    ∃ e, push_n_bits (ws d r b) src n = ws e r (b + n) ∧ byteOK e ∧
      (∀ p, p < b ∨ b + n ≤ p → bitAt e p = bitAt d p) ∧
      (∀ i, i < n → bitAt e (b + i) = getbit (src % 256) (n - 1 - i)) := by
  obtain ⟨e, heq, he, hp, hb⟩ := pushbits_ws n b d r (src % 256) hd
  exact ⟨e, by unfold push_n_bits; rw [heq], he, hp, hb⟩

/-- Effect of `finishBitStream` on a stream in write phase: the data bits
already written are preserved, and the resulting stream is ready to be read
from bit position 0 (capacity 8, read cursor wherever it was). -/
theorem finishBitStream_ws {b : ℕ} {d : ℕ → ℕ} (r : ℕ) (hd : byteOK d) :
    ∃ e wfin, finishBitStream (ws d r b) = { data := e, wpos := wfin, rpos := r, capa := 8 } ∧
      byteOK e ∧ (∀ p, p < b → bitAt e p = bitAt d p) := by
  unfold finishBitStream
  by_cases h : capOf b = 8
  · have hb : b = 0 := by unfold capOf at h; omega
    subst hb
    refine ⟨d, 0, ?_, hd, fun p hp => by omega⟩
    show (if (ws d r 0).capa ≠ 8 then _ else ws d r 0) = _
    rw [if_neg (by show ¬((ws d r 0).capa ≠ 8); show ¬(capOf 0 ≠ 8); unfold capOf; omega)]
    show ws d r 0 = _
    unfold ws posOf capOf
    exact BitStream.ext rfl rfl rfl rfl
  · obtain ⟨e, heq, he, hp, _⟩ := push_n_bits_ws (b := b) (d := d) r 0 (capOf b) hd
    refine ⟨e, posOf (b + capOf b) + 1, ?_, he, fun p hpb => hp p (by omega)⟩
    rw [if_pos (by show (ws d r b).capa ≠ 8; exact h)]
    show { push_n_bits (ws d r b) 0 ((ws d r b).capa) with
            wpos := (push_n_bits (ws d r b) 0 ((ws d r b).capa)).wpos + 1, capa := 8 } = _
    have hc : (ws d r b).capa = capOf b := rfl
    rw [hc, heq]
    exact BitStream.ext rfl rfl rfl rfl

theorem tLevel_pow (d : ℕ) : 3 * tLevel d + 1 = 4 ^ d := by
  induction d with
  | zero => rfl
  | succ d ih => simp only [tLevel, pow_succ]; omega

theorem tLevel_lt_tLevel {d e : ℕ} (h : d < e) : tLevel d < tLevel e := by
  induction e with
  | zero => omega
  | succ e ih =>
    rcases Nat.lt_succ_iff_lt_or_eq.mp h with h1 | h1
    · have := ih h1; simp only [tLevel]; omega
    · subst h1; simp only [tLevel]; omega

theorem tLevel_le_tLevel {d e : ℕ} (h : d ≤ e) : tLevel d ≤ tLevel e := by
  rcases Nat.lt_or_ge d e with h1 | h1
  · exact Nat.le_of_lt (tLevel_lt_tLevel h1)
  · have : d = e := by omega
    subst this; omega

theorem total_nodes_foldl (a : ℕ) :
    ∀ n, (List.range n).foldl (fun total i => total + (1 <<< (2 * i))) a = a + tLevel n := by
  intro n
  induction n generalizing a with
  | zero => simp [tLevel]
  | succ n ih =>
    rw [List.range_succ, List.foldl_append, ih]
    show a + tLevel n + 1 <<< (2 * n) = a + tLevel (n + 1)
    have h1 : 1 <<< (2 * n) = 4 ^ n := by
      rw [Nat.shiftLeft_eq, one_mul, pow_mul]
      norm_num
    have := tLevel_pow n
    simp only [tLevel]
    omega

theorem create_empty_total (levels : ℕ) :
    (create_empty_quadtree levels).total_nodes = tLevel (levels + 1) := by
  show (List.range (levels + 1)).foldl _ 0 = _
  rw [total_nodes_foldl 0 (levels + 1)]
  omega

theorem descAt_bounds : ∀ d i j, descAt d i j →
    4 ^ d * i + tLevel d ≤ j ∧ j < 4 ^ d * i + tLevel d + 4 ^ d := by
  intro d
  induction d with
  | zero => intro i j h; rw [h]; simp [tLevel]
  | succ d ih =>
    intro i j h
    have key : ∀ r, 1 ≤ r → r ≤ 4 → descAt d (4 * i + r) j →
        4 ^ (d + 1) * i + tLevel (d + 1) ≤ j ∧ j < 4 ^ (d + 1) * i + tLevel (d + 1) + 4 ^ (d + 1) := by
      intro r hr1 hr4 hdesc
      obtain ⟨hlo, hhi⟩ := ih (4 * i + r) j hdesc
      have hpow := tLevel_pow d
      have hexp : 4 ^ d * (4 * i + r) = 4 * (4 ^ d * i) + 4 ^ d * r := by ring
      have hsucc : (4:ℕ) ^ (d + 1) = 4 * 4 ^ d := by rw [pow_succ]; ring
      have hexp2 : 4 ^ (d + 1) * i = 4 * (4 ^ d * i) := by rw [pow_succ]; ring
      have hr_lo : 4 ^ d ≤ 4 ^ d * r := Nat.le_mul_of_pos_right _ (by omega)
      have hr_hi : 4 ^ d * r ≤ 4 ^ d * 4 := Nat.mul_le_mul_left _ hr4
      simp only [tLevel]
      omega
    rcases h with h | h | h | h
    · exact key 1 (by omega) (by omega) h
    · exact key 2 (by omega) (by omega) h
    · exact key 3 (by omega) (by omega) h
    · exact key 4 (by omega) (by omega) h

theorem descAt_ge {d i j : ℕ} (h : descAt d i j) : i ≤ j := by
  obtain ⟨hlo, _⟩ := descAt_bounds d i j h
  have : i ≤ 4 ^ d * i := Nat.le_mul_of_pos_left _ (Nat.pos_pow_of_pos d (by omega))
  omega

/-- Subtrees of distinct children of the same parent are disjoint. -/
theorem desc_sibling_disjoint {i j r s d e : ℕ} (hr1 : 1 ≤ r) (hrs : r < s) (hs4 : s ≤ 4)
    (h1 : descAt d (4 * i + r) j) (h2 : descAt e (4 * i + s) j) : False := by
  obtain ⟨hlo1, hhi1⟩ := descAt_bounds d (4 * i + r) j h1
  obtain ⟨hlo2, hhi2⟩ := descAt_bounds e (4 * i + s) j h2
  rcases Nat.lt_trichotomy d e with hde | hde | hde
  · -- r's subtree block ends before s's block starts (deeper level)
    have hp1 : 4 * 4 ^ d ≤ 4 ^ e := by
      calc 4 * 4 ^ d = 4 ^ (d + 1) := by rw [pow_succ]; ring
      _ ≤ 4 ^ e := Nat.pow_le_pow_right (by omega) (by omega)
    have ht1 : 4 * tLevel d + 1 ≤ tLevel e := by
      have h3 : tLevel (d + 1) ≤ tLevel e := tLevel_le_tLevel (by omega)
      simp only [tLevel] at h3
      omega
    have hQ : 4 ^ d * (4 * i + r) + 4 ^ d ≤ 4 ^ d * (4 * i + s) := by
      have := Nat.mul_le_mul_left (4 ^ d) (show 4 * i + r + 1 ≤ 4 * i + s from by omega)
      nlinarith
    have hR : 4 * (4 ^ d * (4 * i + s)) ≤ 4 ^ e * (4 * i + s) := by
      have := Nat.mul_le_mul_right (4 * i + s) hp1
      nlinarith
    omega
  · subst hde
    have hQ : 4 ^ d * (4 * i + r) + 4 ^ d ≤ 4 ^ d * (4 * i + s) := by
      have := Nat.mul_le_mul_left (4 ^ d) (show 4 * i + r + 1 ≤ 4 * i + s from by omega)
      nlinarith
    omega
  · -- s's subtree block ends before r's block starts
    have hp1 : 4 * 4 ^ e ≤ 4 ^ d := by
      calc 4 * 4 ^ e = 4 ^ (e + 1) := by rw [pow_succ]; ring
      _ ≤ 4 ^ d := Nat.pow_le_pow_right (by omega) (by omega)
    have ht1 : 4 * tLevel e + 1 ≤ tLevel d := by
      have h3 : tLevel (e + 1) ≤ tLevel d := tLevel_le_tLevel (by omega)
      simp only [tLevel] at h3
      omega
    have hpe := tLevel_pow e
    have hU : 4 * (4 ^ e * (4 * i + r)) ≤ 4 ^ d * (4 * i + r) := by
      have := Nat.mul_le_mul_right (4 * i + r) hp1
      nlinarith
    have hT : 4 ^ e * (4 * i + s) ≤ 4 * (4 ^ e * (4 * i + r)) := by
      have := Nat.mul_le_mul_left (4 ^ e) (show 4 * i + s ≤ 4 * (4 * i + r) from by omega)
      nlinarith
    omega

/-- A node is never a member of the subtrees of its own children. -/
theorem not_descAt_self {d i r : ℕ} (hr : 1 ≤ r) (h : descAt d (4 * i + r) i) : False := by
  have := descAt_ge h
  omega

theorem descAt_child {d i j k : ℕ} (hk1 : 1 ≤ k) (hk4 : k ≤ 4) (h : descAt d i j) :
    descAt (d + 1) i (4 * j + k) := by
  induction d generalizing i with
  | zero =>
    rw [show j = i from h]
    show descAt 1 i (4 * i + k)
    interval_cases k
    · exact Or.inl rfl
    · exact Or.inr (Or.inl rfl)
    · exact Or.inr (Or.inr (Or.inl rfl))
    · exact Or.inr (Or.inr (Or.inr rfl))
  | succ d ih =>
    rcases h with h | h | h | h
    · exact Or.inl (ih h)
    · exact Or.inr (Or.inl (ih h))
    · exact Or.inr (Or.inr (Or.inl (ih h)))
    · exact Or.inr (Or.inr (Or.inr (ih h)))

theorem descAt_root_range {d j : ℕ} (h : descAt d 0 j) :
    tLevel d ≤ j ∧ j < tLevel (d + 1) := by
  obtain ⟨hlo, hhi⟩ := descAt_bounds d 0 j h
  have := tLevel_pow d
  simp only [Nat.mul_zero, Nat.zero_add] at hlo hhi
  simp only [tLevel]
  omega

theorem desc_unique_depth {d e j : ℕ} (h1 : descAt d 0 j) (h2 : descAt e 0 j) : d = e := by
  obtain ⟨ha, hb⟩ := descAt_root_range h1
  obtain ⟨hc, hd⟩ := descAt_root_range h2
  by_contra hne
  rcases Nat.lt_or_ge d e with h | h
  · have := tLevel_le_tLevel (show d + 1 ≤ e from by omega)
    omega
  · have : e < d := by omega
    have := tLevel_le_tLevel (show e + 1 ≤ d from by omega)
    omega

/-- Every flat index below `tLevel (L + 1)` lies at a unique depth `d ≤ L` of
the subtree rooted at index 0. -/
theorem flat_to_desc {L : ℕ} : ∀ j, j < tLevel (L + 1) → ∃ d, d ≤ L ∧ descAt d 0 j := by
  intro j
  induction j using Nat.strong_induction_on with
  | _ j ih =>
    intro hj
    rcases Nat.eq_zero_or_pos j with hj0 | hjpos
    · exact ⟨0, by omega, by rw [hj0]; rfl⟩
    · have hL : 1 ≤ L := by
        by_contra hL
        have : L = 0 := by omega
        subst this
        simp [tLevel] at hj
        omega
      set p := (j - 1) / 4 with hp
      set r := (j - 1) % 4 + 1 with hr
      have hj4 : j = 4 * p + r ∧ 1 ≤ r ∧ r ≤ 4 := by omega
      have hptL : p < tLevel L := by
        have h4 : tLevel (L + 1) = 4 * tLevel L + 1 := rfl
        have htLpos : 1 ≤ tLevel L := by
          have := tLevel_lt_tLevel (show 0 < L from hL)
          simp [tLevel] at this
          omega
        omega
      have hpj : p < j := by omega
      obtain ⟨d, hd, hdesc⟩ := ih p hpj (by
        have := tLevel_lt_tLevel (show L < L + 1 from by omega)
        omega)
      have hdL : d < L := by
        obtain ⟨ha, _⟩ := descAt_root_range hdesc
        by_contra hcon
        have : d = L := by omega
        subst this
        omega
      refine ⟨d + 1, by omega, ?_⟩
      rw [hj4.1]
      exact descAt_child hj4.2.1 hj4.2.2 hdesc

theorem log2fuel_eq : ∀ fuel n, n ≤ fuel → log2fuel fuel n = Nat.log2 n := by
  intro fuel
  induction fuel with
  | zero =>
    intro n hn
    have : n = 0 := by omega
    subst this
    rw [Nat.log2]
    rfl
  | succ fuel ih =>
    intro n hn
    show (if n ≥ 2 then log2fuel fuel (n / 2) + 1 else 0) = Nat.log2 n
    rw [Nat.log2]
    by_cases h : n ≥ 2
    · rw [if_pos h, if_pos h, ih (n / 2) (by omega)]
    · rw [if_neg h, if_neg h]

theorem log2i_eq (n : ℕ) : log2i n = Nat.log2 n := log2fuel_eq n n (le_refl n)

theorem log2i_two_pow (L : ℕ) : log2i (2 ^ L) = L := by
  rw [log2i_eq]
  induction L with
  | zero =>
    rw [Nat.log2]
    rfl
  | succ L ih =>
    rw [Nat.log2]
    have h2 : 2 ^ (L + 1) ≥ 2 := by
      have : (2:ℕ) ^ 1 ≤ 2 ^ (L + 1) := Nat.pow_le_pow_right (by omega) (by omega)
      simpa using this
    rw [if_pos h2, show 2 ^ (L + 1) / 2 = 2 ^ L from by rw [pow_succ]; omega, ih]

/-! ## Lemmas about the filter -/

theorem inSub_self (n i : ℕ) : inSub n i i := ⟨0, by omega, rfl⟩

theorem inSub_child {n i j k : ℕ} (hk1 : 1 ≤ k) (hk4 : k ≤ 4) (h : inSub n (4 * i + k) j) :
    inSub (n + 1) i j := by
  obtain ⟨d, hd, hdesc⟩ := h
  refine ⟨d + 1, by omega, ?_⟩
  show descAt (d + 1) i j
  interval_cases k
  · exact Or.inl hdesc
  · exact Or.inr (Or.inl hdesc)
  · exact Or.inr (Or.inr (Or.inl hdesc))
  · exact Or.inr (Or.inr (Or.inr hdesc))

theorem not_inSub_child {n i j k : ℕ} (hk1 : 1 ≤ k) (hk4 : k ≤ 4)
    (h : ¬ inSub (n + 1) i j) : ¬ inSub n (4 * i + k) j :=
  fun hc => h (inSub_child hk1 hk4 hc)

theorem inSub_ge {n i j : ℕ} (h : inSub n i j) : i ≤ j := by
  obtain ⟨d, _, hdesc⟩ := h
  exact descAt_ge hdesc

theorem not_inSub_child_self {n i k : ℕ} (hk1 : 1 ≤ k) : ¬ inSub n (4 * i + k) i := by
  intro h
  have := inSub_ge h
  omega

theorem inSub_sibling_disjoint {n i j r s : ℕ} (hr1 : 1 ≤ r) (hs1 : 1 ≤ s) (hr4 : r ≤ 4)
    (hs4 : s ≤ 4) (hrs : r ≠ s) (h1 : inSub n (4 * i + r) j) : ¬ inSub n (4 * i + s) j := by
  intro h2
  obtain ⟨d, _, hd⟩ := h1
  obtain ⟨e, _, he⟩ := h2
  rcases Nat.lt_or_ge r s with h | h
  · exact desc_sibling_disjoint hr1 h hs4 hd he
  · exact desc_sibling_disjoint hs1 (by omega) hr4 he hd

theorem nodeRel_refl (a : Node) : nodeRel a a := ⟨rfl, rfl, Or.inl rfl⟩

theorem nodeRel_trans {a b c : Node} (h1 : nodeRel a b) (h2 : nodeRel b c) : nodeRel a c := by
  obtain ⟨m1, v1, d1⟩ := h1
  obtain ⟨m2, v2, d2⟩ := h2
  refine ⟨m2.trans m1, v2.trans v1, ?_⟩
  rcases d1 with rfl | ⟨u1, u2, e2⟩
  · exact d2
  · rcases d2 with rfl | ⟨u3, u4, e4⟩
    · exact Or.inr ⟨u1, u2, e2⟩
    · omega

/-- Basic facts about one `filtrage` call: the tree-level scalars are
untouched, nodes outside the subtree are untouched, every node satisfies
`nodeRel`, the returned flag is boolean, flag 1 leaves the root uniform, and
flag 0 means the root node was not touched and was non-uniform. -/
theorem filtrage_basic (α : ℚ) : ∀ (fuel : ℕ) (qt : Quadtree) (i : ℕ) (σ : ℚ),
    ((filtrage fuel qt i σ α).2.total_nodes = qt.total_nodes ∧
     (filtrage fuel qt i σ α).2.levels = qt.levels ∧
     (filtrage fuel qt i σ α).2.medvar = qt.medvar ∧
     (filtrage fuel qt i σ α).2.maxvar = qt.maxvar) ∧
    (∀ j, ¬ inSub fuel i j → (filtrage fuel qt i σ α).2.nodes j = qt.nodes j) ∧
    (∀ j, nodeRel (qt.nodes j) ((filtrage fuel qt i σ α).2.nodes j)) ∧
    ((filtrage fuel qt i σ α).1 = 1 → ((filtrage fuel qt i σ α).2.nodes i).u ≠ 0) ∧
    ((filtrage fuel qt i σ α).1 ≠ 1 →
      (filtrage fuel qt i σ α).1 = 0 ∧ (filtrage fuel qt i σ α).2.nodes i = qt.nodes i ∧
        (qt.nodes i).u = 0) := by
  intro fuel
  induction fuel with
  | zero =>
    intro qt i σ
    by_cases hu : (qt.nodes i).u ≠ 0
    · have hval : filtrage 0 qt i σ α = (1, qt) := by
        show (if (qt.nodes i).u ≠ 0 then (1, qt) else (0, qt)) = _
        rw [if_pos hu]
      rw [hval]
      exact ⟨⟨rfl, rfl, rfl, rfl⟩, fun j _ => rfl, fun j => nodeRel_refl _,
        fun _ => hu, fun h => absurd rfl h⟩
    · have hval : filtrage 0 qt i σ α = (0, qt) := by
        show (if (qt.nodes i).u ≠ 0 then (1, qt) else (0, qt)) = _
        rw [if_neg hu]
      rw [hval]
      exact ⟨⟨rfl, rfl, rfl, rfl⟩, fun j _ => rfl, fun j => nodeRel_refl _,
        fun h => absurd h (by omega), fun _ => ⟨rfl, rfl, by omega⟩⟩
  | succ fuel ih =>
    intro qt i σ
    by_cases hu : (qt.nodes i).u ≠ 0
    · have hval : filtrage (fuel + 1) qt i σ α = (1, qt) := by
        show (if (qt.nodes i).u ≠ 0 then (1, qt) else _) = _
        rw [if_pos hu]
      rw [hval]
      exact ⟨⟨rfl, rfl, rfl, rfl⟩, fun j _ => rfl, fun j => nodeRel_refl _,
        fun _ => hu, fun h => absurd rfl h⟩
    · have hu0 : (qt.nodes i).u = 0 := not_not.mp hu
      have hres : filtrage (fuel + 1) qt i σ α =
        (let r1 := filtrage fuel qt (4 * i + 1) (σ * α) α
         let r2 := filtrage fuel r1.2 (4 * i + 2) (σ * α) α
         let r3 := filtrage fuel r2.2 (4 * i + 3) (σ * α) α
         let r4 := filtrage fuel r3.2 (4 * i + 4) (σ * α) α
         let s := r1.1 + r2.1 + r3.1 + r4.1
         if s < 4 ∨ (r4.2.nodes i).v > σ then (0, r4.2)
         else
           (1, { r4.2 with
                 nodes := updN r4.2.nodes i ({ r4.2.nodes i with epsilon := 0, u := 1 }) })) := by
        show (if (qt.nodes i).u ≠ 0 then (1, qt) else _) = _
        rw [if_neg hu]
      set F1 := filtrage fuel qt (4 * i + 1) (σ * α) α with hF1
      set F2 := filtrage fuel F1.2 (4 * i + 2) (σ * α) α with hF2
      set F3 := filtrage fuel F2.2 (4 * i + 3) (σ * α) α with hF3
      set F4 := filtrage fuel F3.2 (4 * i + 4) (σ * α) α with hF4
      obtain ⟨hs1, hf1, hrel1, _, _⟩ := ih qt (4 * i + 1) (σ * α)
      obtain ⟨hs2, hf2, hrel2, _, _⟩ := ih F1.2 (4 * i + 2) (σ * α)
      obtain ⟨hs3, hf3, hrel3, _, _⟩ := ih F2.2 (4 * i + 3) (σ * α)
      obtain ⟨hs4, hf4, hrel4, _, _⟩ := ih F3.2 (4 * i + 4) (σ * α)
      rw [← hF1] at hs1 hf1 hrel1
      rw [← hF2] at hs2 hf2 hrel2
      rw [← hF3] at hs3 hf3 hrel3
      rw [← hF4] at hs4 hf4 hrel4
      -- node i is outside all four child subtrees
      have hi1 : F1.2.nodes i = qt.nodes i := hf1 i (not_inSub_child_self (by omega))
      have hi2 : F2.2.nodes i = F1.2.nodes i := hf2 i (not_inSub_child_self (by omega))
      have hi3 : F3.2.nodes i = F2.2.nodes i := hf3 i (not_inSub_child_self (by omega))
      have hi4 : F4.2.nodes i = F3.2.nodes i := hf4 i (not_inSub_child_self (by omega))
      have hii : F4.2.nodes i = qt.nodes i := by rw [hi4, hi3, hi2, hi1]
      by_cases hcond : F1.1 + F2.1 + F3.1 + F4.1 < 4 ∨ (F4.2.nodes i).v > σ
      · have hval : filtrage (fuel + 1) qt i σ α = (0, F4.2) := by
          rw [hres]
          show (if F1.1 + F2.1 + F3.1 + F4.1 < 4 ∨ (F4.2.nodes i).v > σ then _ else _) = _
          rw [if_pos hcond]
        rw [hval]
        refine ⟨⟨?_, ?_, ?_, ?_⟩, ?_, ?_, ?_, ?_⟩
        · rw [hs4.1, hs3.1, hs2.1, hs1.1]
        · rw [hs4.2.1, hs3.2.1, hs2.2.1, hs1.2.1]
        · rw [hs4.2.2.1, hs3.2.2.1, hs2.2.2.1, hs1.2.2.1]
        · rw [hs4.2.2.2, hs3.2.2.2, hs2.2.2.2, hs1.2.2.2]
        · intro j hj
          rw [hf4 j (not_inSub_child (by omega) (by omega) hj),
            hf3 j (not_inSub_child (by omega) (by omega) hj),
            hf2 j (not_inSub_child (by omega) (by omega) hj),
            hf1 j (not_inSub_child (by omega) (by omega) hj)]
        · intro j
          exact nodeRel_trans (hrel1 j) (nodeRel_trans (hrel2 j)
            (nodeRel_trans (hrel3 j) (hrel4 j)))
        · intro h
          exact absurd h (by omega)
        · intro _
          refine ⟨rfl, hii, by omega⟩
      · have hval : filtrage (fuel + 1) qt i σ α =
            (1, { F4.2 with
                  nodes := updN F4.2.nodes i ({ F4.2.nodes i with epsilon := 0, u := 1 }) }) := by
          rw [hres]
          show (if F1.1 + F2.1 + F3.1 + F4.1 < 4 ∨ (F4.2.nodes i).v > σ then _ else _) = _
          rw [if_neg hcond]
        rw [hval]
        refine ⟨⟨?_, ?_, ?_, ?_⟩, ?_, ?_, ?_, ?_⟩
        · show F4.2.total_nodes = _
          rw [hs4.1, hs3.1, hs2.1, hs1.1]
        · show F4.2.levels = _
          rw [hs4.2.1, hs3.2.1, hs2.2.1, hs1.2.1]
        · show F4.2.medvar = _
          rw [hs4.2.2.1, hs3.2.2.1, hs2.2.2.1, hs1.2.2.1]
        · show F4.2.maxvar = _
          rw [hs4.2.2.2, hs3.2.2.2, hs2.2.2.2, hs1.2.2.2]
        · intro j hj
          have hji : j ≠ i := by
            intro h
            exact hj (h ▸ inSub_self _ _)
          show updN F4.2.nodes i _ j = _
          unfold updN
          rw [if_neg hji, hf4 j (not_inSub_child (by omega) (by omega) hj),
            hf3 j (not_inSub_child (by omega) (by omega) hj),
            hf2 j (not_inSub_child (by omega) (by omega) hj),
            hf1 j (not_inSub_child (by omega) (by omega) hj)]
        · intro j
          show nodeRel (qt.nodes j) (updN F4.2.nodes i _ j)
          unfold updN
          by_cases hji : j = i
          · subst hji
            rw [if_pos rfl, hii]
            exact ⟨rfl, rfl, Or.inr ⟨hu0, rfl, rfl⟩⟩
          · rw [if_neg hji]
            exact nodeRel_trans (hrel1 j) (nodeRel_trans (hrel2 j)
              (nodeRel_trans (hrel3 j) (hrel4 j)))
        · intro _
          show (updN F4.2.nodes i _ i).u ≠ 0
          unfold updN
          rw [if_pos rfl]
          show (1 : ℕ) ≠ 0
          omega
        · intro h
          exact absurd rfl h

theorem inSub_succ_iff {n i j : ℕ} : inSub (n + 1) i j ↔ j = i ∨ inSub n (4 * i + 1) j ∨
    inSub n (4 * i + 2) j ∨ inSub n (4 * i + 3) j ∨ inSub n (4 * i + 4) j := by
  constructor
  · rintro ⟨d, hd, hdesc⟩
    cases d with
    | zero => exact Or.inl hdesc
    | succ d =>
      rcases hdesc with h | h | h | h
      · exact Or.inr (Or.inl ⟨d, by omega, h⟩)
      · exact Or.inr (Or.inr (Or.inl ⟨d, by omega, h⟩))
      · exact Or.inr (Or.inr (Or.inr (Or.inl ⟨d, by omega, h⟩)))
      · exact Or.inr (Or.inr (Or.inr (Or.inr ⟨d, by omega, h⟩)))
  · rintro (rfl | h | h | h | h)
    · exact inSub_self _ _
    · exact inSub_child (by omega) (by omega) h
    · exact inSub_child (by omega) (by omega) h
    · exact inSub_child (by omega) (by omega) h
    · exact inSub_child (by omega) (by omega) h

/-- The filter call depends only on the nodes of the subtree it visits:
trees agreeing there yield the same flag and agree there afterwards. -/
theorem filtrage_congr (α : ℚ) : ∀ (fuel : ℕ) (i : ℕ) (σ : ℚ) (qt1 qt2 : Quadtree),
    (∀ j, inSub fuel i j → qt1.nodes j = qt2.nodes j) →
    (filtrage fuel qt1 i σ α).1 = (filtrage fuel qt2 i σ α).1 ∧
    (∀ j, inSub fuel i j →
      (filtrage fuel qt1 i σ α).2.nodes j = (filtrage fuel qt2 i σ α).2.nodes j) := by
  intro fuel
  induction fuel with
  | zero =>
    intro i σ qt1 qt2 h
    have hi := h i (inSub_self _ _)
    by_cases hu : (qt1.nodes i).u ≠ 0
    · have hu2 : (qt2.nodes i).u ≠ 0 := by rw [← hi]; exact hu
      have e1 : filtrage 0 qt1 i σ α = (1, qt1) := by
        show (if _ then _ else _) = _
        rw [if_pos hu]
      have e2 : filtrage 0 qt2 i σ α = (1, qt2) := by
        show (if _ then _ else _) = _
        rw [if_pos hu2]
      rw [e1, e2]
      exact ⟨rfl, h⟩
    · have hu2 : ¬ (qt2.nodes i).u ≠ 0 := by rw [← hi]; exact hu
      have e1 : filtrage 0 qt1 i σ α = (0, qt1) := by
        show (if _ then _ else _) = _
        rw [if_neg hu]
      have e2 : filtrage 0 qt2 i σ α = (0, qt2) := by
        show (if _ then _ else _) = _
        rw [if_neg hu2]
      rw [e1, e2]
      exact ⟨rfl, h⟩
  | succ fuel ih =>
    intro i σ qt1 qt2 h
    have hi := h i (inSub_self _ _)
    by_cases hu : (qt1.nodes i).u ≠ 0
    · have hu2 : (qt2.nodes i).u ≠ 0 := by rw [← hi]; exact hu
      have e1 : filtrage (fuel + 1) qt1 i σ α = (1, qt1) := by
        show (if _ then _ else _) = _
        rw [if_pos hu]
      have e2 : filtrage (fuel + 1) qt2 i σ α = (1, qt2) := by
        show (if _ then _ else _) = _
        rw [if_pos hu2]
      rw [e1, e2]
      exact ⟨rfl, h⟩
    · have hu2 : ¬ (qt2.nodes i).u ≠ 0 := by rw [← hi]; exact hu
      have e1 : filtrage (fuel + 1) qt1 i σ α =
        (let r1 := filtrage fuel qt1 (4 * i + 1) (σ * α) α
         let r2 := filtrage fuel r1.2 (4 * i + 2) (σ * α) α
         let r3 := filtrage fuel r2.2 (4 * i + 3) (σ * α) α
         let r4 := filtrage fuel r3.2 (4 * i + 4) (σ * α) α
         let s := r1.1 + r2.1 + r3.1 + r4.1
         if s < 4 ∨ (r4.2.nodes i).v > σ then (0, r4.2)
         else
           (1, { r4.2 with
                 nodes := updN r4.2.nodes i ({ r4.2.nodes i with epsilon := 0, u := 1 }) })) := by
        show (if _ then _ else _) = _
        rw [if_neg hu]
      have e2 : filtrage (fuel + 1) qt2 i σ α =
        (let r1 := filtrage fuel qt2 (4 * i + 1) (σ * α) α
         let r2 := filtrage fuel r1.2 (4 * i + 2) (σ * α) α
         let r3 := filtrage fuel r2.2 (4 * i + 3) (σ * α) α
         let r4 := filtrage fuel r3.2 (4 * i + 4) (σ * α) α
         let s := r1.1 + r2.1 + r3.1 + r4.1
         if s < 4 ∨ (r4.2.nodes i).v > σ then (0, r4.2)
         else
           (1, { r4.2 with
                 nodes := updN r4.2.nodes i ({ r4.2.nodes i with epsilon := 0, u := 1 }) })) := by
        show (if _ then _ else _) = _
        rw [if_neg hu2]
      rw [e1, e2]
      simp only []
      set F1 := filtrage fuel qt1 (4 * i + 1) (σ * α) α with hF1
      set G1 := filtrage fuel qt2 (4 * i + 1) (σ * α) α with hG1
      set F2 := filtrage fuel F1.2 (4 * i + 2) (σ * α) α with hF2
      set G2 := filtrage fuel G1.2 (4 * i + 2) (σ * α) α with hG2
      set F3 := filtrage fuel F2.2 (4 * i + 3) (σ * α) α with hF3
      set G3 := filtrage fuel G2.2 (4 * i + 3) (σ * α) α with hG3
      set F4 := filtrage fuel F3.2 (4 * i + 4) (σ * α) α with hF4
      set G4 := filtrage fuel G3.2 (4 * i + 4) (σ * α) α with hG4
      -- frame lemmas for each stage
      have bF1 := filtrage_basic α fuel qt1 (4 * i + 1) (σ * α)
      have bG1 := filtrage_basic α fuel qt2 (4 * i + 1) (σ * α)
      have bF2 := filtrage_basic α fuel F1.2 (4 * i + 2) (σ * α)
      have bG2 := filtrage_basic α fuel G1.2 (4 * i + 2) (σ * α)
      have bF3 := filtrage_basic α fuel F2.2 (4 * i + 3) (σ * α)
      have bG3 := filtrage_basic α fuel G2.2 (4 * i + 3) (σ * α)
      have bF4 := filtrage_basic α fuel F3.2 (4 * i + 4) (σ * α)
      have bG4 := filtrage_basic α fuel G3.2 (4 * i + 4) (σ * α)
      rw [← hF1] at bF1; rw [← hG1] at bG1
      rw [← hF2] at bF2; rw [← hG2] at bG2
      rw [← hF3] at bF3; rw [← hG3] at bG3
      rw [← hF4] at bF4; rw [← hG4] at bG4
      -- child 1
      have h1 : ∀ j, inSub fuel (4 * i + 1) j → qt1.nodes j = qt2.nodes j :=
        fun j hj => h j (inSub_child (by omega) (by omega) hj)
      have c1 := ih (4 * i + 1) (σ * α) qt1 qt2 h1
      rw [← hF1, ← hG1] at c1
      -- child 2
      have h2 : ∀ j, inSub fuel (4 * i + 2) j → F1.2.nodes j = G1.2.nodes j := by
        intro j hj
        have hn1 : ¬ inSub fuel (4 * i + 1) j :=
          inSub_sibling_disjoint (by omega) (by omega) (by omega) (by omega) (by omega) hj
        rw [bF1.2.1 j hn1, bG1.2.1 j hn1]
        exact h j (inSub_child (by omega) (by omega) hj)
      have c2 := ih (4 * i + 2) (σ * α) F1.2 G1.2 h2
      rw [← hF2, ← hG2] at c2
      -- child 3
      have h3 : ∀ j, inSub fuel (4 * i + 3) j → F2.2.nodes j = G2.2.nodes j := by
        intro j hj
        have hn1 : ¬ inSub fuel (4 * i + 1) j :=
          inSub_sibling_disjoint (by omega) (by omega) (by omega) (by omega) (by omega) hj
        have hn2 : ¬ inSub fuel (4 * i + 2) j :=
          inSub_sibling_disjoint (by omega) (by omega) (by omega) (by omega) (by omega) hj
        rw [bF2.2.1 j hn2, bG2.2.1 j hn2, bF1.2.1 j hn1, bG1.2.1 j hn1]
        exact h j (inSub_child (by omega) (by omega) hj)
      have c3 := ih (4 * i + 3) (σ * α) F2.2 G2.2 h3
      rw [← hF3, ← hG3] at c3
      -- child 4
      have h4 : ∀ j, inSub fuel (4 * i + 4) j → F3.2.nodes j = G3.2.nodes j := by
        intro j hj
        have hn1 : ¬ inSub fuel (4 * i + 1) j :=
          inSub_sibling_disjoint (by omega) (by omega) (by omega) (by omega) (by omega) hj
        have hn2 : ¬ inSub fuel (4 * i + 2) j :=
          inSub_sibling_disjoint (by omega) (by omega) (by omega) (by omega) (by omega) hj
        have hn3 : ¬ inSub fuel (4 * i + 3) j :=
          inSub_sibling_disjoint (by omega) (by omega) (by omega) (by omega) (by omega) hj
        rw [bF3.2.1 j hn3, bG3.2.1 j hn3, bF2.2.1 j hn2, bG2.2.1 j hn2,
          bF1.2.1 j hn1, bG1.2.1 j hn1]
        exact h j (inSub_child (by omega) (by omega) hj)
      have c4 := ih (4 * i + 4) (σ * α) F3.2 G3.2 h4
      rw [← hF4, ← hG4] at c4
      -- node i is untouched on both sides
      have hiF : F4.2.nodes i = qt1.nodes i := by
        rw [bF4.2.1 i (not_inSub_child_self (by omega)),
          bF3.2.1 i (not_inSub_child_self (by omega)),
          bF2.2.1 i (not_inSub_child_self (by omega)),
          bF1.2.1 i (not_inSub_child_self (by omega))]
      have hiG : G4.2.nodes i = qt2.nodes i := by
        rw [bG4.2.1 i (not_inSub_child_self (by omega)),
          bG3.2.1 i (not_inSub_child_self (by omega)),
          bG2.2.1 i (not_inSub_child_self (by omega)),
          bG1.2.1 i (not_inSub_child_self (by omega))]
      have hiFG : F4.2.nodes i = G4.2.nodes i := by rw [hiF, hiG, hi]
      -- the final node values agree on the whole subtree
      have hnodes : ∀ j, inSub (fuel + 1) i j → F4.2.nodes j = G4.2.nodes j := by
        intro j hj
        rcases inSub_succ_iff.mp hj with rfl | hj | hj | hj | hj
        · exact hiFG
        · have hn2 : ¬ inSub fuel (4 * i + 2) j :=
            inSub_sibling_disjoint (by omega) (by omega) (by omega) (by omega) (by omega) hj
          have hn3 : ¬ inSub fuel (4 * i + 3) j :=
            inSub_sibling_disjoint (by omega) (by omega) (by omega) (by omega) (by omega) hj
          have hn4 : ¬ inSub fuel (4 * i + 4) j :=
            inSub_sibling_disjoint (by omega) (by omega) (by omega) (by omega) (by omega) hj
          rw [bF4.2.1 j hn4, bG4.2.1 j hn4, bF3.2.1 j hn3, bG3.2.1 j hn3,
            bF2.2.1 j hn2, bG2.2.1 j hn2]
          exact c1.2 j hj
        · have hn3 : ¬ inSub fuel (4 * i + 3) j :=
            inSub_sibling_disjoint (by omega) (by omega) (by omega) (by omega) (by omega) hj
          have hn4 : ¬ inSub fuel (4 * i + 4) j :=
            inSub_sibling_disjoint (by omega) (by omega) (by omega) (by omega) (by omega) hj
          rw [bF4.2.1 j hn4, bG4.2.1 j hn4, bF3.2.1 j hn3, bG3.2.1 j hn3]
          exact c2.2 j hj
        · have hn4 : ¬ inSub fuel (4 * i + 4) j :=
            inSub_sibling_disjoint (by omega) (by omega) (by omega) (by omega) (by omega) hj
          rw [bF4.2.1 j hn4, bG4.2.1 j hn4]
          exact c3.2 j hj
        · exact c4.2 j hj
      have hvv : (F4.2.nodes i).v = (G4.2.nodes i).v := by rw [hiFG]
      by_cases hcond : F1.1 + F2.1 + F3.1 + F4.1 < 4 ∨ (F4.2.nodes i).v > σ
      · have hcond2 : G1.1 + G2.1 + G3.1 + G4.1 < 4 ∨ (G4.2.nodes i).v > σ := by
          rw [← c1.1, ← c2.1, ← c3.1, ← c4.1, ← hvv]
          exact hcond
        rw [if_pos hcond, if_pos hcond2]
        exact ⟨rfl, hnodes⟩
      · have hcond2 : ¬ (G1.1 + G2.1 + G3.1 + G4.1 < 4 ∨ (G4.2.nodes i).v > σ) := by
          rw [← c1.1, ← c2.1, ← c3.1, ← c4.1, ← hvv]
          exact hcond
        rw [if_neg hcond, if_neg hcond2]
        refine ⟨rfl, fun j hj => ?_⟩
        show updN F4.2.nodes i _ j = updN G4.2.nodes i _ j
        unfold updN
        by_cases hji : j = i
        · rw [if_pos hji, if_pos hji, hiFG]
        · rw [if_neg hji, if_neg hji]
          exact hnodes j hj

/-- Re-running the filter on a tree that agrees, over the visited subtree,
with the output of a previous run is a no-op with the same flag. -/
theorem filtrage_reapply (α : ℚ) (fuel c : ℕ) (σc : ℚ) (qt Q : Quadtree)
    (hidem : filtrage fuel (filtrage fuel qt c σc α).2 c σc α = filtrage fuel qt c σc α)
    (hag : ∀ j, inSub fuel c j → Q.nodes j = (filtrage fuel qt c σc α).2.nodes j) :
    filtrage fuel Q c σc α = ((filtrage fuel qt c σc α).1, Q) := by
  have hc := filtrage_congr α fuel c σc Q (filtrage fuel qt c σc α).2 hag
  rw [hidem] at hc
  have hb := filtrage_basic α fuel Q c σc
  refine Prod.ext hc.1 (Quadtree.ext (funext fun j => ?_) hb.1.1 hb.1.2.1 hb.1.2.2.1 hb.1.2.2.2)
  by_cases hj : inSub fuel c j
  · rw [hc.2 j hj, ← hag j hj]
  · exact hb.2.1 j hj

/-- Applying the filter twice with the same parameters equals applying it
once: the second pass returns the same flag and leaves the tree unchanged. -/
theorem filtrage_idem (α : ℚ) : ∀ (fuel : ℕ) (i : ℕ) (σ : ℚ) (qt : Quadtree),
    filtrage fuel (filtrage fuel qt i σ α).2 i σ α = filtrage fuel qt i σ α := by
  intro fuel
  induction fuel with
  | zero =>
    intro i σ qt
    by_cases hu : (qt.nodes i).u ≠ 0
    · have e1 : filtrage 0 qt i σ α = (1, qt) := by
        show (if _ then _ else _) = _
        rw [if_pos hu]
      rw [e1]
      exact e1
    · have e1 : filtrage 0 qt i σ α = (0, qt) := by
        show (if _ then _ else _) = _
        rw [if_neg hu]
      rw [e1]
      exact e1
  | succ fuel ih =>
    intro i σ qt
    by_cases hu : (qt.nodes i).u ≠ 0
    · have e1 : filtrage (fuel + 1) qt i σ α = (1, qt) := by
        show (if _ then _ else _) = _
        rw [if_pos hu]
      rw [e1]
      exact e1
    · have e1 : filtrage (fuel + 1) qt i σ α =
        (let r1 := filtrage fuel qt (4 * i + 1) (σ * α) α
         let r2 := filtrage fuel r1.2 (4 * i + 2) (σ * α) α
         let r3 := filtrage fuel r2.2 (4 * i + 3) (σ * α) α
         let r4 := filtrage fuel r3.2 (4 * i + 4) (σ * α) α
         let s := r1.1 + r2.1 + r3.1 + r4.1
         if s < 4 ∨ (r4.2.nodes i).v > σ then (0, r4.2)
         else
           (1, { r4.2 with
                 nodes := updN r4.2.nodes i ({ r4.2.nodes i with epsilon := 0, u := 1 }) })) := by
        show (if _ then _ else _) = _
        rw [if_neg hu]
      set F1 := filtrage fuel qt (4 * i + 1) (σ * α) α with hF1
      set F2 := filtrage fuel F1.2 (4 * i + 2) (σ * α) α with hF2
      set F3 := filtrage fuel F2.2 (4 * i + 3) (σ * α) α with hF3
      set F4 := filtrage fuel F3.2 (4 * i + 4) (σ * α) α with hF4
      have bF2 := filtrage_basic α fuel F1.2 (4 * i + 2) (σ * α)
      have bF3 := filtrage_basic α fuel F2.2 (4 * i + 3) (σ * α)
      have bF4 := filtrage_basic α fuel F3.2 (4 * i + 4) (σ * α)
      have bF1 := filtrage_basic α fuel qt (4 * i + 1) (σ * α)
      rw [← hF1] at bF1
      rw [← hF2] at bF2
      rw [← hF3] at bF3
      rw [← hF4] at bF4
      have hiF : F4.2.nodes i = qt.nodes i := by
        rw [bF4.2.1 i (not_inSub_child_self (by omega)),
          bF3.2.1 i (not_inSub_child_self (by omega)),
          bF2.2.1 i (not_inSub_child_self (by omega)),
          bF1.2.1 i (not_inSub_child_self (by omega))]
      -- agreement of the final state with each intermediate state on the
      -- corresponding child subtree
      have hag1 : ∀ j, inSub fuel (4 * i + 1) j → F4.2.nodes j = F1.2.nodes j := by
        intro j hj
        have hn2 : ¬ inSub fuel (4 * i + 2) j :=
          inSub_sibling_disjoint (by omega) (by omega) (by omega) (by omega) (by omega) hj
        have hn3 : ¬ inSub fuel (4 * i + 3) j :=
          inSub_sibling_disjoint (by omega) (by omega) (by omega) (by omega) (by omega) hj
        have hn4 : ¬ inSub fuel (4 * i + 4) j :=
          inSub_sibling_disjoint (by omega) (by omega) (by omega) (by omega) (by omega) hj
        rw [bF4.2.1 j hn4, bF3.2.1 j hn3, bF2.2.1 j hn2]
      have hag2 : ∀ j, inSub fuel (4 * i + 2) j → F4.2.nodes j = F2.2.nodes j := by
        intro j hj
        have hn3 : ¬ inSub fuel (4 * i + 3) j :=
          inSub_sibling_disjoint (by omega) (by omega) (by omega) (by omega) (by omega) hj
        have hn4 : ¬ inSub fuel (4 * i + 4) j :=
          inSub_sibling_disjoint (by omega) (by omega) (by omega) (by omega) (by omega) hj
        rw [bF4.2.1 j hn4, bF3.2.1 j hn3]
      have hag3 : ∀ j, inSub fuel (4 * i + 3) j → F4.2.nodes j = F3.2.nodes j := by
        intro j hj
        have hn4 : ¬ inSub fuel (4 * i + 4) j :=
          inSub_sibling_disjoint (by omega) (by omega) (by omega) (by omega) (by omega) hj
        rw [bF4.2.1 j hn4]
      have r1 := filtrage_reapply α fuel (4 * i + 1) (σ * α) qt F4.2
        (ih (4 * i + 1) (σ * α) qt) (by rw [← hF1]; exact hag1)
      have r2 := filtrage_reapply α fuel (4 * i + 2) (σ * α) F1.2 F4.2
        (ih (4 * i + 2) (σ * α) F1.2) (by rw [← hF2]; exact hag2)
      have r3 := filtrage_reapply α fuel (4 * i + 3) (σ * α) F2.2 F4.2
        (ih (4 * i + 3) (σ * α) F2.2) (by rw [← hF3]; exact hag3)
      have r4 := filtrage_reapply α fuel (4 * i + 4) (σ * α) F3.2 F4.2
        (ih (4 * i + 4) (σ * α) F3.2) (fun j _ => rfl)
      rw [← hF1] at r1
      rw [← hF2] at r2
      rw [← hF3] at r3
      rw [← hF4] at r4
      by_cases hcond : F1.1 + F2.1 + F3.1 + F4.1 < 4 ∨ (F4.2.nodes i).v > σ
      · have hval : filtrage (fuel + 1) qt i σ α = (0, F4.2) := by
          rw [e1]
          show (if F1.1 + F2.1 + F3.1 + F4.1 < 4 ∨ (F4.2.nodes i).v > σ then _ else _) = _
          rw [if_pos hcond]
        rw [hval]
        show filtrage (fuel + 1) F4.2 i σ α = (0, F4.2)
        have hu4 : ¬ (F4.2.nodes i).u ≠ 0 := by
          rw [hiF]
          exact hu
        have e2 : filtrage (fuel + 1) F4.2 i σ α =
          (let r1 := filtrage fuel F4.2 (4 * i + 1) (σ * α) α
           let r2 := filtrage fuel r1.2 (4 * i + 2) (σ * α) α
           let r3 := filtrage fuel r2.2 (4 * i + 3) (σ * α) α
           let r4 := filtrage fuel r3.2 (4 * i + 4) (σ * α) α
           let s := r1.1 + r2.1 + r3.1 + r4.1
           if s < 4 ∨ (r4.2.nodes i).v > σ then (0, r4.2)
           else
             (1, { r4.2 with
                   nodes := updN r4.2.nodes i ({ r4.2.nodes i with epsilon := 0, u := 1 }) })) := by
          show (if _ then _ else _) = _
          rw [if_neg hu4]
        rw [e2]
        simp only [r1, r2, r3, r4]
        show (if F1.1 + F2.1 + F3.1 + F4.1 < 4 ∨ (F4.2.nodes i).v > σ then _ else _) = _
        rw [if_pos hcond]
      · have hval : filtrage (fuel + 1) qt i σ α =
            (1, { F4.2 with
                  nodes := updN F4.2.nodes i ({ F4.2.nodes i with epsilon := 0, u := 1 }) }) := by
          rw [e1]
          show (if F1.1 + F2.1 + F3.1 + F4.1 < 4 ∨ (F4.2.nodes i).v > σ then _ else _) = _
          rw [if_neg hcond]
        rw [hval]
        have hu1 : (({ F4.2 with
            nodes := updN F4.2.nodes i ({ F4.2.nodes i with epsilon := 0, u := 1 }) } :
              Quadtree).nodes i).u ≠ 0 := by
          show (updN F4.2.nodes i _ i).u ≠ 0
          unfold updN
          rw [if_pos rfl]
          show (1 : ℕ) ≠ 0
          omega
        show (if _ then _ else _) = _
        rw [if_pos hu1]

/-- Claim C4: applying the lossy filter twice with the same alpha, exactly as
`main` invokes it (`filtrage(qt, nodes, 0, medvar/maxvar, alpha)`), yields
the same tree (every node field identical) as applying it once.  This holds
for every tree, in particular every built tree, and every alpha. -/
theorem C4_filter_idempotent (quadtree : Quadtree) (alpha : ℚ) :
    applyFilter (applyFilter quadtree alpha) alpha = applyFilter quadtree alpha := by
  unfold applyFilter
  have hb := filtrage_basic alpha quadtree.levels quadtree 0 (quadtree.medvar / quadtree.maxvar)
  rw [hb.1.2.1, hb.1.2.2.1, hb.1.2.2.2]
  exact congrArg Prod.snd
    (filtrage_idem alpha quadtree.levels 0 (quadtree.medvar / quadtree.maxvar) quadtree)

/-- Claim C9: the filter (as invoked by `main`) only ever flips `u` from 0 to
1 and resets `epsilon` to 0 on the nodes it collapses; every node's mean and
variance are unchanged, the node count and depth are unchanged (no node added
or removed), and a node that is not collapsed is entirely unchanged. -/
theorem C9_filter_frame (quadtree : Quadtree) (alpha : ℚ) :
    (applyFilter quadtree alpha).total_nodes = quadtree.total_nodes ∧
    (applyFilter quadtree alpha).levels = quadtree.levels ∧
    ∀ j, ((applyFilter quadtree alpha).nodes j).moyenne = (quadtree.nodes j).moyenne ∧
      ((applyFilter quadtree alpha).nodes j).v = (quadtree.nodes j).v ∧
      ((applyFilter quadtree alpha).nodes j = quadtree.nodes j ∨
        ((quadtree.nodes j).u = 0 ∧ ((applyFilter quadtree alpha).nodes j).u = 1 ∧
          ((applyFilter quadtree alpha).nodes j).epsilon = 0)) := by
  have hb := filtrage_basic alpha quadtree.levels quadtree 0 (quadtree.medvar / quadtree.maxvar)
  exact ⟨hb.1.1, hb.1.2.1, fun j => (hb.2.2.1 j : nodeRel _ _)⟩

theorem bitsSpec_congr {d1 d2 : ℕ → ℕ} : ∀ (fs : List (ℕ × ℕ)) (b : ℕ),
    (∀ p, p < b + bitsLen fs → bitAt d2 p = bitAt d1 p) →
    bitsSpec d1 b fs → bitsSpec d2 b fs := by
  intro fs
  induction fs with
  | nil => intro b _ _; trivial
  | cons f fs ih =>
    intro b hagree hspec
    refine ⟨?_, ?_⟩
    · rw [valOf_congr f.1 b (fun i hi => hagree (b + i) (by
        show b + i < b + (f.1 + bitsLen fs)
        omega))]
      exact hspec.1
    · exact ih (b + f.1) (fun p hp => hagree p (by
        show p < b + (f.1 + bitsLen fs)
        omega)) hspec.2

/-- Pushing a field sequence writes exactly its bits. -/
theorem pushFields_spec : ∀ (fs : List (ℕ × ℕ)) (b : ℕ) (d : ℕ → ℕ) (r : ℕ), byteOK d →
    (∀ f ∈ fs, f.1 ≤ 8) →
    ∃ e, pushFields (ws d r b) fs = ws e r (b + bitsLen fs) ∧ byteOK e ∧
      (∀ p, p < b → bitAt e p = bitAt d p) ∧ bitsSpec e b fs := by
  intro fs
  induction fs with
  | nil =>
    intro b d r hd _
    exact ⟨d, rfl, hd, fun p _ => rfl, trivial⟩
  | cons f fs ih =>
    intro b d r hd hw
    obtain ⟨e1, he1, hok1, hpres1, hbits1⟩ := push_n_bits_ws (b := b) (d := d) r f.2 f.1 hd
    obtain ⟨e, he, hok, hpres, hspec⟩ := ih (b + f.1) e1 r hok1 (fun g hg => hw g (by simp [hg]))
    refine ⟨e, ?_, hok, ?_, ?_⟩
    · show pushFields (push_n_bits (ws d r b) f.2 f.1) fs = _
      rw [he1, he]
      show ws e r (b + f.1 + bitsLen fs) = ws e r (b + (f.1 + bitsLen fs))
      rw [Nat.add_assoc]
    · intro p hp
      rw [hpres p (by omega), hpres1 p (Or.inl hp)]
    · show valOf e b f.1 = f.2 % 2 ^ f.1 ∧ bitsSpec e (b + f.1) fs
      constructor
      · have hcong : valOf e b f.1 = valOf e1 b f.1 :=
          valOf_congr f.1 b (fun i hi => hpres (b + i) (by omega))
        rw [hcong, valOf_of_bits f.1 b hbits1]
        have hdvd : (2 : ℕ) ^ f.1 ∣ 256 := by
          have := hw f (by simp)
          calc (2:ℕ) ^ f.1 ∣ 2 ^ 8 := pow_dvd_pow 2 this
          _ = 256 := by norm_num
        exact Nat.mod_mod_of_dvd f.2 hdvd
      · exact hspec

/-- Pulling the widths of a field sequence held by the buffer returns the
field values (reduced to their widths) in order. -/
theorem pullFields_spec : ∀ (fs : List (ℕ × ℕ)) (b : ℕ) (d : ℕ → ℕ) (w0 : ℕ), byteOK d →
    (∀ f ∈ fs, f.1 ≤ 8) → bitsSpec d b fs →
    pullFields (rs d w0 b) (fs.map Prod.fst) =
      (fs.map (fun f => f.2 % 2 ^ f.1), rs d w0 (b + bitsLen fs)) := by
  intro fs
  induction fs with
  | nil =>
    intro b d w0 _ _ _
    rfl
  | cons f fs ih =>
    intro b d w0 hd hw hspec
    show (let r := read_n_bits (rs d w0 b) f.1
          let rr := pullFields r.2 (fs.map Prod.fst)
          (r.1 :: rr.1, rr.2)) = _
    rw [read_n_bits_rs (hw f (by simp)) d w0 b hd]
    simp only []
    rw [ih (b + f.1) d w0 hd (fun g hg => hw g (by simp [hg])) hspec.2]
    rw [hspec.1]
    show (f.2 % 2 ^ f.1 :: fs.map fun f => f.2 % 2 ^ f.1, rs d w0 (b + f.1 + bitsLen fs)) = _
    rw [Nat.add_assoc]
    rfl

/-- The builder preserves the tree-level bookkeeping fields other than the
variance accumulators. -/
theorem build_rec_scalars (sq : ℚ → ℚ) (image : Image) : ∀ (n : ℕ) (qt : Quadtree) (i x y : ℕ),
    (build_quadtree_rec sq image n qt i x y).total_nodes = qt.total_nodes ∧
    (build_quadtree_rec sq image n qt i x y).levels = qt.levels := by
  intro n
  induction n with
  | zero => intro qt i x y; exact ⟨rfl, rfl⟩
  | succ n ih =>
    intro qt i x y
    have h1 := ih qt (4 * i + 1) x y
    have h2 := ih (build_quadtree_rec sq image n qt (4 * i + 1) x y) (4 * i + 2) (x + 2 ^ n) y
    have h3 := ih (build_quadtree_rec sq image n
      (build_quadtree_rec sq image n qt (4 * i + 1) x y) (4 * i + 2) (x + 2 ^ n) y)
      (4 * i + 3) (x + 2 ^ n) (y + 2 ^ n)
    have h4 := ih (build_quadtree_rec sq image n (build_quadtree_rec sq image n
      (build_quadtree_rec sq image n qt (4 * i + 1) x y) (4 * i + 2) (x + 2 ^ n) y)
      (4 * i + 3) (x + 2 ^ n) (y + 2 ^ n)) (4 * i + 4) x (y + 2 ^ n)
    exact ⟨h4.1.trans (h3.1.trans (h2.1.trans h1.1)),
      h4.2.trans (h3.2.trans (h2.2.trans h1.2))⟩

/-! ## Claims C3, C5, C6, C7 -/

/-- Claim C3, refuted: on a fresh bit buffer, pushing the low 1 bit of the
value 1 and immediately pulling 1 bit does not return that bit.  The write
and read cursors share the single `capa` field, so the interleaved pull reads
bit 6 of byte 0 instead of the bit just written at position 7. -/
theorem C3_interleaved_pull_push_fails :
    (read_n_bits (push_n_bits (initBitStream 2) 1 1) 1).1 ≠ 1 := by decide

/-- Claim C3 as amended: the pull-after-push law holds for the phase
discipline the codec actually uses: any sequence of fields (widths between 1
and 8) pushed into a fresh stream, followed by `finishBitStream`, is read
back field by field, across byte boundaries, each pull returning exactly the
pushed low bits. -/
theorem C3_sequential_pull_push (k : ℕ) (fs : List (ℕ × ℕ))
    (h : ∀ f ∈ fs, 1 ≤ f.1 ∧ f.1 ≤ 8) :
    (pullFields (finishBitStream (pushFields (initBitStream k) fs)) (fs.map Prod.fst)).1 =
      fs.map (fun f => f.2 % 2 ^ f.1) := by
  have hd0 : byteOK (fun _ => 0) := fun _ => by norm_num
  have hinit : initBitStream k = ws (fun _ => 0) 0 0 := rfl
  obtain ⟨e, he, hok, _, hspec⟩ :=
    pushFields_spec fs 0 (fun _ => 0) 0 hd0 (fun f hf => (h f hf).2)
  rw [hinit, he]
  obtain ⟨efin, wfin, hfin, hokfin, hpres⟩ := finishBitStream_ws (b := 0 + bitsLen fs) 0 hok
  rw [hfin]
  have hspecfin : bitsSpec efin 0 fs :=
    bitsSpec_congr fs 0 (fun p hp => hpres p (by omega)) hspec
  have : ({ data := efin, wpos := wfin, rpos := 0, capa := 8 } : BitStream) =
      rs efin wfin 0 := rfl
  rw [this, pullFields_spec fs 0 efin wfin hokfin (fun f hf => (h f hf).2) hspecfin]

/-- Witness for the amended claim C3 at a concrete field sequence crossing
byte boundaries. -/
theorem C3_sequential_pull_push_witness :
    (∀ f ∈ ([(8, 170), (3, 5), (1, 1), (6, 63)] : List (ℕ × ℕ)), 1 ≤ f.1 ∧ f.1 ≤ 8) ∧
    (pullFields
      (finishBitStream (pushFields (initBitStream 4) ([(8, 170), (3, 5), (1, 1), (6, 63)] :
        List (ℕ × ℕ))))
      (([(8, 170), (3, 5), (1, 1), (6, 63)] : List (ℕ × ℕ)).map Prod.fst)).1 =
      ([(8, 170), (3, 5), (1, 1), (6, 63)] : List (ℕ × ℕ)).map (fun f => f.2 % 2 ^ f.1) :=
  ⟨by decide, C3_sequential_pull_push 4 _ (by decide)⟩

/-- Claim C5, refuted: `pullbits` always reports `nbit` bits read, whatever
the state of the stream; there is no representation of the number of unread
bits, the underflow check in `read_n_bits` is dead code, and a pull on an
exhausted buffer silently reads unwritten memory instead of failing. -/
theorem C5_pull_never_underflows (stream : BitStream) (dest n : ℕ) :
    (pullbits stream dest n).1 = n :=
  pullbits_count n stream dest

/-- Claim C6, refuted: the encoder writes the root of the 1×1 raster `[128]`
through `write_node` (11 bits: mean, epsilon, uniformity), not as a bare
8-bit leaf, so the output is 24 bits (3 bytes), not the claimed 2 bytes. -/
theorem C6_one_pixel_not_two_bytes :
    BitStream_size (encode (build_quadtree_from_image sqZero raster1x1)) ≠ 16 := by decide

/-- Claim C6 as amended: encoding the tree built from the 1×1 raster `[128]`
produces the header byte `00`, then the 11 bits `10000000 00 1`
(mean = 128, epsilon = 0, uniform = 1), padded by `finish` to 3 bytes total
`00 80 20`; decoding that output reproduces the raster `[128]`. -/
theorem C6_one_pixel_roundtrip :
    BitStream_size (encode (build_quadtree_from_image sqZero raster1x1)) = 24 ∧
    (encode (build_quadtree_from_image sqZero raster1x1)).data 0 = 0 ∧
    (encode (build_quadtree_from_image sqZero raster1x1)).data 1 = 128 ∧
    (encode (build_quadtree_from_image sqZero raster1x1)).data 2 = 32 ∧
    (decode (encode (build_quadtree_from_image sqZero raster1x1))).levels = 0 ∧
    (build_image_from_quadtree
      (decode (encode (build_quadtree_from_image sqZero raster1x1)))).image 0 = 128 := by
  refine ⟨by decide, by decide, by decide, by decide, by decide, by decide⟩

/-- Claim C7, refuted: the builder performs no dimension validation and
cannot fail; on the 3×3 raster it silently builds a quadtree with
`levels = log2(3) = 1` and 5 nodes (the root mean below is the mean of the
four pixels the 2×2 recursion reads with row stride 3). -/
theorem C7_no_invalid_dimensions_error :
    (build_quadtree_from_image sqZero raster3).levels = 1 ∧
    (build_quadtree_from_image sqZero raster3).total_nodes = 5 ∧
    ((build_quadtree_from_image sqZero raster3).nodes 0).moyenne = 3 := by
  refine ⟨by decide, by decide, by decide⟩

/-- Claim C7 as amended: for every input raster, whatever its width, the
builder produces a quadtree with `levels = ⌊log2 width⌋` and the
corresponding complete-tree node count; no error path exists. -/
theorem C7_builder_total (sq : ℚ → ℚ) (image : Image) :
    (build_quadtree_from_image sq image).levels = log2i image.width ∧
    (build_quadtree_from_image sq image).total_nodes = tLevel (log2i image.width + 1) := by
  have hs := build_rec_scalars sq image (log2i image.width)
    (create_empty_quadtree (log2i image.width)) 0 0 0
  have ht := create_empty_total (log2i image.width)
  exact ⟨hs.2, hs.1.trans ht⟩

theorem internalEq_congr {sq : ℚ → ℚ} {qt1 qt2 : Quadtree} {j : ℕ}
    (h0 : qt2.nodes j = qt1.nodes j)
    (h1 : qt2.nodes (4 * j + 1) = qt1.nodes (4 * j + 1))
    (h2 : qt2.nodes (4 * j + 2) = qt1.nodes (4 * j + 2))
    (h3 : qt2.nodes (4 * j + 3) = qt1.nodes (4 * j + 3))
    (h4 : qt2.nodes (4 * j + 4) = qt1.nodes (4 * j + 4))
    (h : internalEq sq qt1 j) : internalEq sq qt2 j := by
  unfold internalEq childSum sommeV at *
  simp only [h0, h1, h2, h3, h4]
  exact h

/-- A tree whose node at `j` is `buildNode` of four unchanged children
satisfies the internal field equations there. -/
theorem buildNode_internalEq (sq : ℚ → ℚ) (qtR qt : Quadtree) (j : ℕ)
    (h0 : qtR.nodes j = buildNode sq qt j)
    (h1 : qtR.nodes (4 * j + 1) = qt.nodes (4 * j + 1))
    (h2 : qtR.nodes (4 * j + 2) = qt.nodes (4 * j + 2))
    (h3 : qtR.nodes (4 * j + 3) = qt.nodes (4 * j + 3))
    (h4 : qtR.nodes (4 * j + 4) = qt.nodes (4 * j + 4)) :
    internalEq sq qtR j := by
  unfold internalEq childSum sommeV
  simp only [h0, h1, h2, h3, h4]
  unfold buildNode
  exact ⟨rfl, rfl, rfl, rfl⟩

/-- One-step unfolding of the builder at an internal node, phrased through
`buildNode`. -/
theorem build_rec_succ (sq : ℚ → ℚ) (image : Image) (n : ℕ) (qt : Quadtree) (i x y : ℕ) :
    build_quadtree_rec sq image (n + 1) qt i x y =
    (let qt4 := build_quadtree_rec sq image n (build_quadtree_rec sq image n
        (build_quadtree_rec sq image n (build_quadtree_rec sq image n qt (4 * i + 1) x y)
          (4 * i + 2) (x + 2 ^ n) y) (4 * i + 3) (x + 2 ^ n) (y + 2 ^ n)) (4 * i + 4) x
        (y + 2 ^ n)
     { qt4 with
       nodes := updN qt4.nodes i (buildNode sq qt4 i),
       medvar := qt4.medvar + (buildNode sq qt4 i).v,
       maxvar := if (buildNode sq qt4 i).v > qt4.maxvar then (buildNode sq qt4 i).v
                 else qt4.maxvar }) := rfl

/-- Master characterisation of `build_quadtree_rec`: the call only writes the
subtree rooted at `index`, only ever raises `maxvar`, and afterwards every
depth-`n` descendant holds a copied pixel while every shallower descendant
satisfies the internal field equations, with its variance accounted for in
`maxvar`. -/
theorem build_rec_master (sq : ℚ → ℚ) (image : Image) : ∀ (n : ℕ) (qt : Quadtree) (i x y : ℕ),
    (∀ j, ¬ inSub n i j → (build_quadtree_rec sq image n qt i x y).nodes j = qt.nodes j) ∧
    qt.maxvar ≤ (build_quadtree_rec sq image n qt i x y).maxvar ∧
    (∀ d j, d ≤ n → descAt d i j →
      (if d = n then
        ∃ p, (build_quadtree_rec sq image n qt i x y).nodes j =
          { moyenne := image.image p, epsilon := 0, u := 1, v := 0 }
       else
        internalEq sq (build_quadtree_rec sq image n qt i x y) j ∧
        ((build_quadtree_rec sq image n qt i x y).nodes j).v ≤
          (build_quadtree_rec sq image n qt i x y).maxvar)) := by
  intro n
  induction n with
  | zero =>
    intro qt i x y
    refine ⟨?_, le_refl _, ?_⟩
    · intro j hj
      have hji : j ≠ i := fun h => hj (h ▸ inSub_self 0 i)
      show updN qt.nodes i _ j = qt.nodes j
      unfold updN
      rw [if_neg hji]
    · intro d j hd hdesc
      have hd0 : d = 0 := by omega
      subst hd0
      rw [if_pos rfl]
      refine ⟨y * image.width + x, ?_⟩
      show updN qt.nodes i _ j = _
      unfold updN
      have hji : j = i := hdesc
      rw [if_pos hji]
  | succ n ih =>
    intro qt i x y
    obtain ⟨fr1, mv1, ct1⟩ := ih qt (4 * i + 1) x y
    set Q1 := build_quadtree_rec sq image n qt (4 * i + 1) x y with hQ1
    obtain ⟨fr2, mv2, ct2⟩ := ih Q1 (4 * i + 2) (x + 2 ^ n) y
    set Q2 := build_quadtree_rec sq image n Q1 (4 * i + 2) (x + 2 ^ n) y with hQ2
    obtain ⟨fr3, mv3, ct3⟩ := ih Q2 (4 * i + 3) (x + 2 ^ n) (y + 2 ^ n)
    set Q3 := build_quadtree_rec sq image n Q2 (4 * i + 3) (x + 2 ^ n) (y + 2 ^ n) with hQ3
    obtain ⟨fr4, mv4, ct4⟩ := ih Q3 (4 * i + 4) x (y + 2 ^ n)
    set Q4 := build_quadtree_rec sq image n Q3 (4 * i + 4) x (y + 2 ^ n) with hQ4
    have hres := build_rec_succ sq image n qt i x y
    rw [← hQ1, ← hQ2, ← hQ3, ← hQ4] at hres
    simp only [] at hres
    -- final state of node i and of untouched nodes
    have hnodei : (build_quadtree_rec sq image (n + 1) qt i x y).nodes i = buildNode sq Q4 i := by
      rw [hres]
      show updN Q4.nodes i _ i = _
      unfold updN
      rw [if_pos rfl]
    have hnodene : ∀ j, j ≠ i →
        (build_quadtree_rec sq image (n + 1) qt i x y).nodes j = Q4.nodes j := by
      intro j hj
      rw [hres]
      show updN Q4.nodes i _ j = _
      unfold updN
      rw [if_neg hj]
    have hmaxQ : Q4.maxvar ≤ (build_quadtree_rec sq image (n + 1) qt i x y).maxvar := by
      rw [hres]
      show Q4.maxvar ≤ if (buildNode sq Q4 i).v > Q4.maxvar then _ else Q4.maxvar
      split
      · next h => exact le_of_lt h
      · exact le_refl _
    have hvmax : (buildNode sq Q4 i).v ≤
        (build_quadtree_rec sq image (n + 1) qt i x y).maxvar := by
      rw [hres]
      show _ ≤ if (buildNode sq Q4 i).v > Q4.maxvar then (buildNode sq Q4 i).v else Q4.maxvar
      split
      · exact le_refl _
      · next h => exact le_of_not_lt h
    -- agreement of the final tree with each intermediate state on the
    -- corresponding child subtree
    have hag1 : ∀ j, inSub n (4 * i + 1) j →
        (build_quadtree_rec sq image (n + 1) qt i x y).nodes j = Q1.nodes j := by
      intro j hj
      have hne : j ≠ i := by
        have := inSub_ge hj
        omega
      rw [hnodene j hne,
        fr4 j (inSub_sibling_disjoint (by omega) (by omega) (by omega) (by omega) (by omega) hj),
        fr3 j (inSub_sibling_disjoint (by omega) (by omega) (by omega) (by omega) (by omega) hj),
        fr2 j (inSub_sibling_disjoint (by omega) (by omega) (by omega) (by omega) (by omega) hj)]
    have hag2 : ∀ j, inSub n (4 * i + 2) j →
        (build_quadtree_rec sq image (n + 1) qt i x y).nodes j = Q2.nodes j := by
      intro j hj
      have hne : j ≠ i := by
        have := inSub_ge hj
        omega
      rw [hnodene j hne,
        fr4 j (inSub_sibling_disjoint (by omega) (by omega) (by omega) (by omega) (by omega) hj),
        fr3 j (inSub_sibling_disjoint (by omega) (by omega) (by omega) (by omega) (by omega) hj)]
    have hag3 : ∀ j, inSub n (4 * i + 3) j →
        (build_quadtree_rec sq image (n + 1) qt i x y).nodes j = Q3.nodes j := by
      intro j hj
      have hne : j ≠ i := by
        have := inSub_ge hj
        omega
      rw [hnodene j hne,
        fr4 j (inSub_sibling_disjoint (by omega) (by omega) (by omega) (by omega) (by omega) hj)]
    have hag4 : ∀ j, inSub n (4 * i + 4) j →
        (build_quadtree_rec sq image (n + 1) qt i x y).nodes j = Q4.nodes j := by
      intro j hj
      have hne : j ≠ i := by
        have := inSub_ge hj
        omega
      rw [hnodene j hne]
    refine ⟨?_, ?_, ?_⟩
    · -- frame
      intro j hj
      have hji : j ≠ i := fun h => hj (h ▸ inSub_self _ _)
      rw [hnodene j hji,
        fr4 j (not_inSub_child (by omega) (by omega) hj),
        fr3 j (not_inSub_child (by omega) (by omega) hj),
        fr2 j (not_inSub_child (by omega) (by omega) hj),
        fr1 j (not_inSub_child (by omega) (by omega) hj)]
    · -- maxvar monotone
      exact le_trans mv1 (le_trans mv2 (le_trans mv3 (le_trans mv4 hmaxQ)))
    · -- content
      intro d j hd hdesc
      cases d with
      | zero =>
        have hji : j = i := hdesc
        subst hji
        rw [if_neg (by omega : ¬ (0 : ℕ) = n + 1)]
        constructor
        · refine buildNode_internalEq sq _ Q4 j hnodei ?_ ?_ ?_ ?_
          · exact hnodene _ (by omega)
          · exact hnodene _ (by omega)
          · exact hnodene _ (by omega)
          · exact hnodene _ (by omega)
        · rw [hnodei]
          exact hvmax
      | succ d =>
        have hdn : d ≤ n := by omega
        have key : ∀ (k : ℕ), 1 ≤ k → k ≤ 4 → descAt d (4 * i + k) j →
            (∀ jj, inSub n (4 * i + k) jj →
              (build_quadtree_rec sq image (n + 1) qt i x y).nodes jj =
                (build_quadtree_rec sq image n
                  (match k with
                    | 1 => qt
                    | 2 => Q1
                    | 3 => Q2
                    | _ => Q3) (4 * i + k)
                  (match k with | 1 => x | 2 => x + 2 ^ n | 3 => x + 2 ^ n | _ => x)
                  (match k with | 1 => y | 2 => y | 3 => y + 2 ^ n | _ => y + 2 ^ n)).nodes jj) →
            (∀ dd jj, dd ≤ n → descAt dd (4 * i + k) jj →
              (if dd = n then
                ∃ p, (build_quadtree_rec sq image n
                  (match k with
                    | 1 => qt
                    | 2 => Q1
                    | 3 => Q2
                    | _ => Q3) (4 * i + k)
                  (match k with | 1 => x | 2 => x + 2 ^ n | 3 => x + 2 ^ n | _ => x)
                  (match k with | 1 => y | 2 => y | 3 => y + 2 ^ n | _ => y + 2 ^ n)).nodes jj =
                    { moyenne := image.image p, epsilon := 0, u := 1, v := 0 }
               else
                internalEq sq (build_quadtree_rec sq image n
                  (match k with
                    | 1 => qt
                    | 2 => Q1
                    | 3 => Q2
                    | _ => Q3) (4 * i + k)
                  (match k with | 1 => x | 2 => x + 2 ^ n | 3 => x + 2 ^ n | _ => x)
                  (match k with | 1 => y | 2 => y | 3 => y + 2 ^ n | _ => y + 2 ^ n)) jj ∧
                ((build_quadtree_rec sq image n
                  (match k with
                    | 1 => qt
                    | 2 => Q1
                    | 3 => Q2
                    | _ => Q3) (4 * i + k)
                  (match k with | 1 => x | 2 => x + 2 ^ n | 3 => x + 2 ^ n | _ => x)
                  (match k with | 1 => y | 2 => y | 3 => y + 2 ^ n | _ => y + 2 ^ n)).nodes jj).v ≤
                  (build_quadtree_rec sq image n
                  (match k with
                    | 1 => qt
                    | 2 => Q1
                    | 3 => Q2
                    | _ => Q3) (4 * i + k)
                  (match k with | 1 => x | 2 => x + 2 ^ n | 3 => x + 2 ^ n | _ => x)
                  (match k with | 1 => y | 2 => y | 3 => y + 2 ^ n | _ => y + 2 ^ n)).maxvar)) →
            (build_quadtree_rec sq image n
                  (match k with
                    | 1 => qt
                    | 2 => Q1
                    | 3 => Q2
                    | _ => Q3) (4 * i + k)
                  (match k with | 1 => x | 2 => x + 2 ^ n | 3 => x + 2 ^ n | _ => x)
                  (match k with | 1 => y | 2 => y | 3 => y + 2 ^ n | _ => y + 2 ^ n)).maxvar ≤
              (build_quadtree_rec sq image (n + 1) qt i x y).maxvar →
            (if d + 1 = n + 1 then
              ∃ p, (build_quadtree_rec sq image (n + 1) qt i x y).nodes j =
                { moyenne := image.image p, epsilon := 0, u := 1, v := 0 }
             else
              internalEq sq (build_quadtree_rec sq image (n + 1) qt i x y) j ∧
              ((build_quadtree_rec sq image (n + 1) qt i x y).nodes j).v ≤
                (build_quadtree_rec sq image (n + 1) qt i x y).maxvar) := by
          intro k hk1 hk4 hdk hag hct hmv
          by_cases hdd : d = n
          · subst hdd
            rw [if_pos rfl]
            have := hct d j (le_refl d) hdk
            rw [if_pos rfl] at this
            obtain ⟨p, hp⟩ := this
            exact ⟨p, by rw [hag j ⟨d, le_refl d, hdk⟩, hp]⟩
          · rw [if_neg (by omega)]
            have := hct d j hdn hdk
            rw [if_neg hdd] at this
            obtain ⟨hie, hv⟩ := this
            constructor
            · refine internalEq_congr ?_ ?_ ?_ ?_ ?_ hie
              · exact hag j ⟨d, hdn, hdk⟩
              · exact hag _ ⟨d + 1, by omega, descAt_child (by omega) (by omega) hdk⟩
              · exact hag _ ⟨d + 1, by omega, descAt_child (by omega) (by omega) hdk⟩
              · exact hag _ ⟨d + 1, by omega, descAt_child (by omega) (by omega) hdk⟩
              · exact hag _ ⟨d + 1, by omega, descAt_child (by omega) (by omega) hdk⟩
            · rw [hag j ⟨d, hdn, hdk⟩]
              exact le_trans hv hmv
        rcases hdesc with hk | hk | hk | hk
        · exact key 1 (by omega) (by omega) hk hag1 ct1
            (le_trans mv2 (le_trans mv3 (le_trans mv4 hmaxQ)))
        · exact key 2 (by omega) (by omega) hk hag2 ct2
            (le_trans mv3 (le_trans mv4 hmaxQ))
        · exact key 3 (by omega) (by omega) hk hag3 ct3 (le_trans mv4 hmaxQ)
        · exact key 4 (by omega) (by omega) hk hag4 ct4 hmaxQ

/-! ## Flat invariants of the built tree -/

/-- The nodes of the wrapped builder output are those of the raw recursive
build; the wrapper only rescales `medvar`. -/
theorem built_nodes_raw (sq : ℚ → ℚ) (image : Image) :
    (build_quadtree_from_image sq image).nodes =
      (build_quadtree_rec sq image (log2i image.width)
        (create_empty_quadtree (log2i image.width)) 0 0 0).nodes := rfl

/-- The wrapper keeps the raw build's `maxvar`. -/
theorem built_maxvar_raw (sq : ℚ → ℚ) (image : Image) :
    (build_quadtree_from_image sq image).maxvar =
      (build_quadtree_rec sq image (log2i image.width)
        (create_empty_quadtree (log2i image.width)) 0 0 0).maxvar := rfl

/-- Every depth-`L` descendant of the root of the built tree holds a copied
pixel, and every shallower one satisfies the internal field equations with
its variance below `maxvar`. -/
theorem built_content (sq : ℚ → ℚ) (image : Image) (L : ℕ) (hw : image.width = 2 ^ L) :
    ∀ d j, d ≤ L → descAt d 0 j →
      (if d = L then
        ∃ p, (build_quadtree_from_image sq image).nodes j =
          { moyenne := image.image p, epsilon := 0, u := 1, v := 0 }
       else
        internalEq sq (build_quadtree_from_image sq image) j ∧
        ((build_quadtree_from_image sq image).nodes j).v ≤
          (build_quadtree_from_image sq image).maxvar) := by
  have hlog : log2i image.width = L := by rw [hw]; exact log2i_two_pow L
  obtain ⟨fr, mv, ct⟩ := build_rec_master sq image L (create_empty_quadtree L) 0 0 0
  have hn : (build_quadtree_from_image sq image).nodes =
      (build_quadtree_rec sq image L (create_empty_quadtree L) 0 0 0).nodes := by
    rw [built_nodes_raw, hlog]
  have hm : (build_quadtree_from_image sq image).maxvar =
      (build_quadtree_rec sq image L (create_empty_quadtree L) 0 0 0).maxvar := by
    rw [built_maxvar_raw, hlog]
  intro d j hd hdesc
  have h := ct d j hd hdesc
  by_cases hdL : d = L
  · rw [if_pos hdL] at h ⊢
    obtain ⟨p, hp⟩ := h
    exact ⟨p, by rw [hn]; exact hp⟩
  · rw [if_neg hdL] at h ⊢
    refine ⟨?_, ?_⟩
    · exact internalEq_congr (congrFun hn j) (congrFun hn _) (congrFun hn _)
        (congrFun hn _) (congrFun hn _) h.1
    · rw [hn, hm]
      exact h.2

/-- With raster bytes below 256, every node mean of the built tree is below
256 (leaves copy pixels; internal means are reduced mod 256 by the
`unsigned char` store). -/
theorem built_moyenne_lt (sq : ℚ → ℚ) (image : Image) (L : ℕ) (hw : image.width = 2 ^ L)
    (hpix : ∀ p, image.image p < 256) :
    ∀ d j, d ≤ L → descAt d 0 j →
      ((build_quadtree_from_image sq image).nodes j).moyenne < 256 := by
  intro d j hd hdesc
  have h := built_content sq image L hw d j hd hdesc
  by_cases hdL : d = L
  · rw [if_pos hdL] at h
    obtain ⟨p, hp⟩ := h
    rw [hp]
    exact hpix p
  · rw [if_neg hdL] at h
    rw [h.1.1]
    exact Nat.mod_lt _ (by norm_num)

/-- The built tree's `levels` is the truncated log of the width. -/
theorem built_levels (sq : ℚ → ℚ) (image : Image) (L : ℕ) (hw : image.width = 2 ^ L) :
    (build_quadtree_from_image sq image).levels = L := by
  have hlog : log2i image.width = L := by rw [hw]; exact log2i_two_pow L
  have h0 : (build_quadtree_from_image sq image).levels =
      (build_quadtree_rec sq image (log2i image.width)
        (create_empty_quadtree (log2i image.width)) 0 0 0).levels := rfl
  rw [h0, hlog]
  exact (build_rec_scalars sq image L (create_empty_quadtree L) 0 0 0).2

/-- The built tree's node count is that of the complete tree. -/
theorem built_total (sq : ℚ → ℚ) (image : Image) (L : ℕ) (hw : image.width = 2 ^ L) :
    (build_quadtree_from_image sq image).total_nodes = tLevel (L + 1) := by
  have hlog : log2i image.width = L := by rw [hw]; exact log2i_two_pow L
  have h0 : (build_quadtree_from_image sq image).total_nodes =
      (build_quadtree_rec sq image (log2i image.width)
        (create_empty_quadtree (log2i image.width)) 0 0 0).total_nodes := rfl
  rw [h0, hlog]
  exact ((build_rec_scalars sq image L (create_empty_quadtree L) 0 0 0).1).trans
    (create_empty_total L)

/-- On a tree with the complete shape, the leaf test is exactly the flat
index reaching the last level. -/
theorem is_leaf_iff (qt : Quadtree) (L : ℕ) (hlev : qt.levels = L)
    (htot : qt.total_nodes = tLevel (L + 1)) (j : ℕ) :
    is_leaf qt j = true ↔ tLevel L ≤ j := by
  have hshift : (1 <<< (2 * qt.levels) : ℕ) = 4 ^ L := by
    rw [hlev, Nat.shiftLeft_eq, one_mul, pow_mul]
    norm_num
  have htl := tLevel_pow L
  have htl1 : tLevel (L + 1) = 4 * tLevel L + 1 := rfl
  show decide (j ≥ qt.total_nodes - 1 <<< (2 * qt.levels)) = true ↔ _
  rw [decide_eq_true_eq, htot, hshift]
  omega

/-- Indices strictly before `tLevel L` are internal (below the leaf level). -/
theorem internal_to_desc {L j : ℕ} (hjt : j < tLevel L) : ∃ d, d < L ∧ descAt d 0 j := by
  have hL0 : 0 < L := by
    by_contra h
    have hL : L = 0 := by omega
    rw [hL] at hjt
    simp [tLevel] at hjt
  obtain ⟨d, hd, hdesc⟩ := flat_to_desc (L := L - 1) j (by
    have h1 : L - 1 + 1 = L := by omega
    rw [h1]
    exact hjt)
  exact ⟨d, by omega, hdesc⟩

/-- Claim C2: in the tree built from a power-of-two raster with byte pixels,
at every internal node (every node the leaf test rejects) the parent's mean
times 4 plus its epsilon equals the sum of the four children's means;
equivalently the mean is the floor of that sum divided by 4 and the epsilon
is that sum modulo 4. -/
theorem C2_mean_epsilon_invariant (sq : ℚ → ℚ) (image : Image) (L : ℕ)
    (hw : image.width = 2 ^ L) (hpix : ∀ p, image.image p < 256) (j : ℕ)
    (hj : is_leaf (build_quadtree_from_image sq image) j = false) :
    ((build_quadtree_from_image sq image).nodes j).moyenne * 4 +
        ((build_quadtree_from_image sq image).nodes j).epsilon =
        childSum (build_quadtree_from_image sq image) j ∧
    ((build_quadtree_from_image sq image).nodes j).moyenne =
        childSum (build_quadtree_from_image sq image) j / 4 ∧
    ((build_quadtree_from_image sq image).nodes j).epsilon =
        childSum (build_quadtree_from_image sq image) j % 4 := by
  have hjt : j < tLevel L := by
    have hiff := is_leaf_iff (build_quadtree_from_image sq image) L
      (built_levels sq image L hw) (built_total sq image L hw) j
    rcases Nat.lt_or_ge j (tLevel L) with h | h
    · exact h
    · rw [hiff.mpr h] at hj
      exact absurd hj (by simp)
  obtain ⟨d, hdL, hdesc⟩ := internal_to_desc hjt
  have h := built_content sq image L hw d j (by omega) hdesc
  rw [if_neg (by omega)] at h
  obtain ⟨hie, _⟩ := h
  obtain ⟨hm, he, _, _⟩ := hie
  have hc1 := built_moyenne_lt sq image L hw hpix (d + 1) (4 * j + 1) (by omega)
    (descAt_child (by omega) (by omega) hdesc)
  have hc2 := built_moyenne_lt sq image L hw hpix (d + 1) (4 * j + 2) (by omega)
    (descAt_child (by omega) (by omega) hdesc)
  have hc3 := built_moyenne_lt sq image L hw hpix (d + 1) (4 * j + 3) (by omega)
    (descAt_child (by omega) (by omega) hdesc)
  have hc4 := built_moyenne_lt sq image L hw hpix (d + 1) (4 * j + 4) (by omega)
    (descAt_child (by omega) (by omega) hdesc)
  have hcs : childSum (build_quadtree_from_image sq image) j < 1024 := by
    unfold childSum
    omega
  have hdiv : childSum (build_quadtree_from_image sq image) j / 4 < 256 := by omega
  refine ⟨?_, ?_, he⟩
  · rw [hm, he, Nat.mod_eq_of_lt hdiv]
    omega
  · rw [hm, Nat.mod_eq_of_lt hdiv]

/-- Witness for C2 on the 2×2 raster `[10, 20, 30, 40]`, at the root. -/
theorem C2_mean_epsilon_invariant_witness :
    raster2x2.width = 2 ^ 1 ∧ (∀ p, raster2x2.image p < 256) ∧
    is_leaf (build_quadtree_from_image sqZero raster2x2) 0 = false ∧
    (((build_quadtree_from_image sqZero raster2x2).nodes 0).moyenne * 4 +
        ((build_quadtree_from_image sqZero raster2x2).nodes 0).epsilon =
        childSum (build_quadtree_from_image sqZero raster2x2) 0 ∧
      ((build_quadtree_from_image sqZero raster2x2).nodes 0).moyenne =
        childSum (build_quadtree_from_image sqZero raster2x2) 0 / 4 ∧
      ((build_quadtree_from_image sqZero raster2x2).nodes 0).epsilon =
        childSum (build_quadtree_from_image sqZero raster2x2) 0 % 4) :=
  ⟨rfl, fun p => by show p % 4 * 10 + 10 < 256; omega, by decide,
    C2_mean_epsilon_invariant sqZero raster2x2 1 rfl
      (fun p => by show p % 4 * 10 + 10 < 256; omega) 0 (by decide)⟩

/-! ## Claim C8: uniform input -/

/-- A filter call on an already-uniform node returns 1 at once and leaves the
tree untouched (the first branch of both arms of `filtrage`). -/
theorem filtrage_uroot (fuel : ℕ) (qt : Quadtree) (i : ℕ) (sigma alpha : ℚ)
    (hu : (qt.nodes i).u ≠ 0) : filtrage fuel qt i sigma alpha = (1, qt) := by
  cases fuel with
  | zero =>
    show (if (qt.nodes i).u ≠ 0 then _ else _) = _
    rw [if_pos hu]
  | succ fuel =>
    show (if (qt.nodes i).u ≠ 0 then _ else _) = _
    rw [if_pos hu]

/-- When the built tree's `maxvar` is zero and `sq` behaves like a square
root on nonnegatives, every node of the built tree is uniform: all variances
vanish, so the difference terms force equal child means all the way up. -/
theorem built_u_one (sq : ℚ → ℚ) (image : Image) (L : ℕ) (hw : image.width = 2 ^ L)
    (hs1 : ∀ q : ℚ, 0 ≤ q → 0 ≤ sq q) (hs2 : ∀ q : ℚ, 0 ≤ q → sq q = 0 → q = 0)
    (hmax : (build_quadtree_from_image sq image).maxvar = 0) :
    ∀ k d j, d ≤ L → L ≤ d + k → descAt d 0 j →
      ((build_quadtree_from_image sq image).nodes j).u = 1 := by
  intro k
  induction k with
  | zero =>
    intro d j hd hk hdesc
    have hdL : d = L := by omega
    have h := built_content sq image L hw d j hd hdesc
    rw [if_pos hdL] at h
    obtain ⟨p, hp⟩ := h
    rw [hp]
  | succ k ih =>
    intro d j hd hk hdesc
    by_cases hdL : d = L
    · have h := built_content sq image L hw d j hd hdesc
      rw [if_pos hdL] at h
      obtain ⟨p, hp⟩ := h
      rw [hp]
    · have h := built_content sq image L hw d j hd hdesc
      rw [if_neg hdL] at h
      set B := build_quadtree_from_image sq image with hB
      obtain ⟨⟨hm, he, hu, hv⟩, hvle⟩ := h
      have hs0 : 0 ≤ sommeV B j := by
        unfold sommeV
        positivity
      have hvz : (B.nodes j).v = 0 := by
        have h1 : (B.nodes j).v ≤ 0 := by
          rw [← hmax]
          exact hvle
        have h2 : 0 ≤ (B.nodes j).v := by
          rw [hv]
          exact div_nonneg (hs1 _ hs0) (by norm_num)
        linarith
      have hsq : sq (sommeV B j) = 0 := by
        rw [hv] at hvz
        rcases div_eq_zero_iff.mp hvz with h0 | h0
        · exact h0
        · norm_num at h0
      have hsv : sommeV B j = 0 := hs2 _ hs0 hsq
      unfold sommeV at hsv
      have t1 := sq_nonneg ((B.nodes (4 * j + 1)).v)
      have t2 := sq_nonneg ((B.nodes (4 * j + 2)).v)
      have t3 := sq_nonneg ((B.nodes (4 * j + 3)).v)
      have t4 := sq_nonneg ((B.nodes (4 * j + 4)).v)
      have s1 := sq_nonneg (((B.nodes j).moyenne : ℚ) - ((B.nodes (4 * j + 1)).moyenne : ℚ))
      have s2 := sq_nonneg (((B.nodes j).moyenne : ℚ) - ((B.nodes (4 * j + 2)).moyenne : ℚ))
      have s3 := sq_nonneg (((B.nodes j).moyenne : ℚ) - ((B.nodes (4 * j + 3)).moyenne : ℚ))
      have s4 := sq_nonneg (((B.nodes j).moyenne : ℚ) - ((B.nodes (4 * j + 4)).moyenne : ℚ))
      have z1 : (((B.nodes j).moyenne : ℚ) - ((B.nodes (4 * j + 1)).moyenne : ℚ)) ^ 2 = 0 := by
        linarith
      have z2 : (((B.nodes j).moyenne : ℚ) - ((B.nodes (4 * j + 2)).moyenne : ℚ)) ^ 2 = 0 := by
        linarith
      have z3 : (((B.nodes j).moyenne : ℚ) - ((B.nodes (4 * j + 3)).moyenne : ℚ)) ^ 2 = 0 := by
        linarith
      have z4 : (((B.nodes j).moyenne : ℚ) - ((B.nodes (4 * j + 4)).moyenne : ℚ)) ^ 2 = 0 := by
        linarith
      have e1 : ((B.nodes j).moyenne : ℚ) = ((B.nodes (4 * j + 1)).moyenne : ℚ) := by
        have := (pow_eq_zero_iff (by norm_num : (2 : ℕ) ≠ 0)).mp z1
        linarith
      have e2 : ((B.nodes j).moyenne : ℚ) = ((B.nodes (4 * j + 2)).moyenne : ℚ) := by
        have := (pow_eq_zero_iff (by norm_num : (2 : ℕ) ≠ 0)).mp z2
        linarith
      have e3 : ((B.nodes j).moyenne : ℚ) = ((B.nodes (4 * j + 3)).moyenne : ℚ) := by
        have := (pow_eq_zero_iff (by norm_num : (2 : ℕ) ≠ 0)).mp z3
        linarith
      have e4 : ((B.nodes j).moyenne : ℚ) = ((B.nodes (4 * j + 4)).moyenne : ℚ) := by
        have := (pow_eq_zero_iff (by norm_num : (2 : ℕ) ≠ 0)).mp z4
        linarith
      have hm12 : (B.nodes (4 * j + 1)).moyenne = (B.nodes (4 * j + 2)).moyenne := by
        have hq : ((B.nodes (4 * j + 1)).moyenne : ℚ) = ((B.nodes (4 * j + 2)).moyenne : ℚ) := by
          rw [← e1, e2]
        exact_mod_cast hq
      have hm23 : (B.nodes (4 * j + 2)).moyenne = (B.nodes (4 * j + 3)).moyenne := by
        have hq : ((B.nodes (4 * j + 2)).moyenne : ℚ) = ((B.nodes (4 * j + 3)).moyenne : ℚ) := by
          rw [← e2, e3]
        exact_mod_cast hq
      have hm34 : (B.nodes (4 * j + 3)).moyenne = (B.nodes (4 * j + 4)).moyenne := by
        have hq : ((B.nodes (4 * j + 3)).moyenne : ℚ) = ((B.nodes (4 * j + 4)).moyenne : ℚ) := by
          rw [← e3, e4]
        exact_mod_cast hq
      have hu1 := ih (d + 1) (4 * j + 1) (by omega) (by omega)
        (descAt_child (by omega) (by omega) hdesc)
      have hu2 := ih (d + 1) (4 * j + 2) (by omega) (by omega)
        (descAt_child (by omega) (by omega) hdesc)
      have hu3 := ih (d + 1) (4 * j + 3) (by omega) (by omega)
        (descAt_child (by omega) (by omega) hdesc)
      have hu4 := ih (d + 1) (4 * j + 4) (by omega) (by omega)
        (descAt_child (by omega) (by omega) hdesc)
      rw [hu, if_pos ⟨hm12, hm23, hm34, hu1, hu2, hu3, hu4⟩]

/-- Claim C8: on a built tree with `maxvar = 0` (uniform input) the threshold
`sigma = medvar / maxvar` is 0 under the spec's 0/0 = 0 convention (the
rational-division model), and the filter — for any threshold whatsoever —
returns 1 at the root immediately and mutates nothing, because the root of
such a tree is already uniform. -/
theorem C8_uniform_input_filter_noop (sq : ℚ → ℚ) (image : Image) (L : ℕ)
    (hw : image.width = 2 ^ L)
    (hs1 : ∀ q : ℚ, 0 ≤ q → 0 ≤ sq q) (hs2 : ∀ q : ℚ, 0 ≤ q → sq q = 0 → q = 0)
    (hmax : (build_quadtree_from_image sq image).maxvar = 0)
    (alpha : ℚ) (halpha : 0 < alpha) :
    (build_quadtree_from_image sq image).medvar /
        (build_quadtree_from_image sq image).maxvar = 0 ∧
    (∀ sigma : ℚ,
      filtrage (build_quadtree_from_image sq image).levels
        (build_quadtree_from_image sq image) 0 sigma alpha =
        (1, build_quadtree_from_image sq image)) ∧
    applyFilter (build_quadtree_from_image sq image) alpha =
      build_quadtree_from_image sq image := by
  have hu := built_u_one sq image L hw hs1 hs2 hmax L 0 0 (by omega) (by omega) rfl
  have hfil : ∀ sigma : ℚ,
      filtrage (build_quadtree_from_image sq image).levels
        (build_quadtree_from_image sq image) 0 sigma alpha =
        (1, build_quadtree_from_image sq image) := by
    intro sigma
    exact filtrage_uroot _ _ _ _ _ (by rw [hu]; norm_num)
  refine ⟨by rw [hmax, div_zero], hfil, ?_⟩
  show (filtrage _ _ 0 _ alpha).2 = _
  rw [hfil]

/-- Witness for C8 on the 1×1 raster `[128]` with the identity in place of
`sqrt` (every variance it is applied to is 0, where `id` and `sqrt`
agree). -/
theorem C8_uniform_input_filter_noop_witness :
    raster1x1.width = 2 ^ 0 ∧
    (∀ q : ℚ, 0 ≤ q → 0 ≤ id q) ∧ (∀ q : ℚ, 0 ≤ q → id q = 0 → q = 0) ∧
    (build_quadtree_from_image id raster1x1).maxvar = 0 ∧ (0 : ℚ) < 2 ∧
    ((build_quadtree_from_image id raster1x1).medvar /
        (build_quadtree_from_image id raster1x1).maxvar = 0 ∧
     (∀ sigma : ℚ,
       filtrage (build_quadtree_from_image id raster1x1).levels
         (build_quadtree_from_image id raster1x1) 0 sigma 2 =
         (1, build_quadtree_from_image id raster1x1)) ∧
     applyFilter (build_quadtree_from_image id raster1x1) 2 =
       build_quadtree_from_image id raster1x1) :=
  ⟨rfl, fun _ h => h, fun _ _ h => h, rfl, by norm_num,
    C8_uniform_input_filter_noop id raster1x1 0 rfl (fun _ h => h) (fun _ _ h => h) rfl 2
      (by norm_num)⟩

/-- The cell index is a depth-`n` descendant of the subtree root. -/
theorem qIndex_desc : ∀ n i a b, a < 2 ^ n → b < 2 ^ n → descAt n i (qIndex n i a b) := by
  intro n
  induction n with
  | zero => intro i a b _ _; rfl
  | succ n ih =>
    intro i a b ha hb
    have h2p : (2 : ℕ) ^ (n + 1) = 2 * 2 ^ n := by rw [pow_succ]; ring
    by_cases h1 : a < 2 ^ n
    · by_cases h2 : b < 2 ^ n
      · have hq : qIndex (n + 1) i a b = qIndex n (4 * i + 1) a b := by
          show (if a < 2 ^ n then if b < 2 ^ n then _ else _ else _) = _
          rw [if_pos h1, if_pos h2]
        rw [hq]
        exact Or.inl (ih (4 * i + 1) a b h1 h2)
      · have hq : qIndex (n + 1) i a b = qIndex n (4 * i + 4) a (b - 2 ^ n) := by
          show (if a < 2 ^ n then if b < 2 ^ n then _ else _ else _) = _
          rw [if_pos h1, if_neg h2]
        rw [hq]
        exact Or.inr (Or.inr (Or.inr (ih (4 * i + 4) a (b - 2 ^ n) h1 (by omega))))
    · by_cases h2 : b < 2 ^ n
      · have hq : qIndex (n + 1) i a b = qIndex n (4 * i + 2) (a - 2 ^ n) b := by
          show (if a < 2 ^ n then _ else if b < 2 ^ n then _ else _) = _
          rw [if_neg h1, if_pos h2]
        rw [hq]
        exact Or.inr (Or.inl (ih (4 * i + 2) (a - 2 ^ n) b (by omega) h2))
      · have hq : qIndex (n + 1) i a b = qIndex n (4 * i + 3) (a - 2 ^ n) (b - 2 ^ n) := by
          show (if a < 2 ^ n then _ else if b < 2 ^ n then _ else _) = _
          rw [if_neg h1, if_neg h2]
        rw [hq]
        exact Or.inr (Or.inr (Or.inl (ih (4 * i + 3) (a - 2 ^ n) (b - 2 ^ n) (by omega)
          (by omega))))

/-- The builder stores at the cell `(a, b)` of the block rooted at `(x, y)`
exactly the raster pixel of that cell (with the raster's row stride). -/
theorem build_leaf_exact (sq : ℚ → ℚ) (image : Image) :
    ∀ n (qt : Quadtree) i x y a b, a < 2 ^ n → b < 2 ^ n →
      (build_quadtree_rec sq image n qt i x y).nodes (qIndex n i a b) =
        { moyenne := image.image ((y + b) * image.width + (x + a)), epsilon := 0, u := 1,
          v := 0 } := by
  intro n
  induction n with
  | zero =>
    intro qt i x y a b ha hb
    have ha0 : a = 0 := by omega
    have hb0 : b = 0 := by omega
    subst ha0
    subst hb0
    show updN qt.nodes i _ i = _
    unfold updN
    rw [if_pos rfl]
    have hco : y * image.width + x = (y + 0) * image.width + (x + 0) := by ring
    rw [hco]
  | succ n ih =>
    intro qt i x y a b ha hb
    have h2p : (2 : ℕ) ^ (n + 1) = 2 * 2 ^ n := by rw [pow_succ]; ring
    set Q1 := build_quadtree_rec sq image n qt (4 * i + 1) x y with hQ1
    set Q2 := build_quadtree_rec sq image n Q1 (4 * i + 2) (x + 2 ^ n) y with hQ2
    set Q3 := build_quadtree_rec sq image n Q2 (4 * i + 3) (x + 2 ^ n) (y + 2 ^ n) with hQ3
    set Q4 := build_quadtree_rec sq image n Q3 (4 * i + 4) x (y + 2 ^ n) with hQ4
    have fr2 := (build_rec_master sq image n Q1 (4 * i + 2) (x + 2 ^ n) y).1
    rw [← hQ2] at fr2
    have fr3 := (build_rec_master sq image n Q2 (4 * i + 3) (x + 2 ^ n) (y + 2 ^ n)).1
    rw [← hQ3] at fr3
    have fr4 := (build_rec_master sq image n Q3 (4 * i + 4) x (y + 2 ^ n)).1
    rw [← hQ4] at fr4
    have hres := build_rec_succ sq image n qt i x y
    rw [← hQ1, ← hQ2, ← hQ3, ← hQ4] at hres
    simp only [] at hres
    have hnodene : ∀ j, j ≠ i →
        (build_quadtree_rec sq image (n + 1) qt i x y).nodes j = Q4.nodes j := by
      intro j hj
      rw [hres]
      show updN Q4.nodes i _ j = _
      unfold updN
      rw [if_neg hj]
    by_cases h1 : a < 2 ^ n
    · by_cases h2 : b < 2 ^ n
      · have hqi : qIndex (n + 1) i a b = qIndex n (4 * i + 1) a b := by
          show (if a < 2 ^ n then if b < 2 ^ n then _ else _ else _) = _
          rw [if_pos h1, if_pos h2]
        have hin : inSub n (4 * i + 1) (qIndex n (4 * i + 1) a b) :=
          ⟨n, le_refl n, qIndex_desc n (4 * i + 1) a b h1 h2⟩
        have hge := inSub_ge hin
        have hv := ih qt (4 * i + 1) x y a b h1 h2
        rw [← hQ1] at hv
        rw [hqi, hnodene _ (by omega),
          fr4 _ (inSub_sibling_disjoint (by omega) (by omega) (by omega) (by omega) (by omega)
            hin),
          fr3 _ (inSub_sibling_disjoint (by omega) (by omega) (by omega) (by omega) (by omega)
            hin),
          fr2 _ (inSub_sibling_disjoint (by omega) (by omega) (by omega) (by omega) (by omega)
            hin), hv]
      · have hb4 : b - 2 ^ n < 2 ^ n := by omega
        have hqi : qIndex (n + 1) i a b = qIndex n (4 * i + 4) a (b - 2 ^ n) := by
          show (if a < 2 ^ n then if b < 2 ^ n then _ else _ else _) = _
          rw [if_pos h1, if_neg h2]
        have hin : inSub n (4 * i + 4) (qIndex n (4 * i + 4) a (b - 2 ^ n)) :=
          ⟨n, le_refl n, qIndex_desc n (4 * i + 4) a (b - 2 ^ n) h1 hb4⟩
        have hge := inSub_ge hin
        have hv := ih Q3 (4 * i + 4) x (y + 2 ^ n) a (b - 2 ^ n) h1 hb4
        rw [← hQ4] at hv
        rw [hqi, hnodene _ (by omega), hv]
        have hco : (y + 2 ^ n + (b - 2 ^ n)) * image.width + (x + a) =
            (y + b) * image.width + (x + a) := by
          have h3 : y + 2 ^ n + (b - 2 ^ n) = y + b := by omega
          rw [h3]
        rw [hco]
    · by_cases h2 : b < 2 ^ n
      · have ha2 : a - 2 ^ n < 2 ^ n := by omega
        have hqi : qIndex (n + 1) i a b = qIndex n (4 * i + 2) (a - 2 ^ n) b := by
          show (if a < 2 ^ n then _ else if b < 2 ^ n then _ else _) = _
          rw [if_neg h1, if_pos h2]
        have hin : inSub n (4 * i + 2) (qIndex n (4 * i + 2) (a - 2 ^ n) b) :=
          ⟨n, le_refl n, qIndex_desc n (4 * i + 2) (a - 2 ^ n) b ha2 h2⟩
        have hge := inSub_ge hin
        have hv := ih Q1 (4 * i + 2) (x + 2 ^ n) y (a - 2 ^ n) b ha2 h2
        rw [← hQ2] at hv
        rw [hqi, hnodene _ (by omega),
          fr4 _ (inSub_sibling_disjoint (by omega) (by omega) (by omega) (by omega) (by omega)
            hin),
          fr3 _ (inSub_sibling_disjoint (by omega) (by omega) (by omega) (by omega) (by omega)
            hin), hv]
        have hco : (y + b) * image.width + (x + 2 ^ n + (a - 2 ^ n)) =
            (y + b) * image.width + (x + a) := by
          have h3 : x + 2 ^ n + (a - 2 ^ n) = x + a := by omega
          rw [h3]
        rw [hco]
      · have ha2 : a - 2 ^ n < 2 ^ n := by omega
        have hb4 : b - 2 ^ n < 2 ^ n := by omega
        have hqi : qIndex (n + 1) i a b = qIndex n (4 * i + 3) (a - 2 ^ n) (b - 2 ^ n) := by
          show (if a < 2 ^ n then _ else if b < 2 ^ n then _ else _) = _
          rw [if_neg h1, if_neg h2]
        have hin : inSub n (4 * i + 3) (qIndex n (4 * i + 3) (a - 2 ^ n) (b - 2 ^ n)) :=
          ⟨n, le_refl n, qIndex_desc n (4 * i + 3) (a - 2 ^ n) (b - 2 ^ n) ha2 hb4⟩
        have hge := inSub_ge hin
        have hv := ih Q2 (4 * i + 3) (x + 2 ^ n) (y + 2 ^ n) (a - 2 ^ n) (b - 2 ^ n) ha2 hb4
        rw [← hQ3] at hv
        rw [hqi, hnodene _ (by omega),
          fr4 _ (inSub_sibling_disjoint (by omega) (by omega) (by omega) (by omega) (by omega)
            hin), hv]
        have hco : (y + 2 ^ n + (b - 2 ^ n)) * image.width + (x + 2 ^ n + (a - 2 ^ n)) =
            (y + b) * image.width + (x + a) := by
          have h3 : x + 2 ^ n + (a - 2 ^ n) = x + a := by omega
          have h4 : y + 2 ^ n + (b - 2 ^ n) = y + b := by omega
          rw [h3, h4]
        rw [hco]

/-! ## Painter lemmas -/

/-- Unfolding of the painter at a leaf index (any fuel). -/
theorem paint_rec_leaf (qt : Quadtree) (fuel : ℕ) (img : Image) (i x y s : ℕ)
    (h : is_leaf qt i = true) :
    build_image_from_quadtree_rec qt fuel img i x y s =
      { img with image := fun q =>
          if q = y * img.width + x then (qt.nodes i).moyenne else img.image q } := by
  cases fuel with
  | zero =>
    show (if is_leaf qt i = true then _ else _) = _
    rw [if_pos h]
  | succ fuel =>
    show (if is_leaf qt i = true then _ else _) = _
    rw [if_pos h]

/-- Unfolding of the painter at an internal index with positive fuel. -/
theorem paint_rec_node (qt : Quadtree) (fuel : ℕ) (img : Image) (i x y s : ℕ)
    (h : is_leaf qt i = false) :
    build_image_from_quadtree_rec qt (fuel + 1) img i x y s =
      build_image_from_quadtree_rec qt fuel
        (build_image_from_quadtree_rec qt fuel
          (build_image_from_quadtree_rec qt fuel
            (build_image_from_quadtree_rec qt fuel img (4 * i + 1) x y (s / 2))
            (4 * i + 2) (x + s / 2) y (s / 2))
          (4 * i + 3) (x + s / 2) (y + s / 2) (s / 2))
        (4 * i + 4) x (y + s / 2) (s / 2) := by
  show (if is_leaf qt i = true then _ else _) = _
  rw [if_neg (by rw [h]; exact Bool.false_ne_true)]

/-- With fuel exhausted on a non-leaf index the model leaves the image
unchanged (unreachable on well-shaped trees). -/
theorem paint_rec_stuck (qt : Quadtree) (img : Image) (i x y s : ℕ)
    (h : is_leaf qt i = false) :
    build_image_from_quadtree_rec qt 0 img i x y s = img := by
  show (if is_leaf qt i = true then _ else _) = _
  rw [if_neg (by rw [h]; exact Bool.false_ne_true)]

/-- The painter never changes the image width. -/
theorem paint_width (qt : Quadtree) : ∀ (fuel : ℕ) (img : Image) (i x y s : ℕ),
    (build_image_from_quadtree_rec qt fuel img i x y s).width = img.width := by
  intro fuel
  induction fuel with
  | zero =>
    intro img i x y s
    by_cases h : is_leaf qt i = true
    · rw [paint_rec_leaf qt 0 img i x y s h]
    · have hF : is_leaf qt i = false := by
        cases hb : is_leaf qt i
        · rfl
        · exact absurd hb h
      rw [paint_rec_stuck qt img i x y s hF]
  | succ fuel ih =>
    intro img i x y s
    by_cases h : is_leaf qt i = true
    · rw [paint_rec_leaf qt (fuel + 1) img i x y s h]
    · have hF : is_leaf qt i = false := by
        cases hb : is_leaf qt i
        · rfl
        · exact absurd hb h
      rw [paint_rec_node qt fuel img i x y s hF, ih, ih, ih, ih]

/-- Row/column decomposition of a flat pixel index is unique when both
columns are in range. -/
theorem cell_eq {W r c r' c' : ℕ} (hc : c < W) (hc' : c' < W)
    (h : r * W + c = r' * W + c') : r = r' ∧ c = c' := by
  rcases Nat.lt_trichotomy r r' with hlt | heq | hgt
  · have h1 : (r + 1) * W ≤ r' * W := Nat.mul_le_mul_right W hlt
    rw [add_one_mul] at h1
    omega
  · subst heq
    omega
  · have h1 : (r' + 1) * W ≤ r * W := Nat.mul_le_mul_right W hgt
    rw [add_one_mul] at h1
    omega

/-- Master characterisation of the painter on a subtree whose internal nodes
fail the leaf test down to depth `n` and whose depth-`n` cells all pass it:
each cell of the painted block receives the target value `V` of its absolute
coordinates, and every pixel outside the block is untouched. -/
theorem paint_exact (T : Quadtree) (V : ℕ → ℕ → ℕ) :
    ∀ n i x y (img : Image),
      (∀ d j, d < n → descAt d i j → is_leaf T j = false) →
      (∀ j, descAt n i j → is_leaf T j = true) →
      (∀ a b, a < 2 ^ n → b < 2 ^ n →
        (T.nodes (qIndex n i a b)).moyenne = V (x + a) (y + b)) →
      x + 2 ^ n ≤ img.width →
      (∀ a b, a < 2 ^ n → b < 2 ^ n →
        (build_image_from_quadtree_rec T n img i x y (2 ^ n)).image
          ((y + b) * img.width + (x + a)) = V (x + a) (y + b)) ∧
      (∀ q, (∀ a b, a < 2 ^ n → b < 2 ^ n → q ≠ (y + b) * img.width + (x + a)) →
        (build_image_from_quadtree_rec T n img i x y (2 ^ n)).image q = img.image q) := by
  intro n
  induction n with
  | zero =>
    intro i x y img hF hT hval hx
    have hleaf := hT i rfl
    rw [paint_rec_leaf T 0 img i x y (2 ^ 0) hleaf]
    constructor
    · intro a b ha hb
      have ha0 : a = 0 := by omega
      have hb0 : b = 0 := by omega
      subst ha0
      subst hb0
      show (if (y + 0) * img.width + (x + 0) = y * img.width + x then (T.nodes i).moyenne
            else _) = _
      rw [if_pos (by ring)]
      exact hval 0 0 (by norm_num) (by norm_num)
    · intro q hq
      show (if q = y * img.width + x then _ else img.image q) = _
      rw [if_neg (by
        have h0 := hq 0 0 (by norm_num) (by norm_num)
        simpa using h0)]
  | succ n ih =>
    intro i x y img hF hT hval hx
    have hleafi : is_leaf T i = false := hF 0 i (by omega) rfl
    have h2p : (2 : ℕ) ^ (n + 1) = 2 * 2 ^ n := by rw [pow_succ]; ring
    have hcs : (2 : ℕ) ^ (n + 1) / 2 = 2 ^ n := by omega
    rw [paint_rec_node T n img i x y (2 ^ (n + 1)) hleafi, hcs]
    set I1 := build_image_from_quadtree_rec T n img (4 * i + 1) x y (2 ^ n) with hI1
    set I2 := build_image_from_quadtree_rec T n I1 (4 * i + 2) (x + 2 ^ n) y (2 ^ n) with hI2
    set I3 := build_image_from_quadtree_rec T n I2 (4 * i + 3) (x + 2 ^ n) (y + 2 ^ n) (2 ^ n)
      with hI3
    set I4 := build_image_from_quadtree_rec T n I3 (4 * i + 4) x (y + 2 ^ n) (2 ^ n) with hI4
    have hw1 : I1.width = img.width := by
      rw [hI1, paint_width]
    have hw2 : I2.width = img.width := by
      rw [hI2, paint_width]
      exact hw1
    have hw3 : I3.width = img.width := by
      rw [hI3, paint_width]
      exact hw2
    have hF1 : ∀ d j, d < n → descAt d (4 * i + 1) j → is_leaf T j = false :=
      fun d j hd hdesc => hF (d + 1) j (by omega) (Or.inl hdesc)
    have hF2 : ∀ d j, d < n → descAt d (4 * i + 2) j → is_leaf T j = false :=
      fun d j hd hdesc => hF (d + 1) j (by omega) (Or.inr (Or.inl hdesc))
    have hF3 : ∀ d j, d < n → descAt d (4 * i + 3) j → is_leaf T j = false :=
      fun d j hd hdesc => hF (d + 1) j (by omega) (Or.inr (Or.inr (Or.inl hdesc)))
    have hF4 : ∀ d j, d < n → descAt d (4 * i + 4) j → is_leaf T j = false :=
      fun d j hd hdesc => hF (d + 1) j (by omega) (Or.inr (Or.inr (Or.inr hdesc)))
    have hT1 : ∀ j, descAt n (4 * i + 1) j → is_leaf T j = true :=
      fun j hdesc => hT j (Or.inl hdesc)
    have hT2 : ∀ j, descAt n (4 * i + 2) j → is_leaf T j = true :=
      fun j hdesc => hT j (Or.inr (Or.inl hdesc))
    have hT3 : ∀ j, descAt n (4 * i + 3) j → is_leaf T j = true :=
      fun j hdesc => hT j (Or.inr (Or.inr (Or.inl hdesc)))
    have hT4 : ∀ j, descAt n (4 * i + 4) j → is_leaf T j = true :=
      fun j hdesc => hT j (Or.inr (Or.inr (Or.inr hdesc)))
    have hval1 : ∀ a b, a < 2 ^ n → b < 2 ^ n →
        (T.nodes (qIndex n (4 * i + 1) a b)).moyenne = V (x + a) (y + b) := by
      intro a b h1 h2
      have h := hval a b (by omega) (by omega)
      have hq : qIndex (n + 1) i a b = qIndex n (4 * i + 1) a b := by
        show (if a < 2 ^ n then if b < 2 ^ n then _ else _ else _) = _
        rw [if_pos h1, if_pos h2]
      rw [hq] at h
      exact h
    have hval2 : ∀ a b, a < 2 ^ n → b < 2 ^ n →
        (T.nodes (qIndex n (4 * i + 2) a b)).moyenne = V (x + 2 ^ n + a) (y + b) := by
      intro a b h1 h2
      have h := hval (2 ^ n + a) b (by omega) (by omega)
      have hq : qIndex (n + 1) i (2 ^ n + a) b = qIndex n (4 * i + 2) a b := by
        show (if 2 ^ n + a < 2 ^ n then _ else if b < 2 ^ n then _ else _) = _
        rw [if_neg (by omega), if_pos h2]
        have h3 : 2 ^ n + a - 2 ^ n = a := by omega
        rw [h3]
      rw [hq] at h
      have h4 : x + (2 ^ n + a) = x + 2 ^ n + a := by omega
      rw [h4] at h
      exact h
    have hval3 : ∀ a b, a < 2 ^ n → b < 2 ^ n →
        (T.nodes (qIndex n (4 * i + 3) a b)).moyenne = V (x + 2 ^ n + a) (y + 2 ^ n + b) := by
      intro a b h1 h2
      have h := hval (2 ^ n + a) (2 ^ n + b) (by omega) (by omega)
      have hq : qIndex (n + 1) i (2 ^ n + a) (2 ^ n + b) = qIndex n (4 * i + 3) a b := by
        show (if 2 ^ n + a < 2 ^ n then _ else if 2 ^ n + b < 2 ^ n then _ else _) = _
        rw [if_neg (by omega), if_neg (by omega)]
        have h3 : 2 ^ n + a - 2 ^ n = a := by omega
        have h4 : 2 ^ n + b - 2 ^ n = b := by omega
        rw [h3, h4]
      rw [hq] at h
      have h5 : x + (2 ^ n + a) = x + 2 ^ n + a := by omega
      have h6 : y + (2 ^ n + b) = y + 2 ^ n + b := by omega
      rw [h5, h6] at h
      exact h
    have hval4 : ∀ a b, a < 2 ^ n → b < 2 ^ n →
        (T.nodes (qIndex n (4 * i + 4) a b)).moyenne = V (x + a) (y + 2 ^ n + b) := by
      intro a b h1 h2
      have h := hval a (2 ^ n + b) (by omega) (by omega)
      have hq : qIndex (n + 1) i a (2 ^ n + b) = qIndex n (4 * i + 4) a b := by
        show (if a < 2 ^ n then if 2 ^ n + b < 2 ^ n then _ else _ else _) = _
        rw [if_pos h1, if_neg (by omega)]
        have h3 : 2 ^ n + b - 2 ^ n = b := by omega
        rw [h3]
      rw [hq] at h
      have h4 : y + (2 ^ n + b) = y + 2 ^ n + b := by omega
      rw [h4] at h
      exact h
    have R1 := ih (4 * i + 1) x y img hF1 hT1 hval1 (by omega)
    rw [← hI1] at R1
    have R2 := ih (4 * i + 2) (x + 2 ^ n) y I1 hF2 hT2 hval2 (by rw [hw1]; omega)
    rw [← hI2, hw1] at R2
    have R3 := ih (4 * i + 3) (x + 2 ^ n) (y + 2 ^ n) I2 hF3 hT3 hval3 (by rw [hw2]; omega)
    rw [← hI3, hw2] at R3
    have R4 := ih (4 * i + 4) x (y + 2 ^ n) I3 hF4 hT4 hval4 (by rw [hw3]; omega)
    rw [← hI4, hw3] at R4
    constructor
    · intro a b ha hb
      by_cases h1 : a < 2 ^ n
      · by_cases h2 : b < 2 ^ n
        · have hv := R1.1 a b h1 h2
          have hp2 := R2.2 ((y + b) * img.width + (x + a)) (fun a' b' h1' h2' => by
            intro he
            obtain ⟨hr, hc⟩ := cell_eq (show x + a < img.width by omega)
              (show x + 2 ^ n + a' < img.width by omega) he
            omega)
          have hp3 := R3.2 ((y + b) * img.width + (x + a)) (fun a' b' h1' h2' => by
            intro he
            obtain ⟨hr, hc⟩ := cell_eq (show x + a < img.width by omega)
              (show x + 2 ^ n + a' < img.width by omega) he
            omega)
          have hp4 := R4.2 ((y + b) * img.width + (x + a)) (fun a' b' h1' h2' => by
            intro he
            obtain ⟨hr, hc⟩ := cell_eq (show x + a < img.width by omega)
              (show x + a' < img.width by omega) he
            omega)
          rw [hp4, hp3, hp2, hv]
        · have hv := R4.1 a (b - 2 ^ n) h1 (by omega)
          have hco : y + 2 ^ n + (b - 2 ^ n) = y + b := by omega
          rw [hco] at hv
          exact hv
      · by_cases h2 : b < 2 ^ n
        · have hv := R2.1 (a - 2 ^ n) b (by omega) h2
          have hco : x + 2 ^ n + (a - 2 ^ n) = x + a := by omega
          rw [hco] at hv
          have hp3 := R3.2 ((y + b) * img.width + (x + a)) (fun a' b' h1' h2' => by
            intro he
            obtain ⟨hr, hc⟩ := cell_eq (show x + a < img.width by omega)
              (show x + 2 ^ n + a' < img.width by omega) he
            omega)
          have hp4 := R4.2 ((y + b) * img.width + (x + a)) (fun a' b' h1' h2' => by
            intro he
            obtain ⟨hr, hc⟩ := cell_eq (show x + a < img.width by omega)
              (show x + a' < img.width by omega) he
            omega)
          rw [hp4, hp3, hv]
        · have hv := R3.1 (a - 2 ^ n) (b - 2 ^ n) (by omega) (by omega)
          have hco1 : x + 2 ^ n + (a - 2 ^ n) = x + a := by omega
          have hco2 : y + 2 ^ n + (b - 2 ^ n) = y + b := by omega
          rw [hco1, hco2] at hv
          have hp4 := R4.2 ((y + b) * img.width + (x + a)) (fun a' b' h1' h2' => by
            intro he
            obtain ⟨hr, hc⟩ := cell_eq (show x + a < img.width by omega)
              (show x + a' < img.width by omega) he
            omega)
          rw [hp4, hv]
    · intro q hq
      have hp1 := R1.2 q (fun a b h1 h2 => hq a b (by omega) (by omega))
      have hp2 := R2.2 q (fun a b h1 h2 => by
        have h := hq (2 ^ n + a) b (by omega) (by omega)
        have he : x + (2 ^ n + a) = x + 2 ^ n + a := by omega
        rw [he] at h
        exact h)
      have hp3 := R3.2 q (fun a b h1 h2 => by
        have h := hq (2 ^ n + a) (2 ^ n + b) (by omega) (by omega)
        have he1 : x + (2 ^ n + a) = x + 2 ^ n + a := by omega
        have he2 : y + (2 ^ n + b) = y + 2 ^ n + b := by omega
        rw [he1, he2] at h
        exact h)
      have hp4 := R4.2 q (fun a b h1 h2 => by
        have h := hq a (2 ^ n + b) (by omega) (by omega)
        have he : y + (2 ^ n + b) = y + 2 ^ n + b := by omega
        rw [he] at h
        exact h)
      rw [hp4, hp3, hp2, hp1]

/-- Claim C10: on any quadtree with the complete shape determined by its
`levels` (every decoded tree in particular), the painter assigns a value to
every one of the `4^levels` pixels of the output raster: the painted value of
each in-range pixel does not depend on the initial contents of the freshly
allocated raster, and equals the mean of the unique leaf whose quadrant
covers that pixel. -/
theorem C10_painter_covers_all_pixels (qt : Quadtree)
    (htot : qt.total_nodes = tLevel (qt.levels + 1)) (init : ℕ → ℕ) (q : ℕ)
    (hq : q < 2 ^ qt.levels * 2 ^ qt.levels) :
    (build_image_from_quadtree_rec qt qt.levels
        { width := 2 ^ qt.levels, image_size := 2 ^ qt.levels * 2 ^ qt.levels, max_val := 255,
          image := init } 0 0 0 (2 ^ qt.levels)).image q =
      (build_image_from_quadtree qt).image q ∧
    (build_image_from_quadtree_rec qt qt.levels
        { width := 2 ^ qt.levels, image_size := 2 ^ qt.levels * 2 ^ qt.levels, max_val := 255,
          image := init } 0 0 0 (2 ^ qt.levels)).image q =
      (qt.nodes (qIndex qt.levels 0 (q % 2 ^ qt.levels) (q / 2 ^ qt.levels))).moyenne := by
  set L := qt.levels with hL
  have hpos : 0 < (2 : ℕ) ^ L := pow_pos (by norm_num) L
  have hF : ∀ d j, d < L → descAt d 0 j → is_leaf qt j = false := by
    intro d j hd hdesc
    have hb := descAt_bounds d 0 j hdesc
    simp only [Nat.mul_zero, Nat.zero_add] at hb
    have ht1 : tLevel (d + 1) = 4 * tLevel d + 1 := rfl
    have ht2 := tLevel_pow d
    have hjlt : j < tLevel (d + 1) := by omega
    have hjL : j < tLevel L := lt_of_lt_of_le hjlt (tLevel_le_tLevel (by omega))
    have hiff := is_leaf_iff qt L hL.symm htot j
    cases hb2 : is_leaf qt j
    · rfl
    · have := hiff.mp hb2
      omega
  have hT : ∀ j, descAt L 0 j → is_leaf qt j = true := by
    intro j hdesc
    have hb := descAt_bounds L 0 j hdesc
    simp only [Nat.mul_zero, Nat.zero_add] at hb
    exact (is_leaf_iff qt L hL.symm htot j).mpr (by omega)
  have P1 := paint_exact qt (fun c r => (qt.nodes (qIndex L 0 c r)).moyenne) L 0 0 0
    { width := 2 ^ L, image_size := 2 ^ L * 2 ^ L, max_val := 255, image := init }
    hF hT (fun a b ha hb => by
      have e1 : 0 + a = a := by omega
      have e2 : 0 + b = b := by omega
      rw [e1, e2])
    (by show 0 + 2 ^ L ≤ 2 ^ L; omega)
  have P2 := paint_exact qt (fun c r => (qt.nodes (qIndex L 0 c r)).moyenne) L 0 0 0
    (allocate_image (2 ^ L) (2 ^ L * 2 ^ L) 255)
    hF hT (fun a b ha hb => by
      have e1 : 0 + a = a := by omega
      have e2 : 0 + b = b := by omega
      rw [e1, e2])
    (by show 0 + 2 ^ L ≤ 2 ^ L; omega)
  have ha : q % 2 ^ L < 2 ^ L := Nat.mod_lt _ hpos
  have hb : q / 2 ^ L < 2 ^ L := Nat.div_lt_of_lt_mul hq
  have hkey1 := P1.1 (q % 2 ^ L) (q / 2 ^ L) ha hb
  have hkey2 := P2.1 (q % 2 ^ L) (q / 2 ^ L) ha hb
  have hAW : ({ width := 2 ^ L, image_size := 2 ^ L * 2 ^ L, max_val := 255, image := init } : Image).width = 2 ^ L := rfl
  have hAW2 : (allocate_image (2 ^ L) (2 ^ L * 2 ^ L) 255).width = 2 ^ L := rfl
  have hco : (0 + q / 2 ^ L) * (2 : ℕ) ^ L + (0 + q % 2 ^ L) = q := by
    have hdm := Nat.div_add_mod q (2 ^ L)
    have hmc : (0 + q / 2 ^ L) * 2 ^ L = 2 ^ L * (q / 2 ^ L) := by ring
    omega
  rw [hAW, hco] at hkey1
  rw [hAW2, hco] at hkey2
  have hW : (1 <<< qt.levels : ℕ) = 2 ^ L := by rw [Nat.shiftLeft_eq, one_mul, ← hL]
  have hwrap : build_image_from_quadtree qt =
      build_image_from_quadtree_rec qt L (allocate_image (2 ^ L) (2 ^ L * 2 ^ L) 255) 0 0 0
        (2 ^ L) := by
    show build_image_from_quadtree_rec qt qt.levels
        (allocate_image (1 <<< qt.levels) ((1 <<< qt.levels) * (1 <<< qt.levels)) 255) 0 0 0
        (1 <<< qt.levels) = _
    rw [hW, ← hL]
  refine ⟨?_, ?_⟩
  · rw [hwrap, hkey1, hkey2]
  · rw [hkey1]
    simp

/-- Witness for C10: the empty 1-level tree (5 nodes), pixel 2, initial
raster memory filled with 7s. -/
theorem C10_painter_covers_all_pixels_witness :
    (create_empty_quadtree 1).total_nodes = tLevel ((create_empty_quadtree 1).levels + 1) ∧
    2 < 2 ^ (create_empty_quadtree 1).levels * 2 ^ (create_empty_quadtree 1).levels ∧
    ((build_image_from_quadtree_rec (create_empty_quadtree 1) (create_empty_quadtree 1).levels
        { width := 2 ^ (create_empty_quadtree 1).levels,
          image_size := 2 ^ (create_empty_quadtree 1).levels *
            2 ^ (create_empty_quadtree 1).levels,
          max_val := 255, image := fun _ => 7 } 0 0 0
        (2 ^ (create_empty_quadtree 1).levels)).image 2 =
      (build_image_from_quadtree (create_empty_quadtree 1)).image 2 ∧
     (build_image_from_quadtree_rec (create_empty_quadtree 1) (create_empty_quadtree 1).levels
        { width := 2 ^ (create_empty_quadtree 1).levels,
          image_size := 2 ^ (create_empty_quadtree 1).levels *
            2 ^ (create_empty_quadtree 1).levels,
          max_val := 255, image := fun _ => 7 } 0 0 0
        (2 ^ (create_empty_quadtree 1).levels)).image 2 =
      ((create_empty_quadtree 1).nodes (qIndex (create_empty_quadtree 1).levels 0
        (2 % 2 ^ (create_empty_quadtree 1).levels)
        (2 / 2 ^ (create_empty_quadtree 1).levels))).moyenne) :=
  ⟨by decide, by decide,
    C10_painter_covers_all_pixels (create_empty_quadtree 1) (by decide) (fun _ => 7) 2
      (by decide)⟩

/-! ## Roundtrip: built-tree facts used by the decoder -/

/-- A positive-depth descendant has a parent in the tree: it is the `k`-th
child of a node one level up, and the flat parent is `(j - 1) / 4`. -/
theorem desc_parent : ∀ d i j, descAt (d + 1) i j →
    ∃ p k, 1 ≤ k ∧ k ≤ 4 ∧ j = 4 * p + k ∧ descAt d i p := by
  intro d
  induction d with
  | zero =>
    intro i j h
    rcases h with h | h | h | h
    · exact ⟨i, 1, by omega, by omega, h, rfl⟩
    · exact ⟨i, 2, by omega, by omega, h, rfl⟩
    · exact ⟨i, 3, by omega, by omega, h, rfl⟩
    · exact ⟨i, 4, by omega, by omega, h, rfl⟩
  | succ d ih =>
    intro i j h
    rcases h with h | h | h | h
    · obtain ⟨p, k, hk1, hk4, hj, hp⟩ := ih (4 * i + 1) j h
      exact ⟨p, k, hk1, hk4, hj, Or.inl hp⟩
    · obtain ⟨p, k, hk1, hk4, hj, hp⟩ := ih (4 * i + 2) j h
      exact ⟨p, k, hk1, hk4, hj, Or.inr (Or.inl hp)⟩
    · obtain ⟨p, k, hk1, hk4, hj, hp⟩ := ih (4 * i + 3) j h
      exact ⟨p, k, hk1, hk4, hj, Or.inr (Or.inr (Or.inl hp))⟩
    · obtain ⟨p, k, hk1, hk4, hj, hp⟩ := ih (4 * i + 4) j h
      exact ⟨p, k, hk1, hk4, hj, Or.inr (Or.inr (Or.inr hp))⟩

/-- All the per-node facts of the built tree that the decoder's correctness
rests on: field ranges, leaves are uniform with zero epsilon, the mean/epsilon
reconstruction identity at internal nodes, a uniform flag forces zero epsilon,
and the children of a uniform internal node copy its mean and are uniform
with zero epsilon. -/
theorem built_node_facts (sq : ℚ → ℚ) (image : Image) (L : ℕ) (hw : image.width = 2 ^ L)
    (hpix : ∀ p, image.image p < 256) :
    ∀ j, j < tLevel (L + 1) →
      ((build_quadtree_from_image sq image).nodes j).moyenne < 256 ∧
      ((build_quadtree_from_image sq image).nodes j).epsilon < 4 ∧
      ((build_quadtree_from_image sq image).nodes j).u ≤ 1 ∧
      (((build_quadtree_from_image sq image).nodes j).u = 1 →
        ((build_quadtree_from_image sq image).nodes j).epsilon = 0) ∧
      (is_leaf (build_quadtree_from_image sq image) j = true →
        ((build_quadtree_from_image sq image).nodes j).epsilon = 0 ∧
        ((build_quadtree_from_image sq image).nodes j).u = 1) ∧
      (is_leaf (build_quadtree_from_image sq image) j = false →
        ((build_quadtree_from_image sq image).nodes j).moyenne * 4 +
            ((build_quadtree_from_image sq image).nodes j).epsilon =
            childSum (build_quadtree_from_image sq image) j ∧
        (((build_quadtree_from_image sq image).nodes j).u = 1 →
          ∀ k, 1 ≤ k → k ≤ 4 →
            ((build_quadtree_from_image sq image).nodes (4 * j + k)).moyenne =
              ((build_quadtree_from_image sq image).nodes j).moyenne ∧
            ((build_quadtree_from_image sq image).nodes (4 * j + k)).epsilon = 0 ∧
            ((build_quadtree_from_image sq image).nodes (4 * j + k)).u = 1)) := by
  intro j hjtot
  obtain ⟨d, hdL, hdesc⟩ := flat_to_desc j hjtot
  have hb := descAt_bounds d 0 j hdesc
  simp only [Nat.mul_zero, Nat.zero_add] at hb
  have ht1 : tLevel (d + 1) = 4 * tLevel d + 1 := rfl
  have ht2 := tLevel_pow d
  have hiff := is_leaf_iff (build_quadtree_from_image sq image) L (built_levels sq image L hw)
    (built_total sq image L hw) j
  by_cases hdeq : d = L
  · -- leaf level
    have hleaf : is_leaf (build_quadtree_from_image sq image) j = true := by
      refine hiff.mpr ?_
      subst hdeq
      omega
    have h := built_content sq image L hw d j hdL hdesc
    rw [if_pos hdeq] at h
    obtain ⟨p, hp⟩ := h
    rw [hp]
    refine ⟨hpix p, by norm_num, by norm_num, fun _ => rfl, fun _ => ⟨rfl, rfl⟩, ?_⟩
    intro hfalse
    rw [hleaf] at hfalse
    exact absurd hfalse (by simp)
  · -- internal level
    have hjlt : j < tLevel (d + 1) := by omega
    have hjL : j < tLevel L := lt_of_lt_of_le hjlt (tLevel_le_tLevel (by omega))
    have hleaf : is_leaf (build_quadtree_from_image sq image) j = false := by
      cases hb2 : is_leaf (build_quadtree_from_image sq image) j
      · rfl
      · have := hiff.mp hb2
        omega
    have h := built_content sq image L hw d j hdL hdesc
    rw [if_neg hdeq] at h
    obtain ⟨⟨hm, he, hu, _⟩, _⟩ := h
    have hc1 := built_moyenne_lt sq image L hw hpix (d + 1) (4 * j + 1) (by omega)
      (descAt_child (by omega) (by omega) hdesc)
    have hc2 := built_moyenne_lt sq image L hw hpix (d + 1) (4 * j + 2) (by omega)
      (descAt_child (by omega) (by omega) hdesc)
    have hc3 := built_moyenne_lt sq image L hw hpix (d + 1) (4 * j + 3) (by omega)
      (descAt_child (by omega) (by omega) hdesc)
    have hc4 := built_moyenne_lt sq image L hw hpix (d + 1) (4 * j + 4) (by omega)
      (descAt_child (by omega) (by omega) hdesc)
    have hcs : childSum (build_quadtree_from_image sq image) j < 1024 := by
      unfold childSum
      omega
    have hdiv : childSum (build_quadtree_from_image sq image) j / 4 < 256 := by omega
    have hm256 : ((build_quadtree_from_image sq image).nodes j).moyenne =
        childSum (build_quadtree_from_image sq image) j / 4 := by
      rw [hm, Nat.mod_eq_of_lt hdiv]
    have hcond : ((build_quadtree_from_image sq image).nodes j).u = 1 →
        ((build_quadtree_from_image sq image).nodes (4 * j + 1)).moyenne =
          ((build_quadtree_from_image sq image).nodes (4 * j + 2)).moyenne ∧
        ((build_quadtree_from_image sq image).nodes (4 * j + 2)).moyenne =
          ((build_quadtree_from_image sq image).nodes (4 * j + 3)).moyenne ∧
        ((build_quadtree_from_image sq image).nodes (4 * j + 3)).moyenne =
          ((build_quadtree_from_image sq image).nodes (4 * j + 4)).moyenne ∧
        ((build_quadtree_from_image sq image).nodes (4 * j + 1)).u = 1 ∧
        ((build_quadtree_from_image sq image).nodes (4 * j + 2)).u = 1 ∧
        ((build_quadtree_from_image sq image).nodes (4 * j + 3)).u = 1 ∧
        ((build_quadtree_from_image sq image).nodes (4 * j + 4)).u = 1 := by
      intro h1
      rw [hu] at h1
      by_cases hc : ((build_quadtree_from_image sq image).nodes (4 * j + 1)).moyenne =
            ((build_quadtree_from_image sq image).nodes (4 * j + 2)).moyenne ∧
          ((build_quadtree_from_image sq image).nodes (4 * j + 2)).moyenne =
            ((build_quadtree_from_image sq image).nodes (4 * j + 3)).moyenne ∧
          ((build_quadtree_from_image sq image).nodes (4 * j + 3)).moyenne =
            ((build_quadtree_from_image sq image).nodes (4 * j + 4)).moyenne ∧
          ((build_quadtree_from_image sq image).nodes (4 * j + 1)).u = 1 ∧
          ((build_quadtree_from_image sq image).nodes (4 * j + 2)).u = 1 ∧
          ((build_quadtree_from_image sq image).nodes (4 * j + 3)).u = 1 ∧
          ((build_quadtree_from_image sq image).nodes (4 * j + 4)).u = 1
      · exact hc
      · rw [if_neg hc] at h1
        exact absurd h1 (by norm_num)
    have heps0 : ((build_quadtree_from_image sq image).nodes j).u = 1 →
        ((build_quadtree_from_image sq image).nodes j).epsilon = 0 := by
      intro h1
      obtain ⟨h12, h23, h34, _⟩ := hcond h1
      have hcs4 : childSum (build_quadtree_from_image sq image) j =
          4 * ((build_quadtree_from_image sq image).nodes (4 * j + 1)).moyenne := by
        unfold childSum
        omega
      rw [he, hcs4]
      omega
    refine ⟨by rw [hm]; exact Nat.mod_lt _ (by norm_num),
      by rw [he]; exact Nat.mod_lt _ (by norm_num), ?_, heps0, ?_, ?_⟩
    · rw [hu]
      split
      · exact le_refl 1
      · norm_num
    · intro htrue
      rw [hleaf] at htrue
      exact absurd htrue (by simp)
    · intro _
      refine ⟨by rw [hm256]; omega, ?_⟩
      intro h1 k hk1 hk4
      obtain ⟨h12, h23, h34, hu1, hu2, hu3, hu4⟩ := hcond h1
      have hmeq : ∀ r, 1 ≤ r → r ≤ 4 →
          ((build_quadtree_from_image sq image).nodes (4 * j + r)).moyenne =
            ((build_quadtree_from_image sq image).nodes (4 * j + 1)).moyenne := by
        intro r hr1 hr4
        interval_cases r
        · rfl
        · exact h12.symm
        · exact (h12.trans h23).symm
        · exact ((h12.trans h23).trans h34).symm
      have hsum : childSum (build_quadtree_from_image sq image) j =
          4 * ((build_quadtree_from_image sq image).nodes (4 * j + 1)).moyenne := by
        unfold childSum
        rw [hmeq 2 (by omega) (by omega), hmeq 3 (by omega) (by omega),
          hmeq 4 (by omega) (by omega)]
        omega
      have hmj : ((build_quadtree_from_image sq image).nodes j).moyenne =
          ((build_quadtree_from_image sq image).nodes (4 * j + 1)).moyenne := by
        rw [hm256, hsum]
        omega
      have hmk : ((build_quadtree_from_image sq image).nodes (4 * j + k)).moyenne =
          ((build_quadtree_from_image sq image).nodes j).moyenne := by
        rw [hmeq k hk1 hk4, hmj]
      have huk : ((build_quadtree_from_image sq image).nodes (4 * j + k)).u = 1 := by
        interval_cases k
        · exact hu1
        · exact hu2
        · exact hu3
        · exact hu4
      refine ⟨hmk, ?_, huk⟩
      -- the child's epsilon vanishes: a leaf child by construction, an
      -- internal child because its own uniform flag forces it
      by_cases hdk : d + 1 = L
      · have hch := built_content sq image L hw (d + 1) (4 * j + k) (by omega)
          (descAt_child hk1 hk4 hdesc)
        rw [if_pos hdk] at hch
        obtain ⟨p, hp⟩ := hch
        rw [hp]
      · have hch := built_content sq image L hw (d + 1) (4 * j + k) (by omega)
          (descAt_child hk1 hk4 hdesc)
        rw [if_neg hdk] at hch
        obtain ⟨⟨_, hec, huc, _⟩, _⟩ := hch
        rw [huc] at huk
        have hcondc : ((build_quadtree_from_image sq image).nodes
              (4 * (4 * j + k) + 1)).moyenne =
            ((build_quadtree_from_image sq image).nodes (4 * (4 * j + k) + 2)).moyenne ∧
            ((build_quadtree_from_image sq image).nodes (4 * (4 * j + k) + 2)).moyenne =
            ((build_quadtree_from_image sq image).nodes (4 * (4 * j + k) + 3)).moyenne ∧
            ((build_quadtree_from_image sq image).nodes (4 * (4 * j + k) + 3)).moyenne =
            ((build_quadtree_from_image sq image).nodes (4 * (4 * j + k) + 4)).moyenne ∧
            ((build_quadtree_from_image sq image).nodes (4 * (4 * j + k) + 1)).u = 1 ∧
            ((build_quadtree_from_image sq image).nodes (4 * (4 * j + k) + 2)).u = 1 ∧
            ((build_quadtree_from_image sq image).nodes (4 * (4 * j + k) + 3)).u = 1 ∧
            ((build_quadtree_from_image sq image).nodes (4 * (4 * j + k) + 4)).u = 1 := by
          by_cases hc : ((build_quadtree_from_image sq image).nodes
                (4 * (4 * j + k) + 1)).moyenne =
              ((build_quadtree_from_image sq image).nodes (4 * (4 * j + k) + 2)).moyenne ∧
              ((build_quadtree_from_image sq image).nodes (4 * (4 * j + k) + 2)).moyenne =
              ((build_quadtree_from_image sq image).nodes (4 * (4 * j + k) + 3)).moyenne ∧
              ((build_quadtree_from_image sq image).nodes (4 * (4 * j + k) + 3)).moyenne =
              ((build_quadtree_from_image sq image).nodes (4 * (4 * j + k) + 4)).moyenne ∧
              ((build_quadtree_from_image sq image).nodes (4 * (4 * j + k) + 1)).u = 1 ∧
              ((build_quadtree_from_image sq image).nodes (4 * (4 * j + k) + 2)).u = 1 ∧
              ((build_quadtree_from_image sq image).nodes (4 * (4 * j + k) + 3)).u = 1 ∧
              ((build_quadtree_from_image sq image).nodes (4 * (4 * j + k) + 4)).u = 1
          · exact hc
          · rw [if_neg hc] at huk
            exact absurd huk (by norm_num)
        obtain ⟨g12, g23, g34, _⟩ := hcondc
        have hcsc : childSum (build_quadtree_from_image sq image) (4 * j + k) =
            4 * ((build_quadtree_from_image sq image).nodes (4 * (4 * j + k) + 1)).moyenne := by
          unfold childSum
          omega
        rw [hec, hcsc]
        omega

theorem write_node_fields (stream : BitStream) (nd : Node) (index : ℕ) :
    write_node stream nd index = pushFields stream (writeNodeFields nd index) := by
  unfold write_node writeNodeFields
  by_cases h1 : index % 4 ≠ 0 ∨ index = 0
  · rw [if_pos h1, if_pos h1]
    by_cases h2 : nd.epsilon = 0
    · rw [if_pos h2, if_pos h2]
      rfl
    · rw [if_neg h2, if_neg h2]
      rfl
  · rw [if_neg h1, if_neg h1]
    by_cases h2 : nd.epsilon = 0
    · rw [if_pos h2, if_pos h2]
      rfl
    · rw [if_neg h2, if_neg h2]
      rfl

theorem write_leaf_fields (stream : BitStream) (nd : Node) (index : ℕ) :
    write_leaf stream nd index = pushFields stream (writeLeafFields nd index) := by
  unfold write_leaf writeLeafFields
  by_cases h1 : index % 4 ≠ 0
  · rw [if_pos h1, if_pos h1]
    rfl
  · rw [if_neg h1, if_neg h1]
    rfl

theorem encode_node_fields (B : Quadtree) (i : ℕ) (stream : BitStream) :
    encode_node B i stream = pushFields stream (nodeFields B i) := by
  unfold encode_node nodeFields
  by_cases h0 : i = 0
  · rw [if_pos h0, if_pos h0]
    subst h0
    exact write_node_fields stream (B.nodes 0) 0
  · rw [if_neg h0, if_neg h0]
    by_cases h1 : (B.nodes ((i - 1) / 4)).u ≠ 0
    · rw [if_pos h1, if_pos h1]
      rfl
    · rw [if_neg h1, if_neg h1]
      by_cases h2 : is_leaf B i = true
      · rw [if_pos h2, if_pos h2]
        exact write_leaf_fields stream (B.nodes i) i
      · rw [if_neg h2, if_neg h2]
        exact write_node_fields stream (B.nodes i) i

theorem pushFields_append (fs1 : List (ℕ × ℕ)) : ∀ (fs2 : List (ℕ × ℕ)) (stream : BitStream),
    pushFields stream (fs1 ++ fs2) = pushFields (pushFields stream fs1) fs2 := by
  induction fs1 with
  | nil => intro fs2 stream; rfl
  | cons f fs ih =>
    intro fs2 stream
    show pushFields (push_n_bits stream f.2 f.1) (fs ++ fs2) = _
    rw [ih]
    rfl

theorem encodeLoop_fields (B : Quadtree) : ∀ (m : ℕ) (stream : BitStream),
    encodeLoop B m stream = pushFields stream (allFields B m) := by
  intro m
  induction m with
  | zero => intro stream; rfl
  | succ m ih =>
    intro stream
    show encode_node B m (encodeLoop B m stream) = _
    rw [ih, encode_node_fields]
    show _ = pushFields stream (allFields B m ++ nodeFields B m)
    rw [pushFields_append]

theorem encode_fields (B : Quadtree) :
    encode B = finishBitStream (pushFields (initBitStream (B.total_nodes * 2))
      ((8, B.levels) :: allFields B B.total_nodes)) := by
  show finishBitStream (encodeLoop B B.total_nodes
    (push_n_bits (initBitStream (B.total_nodes * 2)) B.levels 8)) = _
  rw [encodeLoop_fields]
  rfl

theorem writeNodeFields_width (nd : Node) (index : ℕ) :
    ∀ f ∈ writeNodeFields nd index, 1 ≤ f.1 ∧ f.1 ≤ 8 := by
  intro f hf
  unfold writeNodeFields at hf
  rcases List.mem_append.mp hf with h | h
  · split at h
    · simp only [List.mem_singleton] at h
      rw [h]
      exact ⟨by norm_num, by norm_num⟩
    · exact absurd h (List.not_mem_nil f)
  · rcases List.mem_cons.mp h with h2 | h2
    · rw [h2]
      exact ⟨by norm_num, by norm_num⟩
    · split at h2
      · simp only [List.mem_singleton] at h2
        rw [h2]
        exact ⟨by norm_num, by norm_num⟩
      · exact absurd h2 (List.not_mem_nil f)

theorem writeLeafFields_width (nd : Node) (index : ℕ) :
    ∀ f ∈ writeLeafFields nd index, 1 ≤ f.1 ∧ f.1 ≤ 8 := by
  intro f hf
  unfold writeLeafFields at hf
  split at hf
  · simp only [List.mem_singleton] at hf
    rw [hf]
    exact ⟨by norm_num, by norm_num⟩
  · exact absurd hf (List.not_mem_nil f)

theorem nodeFields_width (B : Quadtree) (i : ℕ) :
    ∀ f ∈ nodeFields B i, 1 ≤ f.1 ∧ f.1 ≤ 8 := by
  intro f hf
  unfold nodeFields at hf
  split at hf
  · exact writeNodeFields_width _ _ f hf
  · split at hf
    · exact absurd hf (List.not_mem_nil f)
    · split at hf
      · exact writeLeafFields_width _ _ f hf
      · exact writeNodeFields_width _ _ f hf

theorem allFields_width (B : Quadtree) : ∀ (m : ℕ), ∀ f ∈ allFields B m, 1 ≤ f.1 ∧ f.1 ≤ 8 := by
  intro m
  induction m with
  | zero => intro f hf; exact absurd hf (List.not_mem_nil f)
  | succ m ih =>
    intro f hf
    rcases List.mem_append.mp hf with h | h
    · exact ih f h
    · exact nodeFields_width B m f h

theorem bitsLen_append : ∀ (fs1 fs2 : List (ℕ × ℕ)),
    bitsLen (fs1 ++ fs2) = bitsLen fs1 + bitsLen fs2 := by
  intro fs1 fs2
  induction fs1 with
  | nil =>
    show bitsLen fs2 = 0 + bitsLen fs2
    omega
  | cons f fs ih =>
    show f.1 + bitsLen (fs ++ fs2) = f.1 + bitsLen fs + bitsLen fs2
    rw [ih]
    omega

theorem bitsSpec_take (d : ℕ → ℕ) : ∀ (fs1 fs2 : List (ℕ × ℕ)) (b : ℕ),
    bitsSpec d b (fs1 ++ fs2) → bitsSpec d b fs1 := by
  intro fs1
  induction fs1 with
  | nil => intro fs2 b _; trivial
  | cons f fs ih =>
    intro fs2 b h
    exact ⟨h.1, ih fs2 (b + f.1) h.2⟩

theorem bitsSpec_drop (d : ℕ → ℕ) : ∀ (fs1 fs2 : List (ℕ × ℕ)) (b : ℕ),
    bitsSpec d b (fs1 ++ fs2) → bitsSpec d (b + bitsLen fs1) fs2 := by
  intro fs1
  induction fs1 with
  | nil =>
    intro fs2 b h
    show bitsSpec d (b + 0) fs2
    rw [Nat.add_zero]
    exact h
  | cons f fs ih =>
    intro fs2 b h
    have h2 := ih fs2 (b + f.1) h.2
    show bitsSpec d (b + (f.1 + bitsLen fs)) fs2
    rw [show b + (f.1 + bitsLen fs) = b + f.1 + bitsLen fs from by omega]
    exact h2

/-- The suffix of `allFields` past position `m` starts with `nodeFields m`. -/
theorem allFields_decomp (B : Quadtree) : ∀ (m2 m1 : ℕ), m1 < m2 →
    ∃ rest, allFields B m2 = (allFields B m1 ++ nodeFields B m1) ++ rest := by
  intro m2
  induction m2 with
  | zero => intro m1 h; omega
  | succ m2 ih =>
    intro m1 h
    by_cases he : m1 = m2
    · subst he
      exact ⟨[], by rw [List.append_nil]; rfl⟩
    · obtain ⟨rest, hrest⟩ := ih m1 (by omega)
      refine ⟨rest ++ nodeFields B m2, ?_⟩
      show allFields B m2 ++ nodeFields B m2 = _
      rw [hrest, List.append_assoc]

/-- From the global bit layout, the fields of node `m` sit at offset
`8 + bitsLen (allFields m)`. -/
theorem bitsSpec_at (d : ℕ → ℕ) (B : Quadtree) (total : ℕ)
    (hglobal : bitsSpec d 8 (allFields B total)) :
    ∀ m, m < total → bitsSpec d (8 + bitsLen (allFields B m)) (nodeFields B m) := by
  intro m hm
  obtain ⟨rest, hrest⟩ := allFields_decomp B total m hm
  rw [hrest, List.append_assoc] at hglobal
  have h1 := bitsSpec_drop d (allFields B m) (nodeFields B m ++ rest) 8 hglobal
  exact bitsSpec_take d (nodeFields B m) rest _ h1

/-! ## Small-step characterisation of the decoder primitives -/

theorem read_node_rs0 {d : ℕ → ℕ} (w p : ℕ) (nd : Node) (hd : byteOK d)
    (he : valOf d (p + 8) 2 = 0) :
    read_node (rs d w p) nd =
      ({ nd with moyenne := valOf d p 8, epsilon := 0, u := valOf d (p + 8 + 2) 1 },
        rs d w (p + 8 + 2 + 1)) := by
  unfold read_node
  rw [read_n_bits_rs (by omega) d w p hd]
  simp only []
  rw [read_n_bits_rs (by omega) d w (p + 8) hd]
  simp only []
  rw [he, if_pos rfl]
  rw [read_n_bits_rs (by omega) d w (p + 8 + 2) hd]

theorem read_node_rs1 {d : ℕ → ℕ} (w p : ℕ) (nd : Node) (hd : byteOK d) (e0 : ℕ)
    (he : valOf d (p + 8) 2 = e0) (hne : e0 ≠ 0) :
    read_node (rs d w p) nd =
      ({ nd with moyenne := valOf d p 8, epsilon := e0, u := 0 }, rs d w (p + 8 + 2)) := by
  unfold read_node
  rw [read_n_bits_rs (by omega) d w p hd]
  simp only []
  rw [read_n_bits_rs (by omega) d w (p + 8) hd]
  simp only []
  rw [he, if_neg hne]

theorem read_leaf_rs {d : ℕ → ℕ} (w p : ℕ) (nd : Node) (hd : byteOK d) :
    read_leaf (rs d w p) nd =
      ({ nd with moyenne := valOf d p 8, epsilon := 0, u := 1 }, rs d w (p + 8)) := by
  unfold read_leaf
  rw [read_n_bits_rs (by omega) d w p hd]

theorem interp_leaf {qt : Quadtree} (stream : BitStream) (nd pnd : Node) (index : ℕ)
    (h : is_leaf qt index = true) :
    interpolation_4th_child stream qt nd pnd index =
      ({ nd with moyenne := interpVal qt pnd index, epsilon := 0, u := 1 }, stream) := by
  unfold interpolation_4th_child interpVal
  rw [if_pos h]

theorem interp_node0 {d : ℕ → ℕ} (w p : ℕ) {qt : Quadtree} (nd pnd : Node) (index : ℕ)
    (hd : byteOK d) (h : is_leaf qt index = false) (he : valOf d p 2 = 0) :
    interpolation_4th_child (rs d w p) qt nd pnd index =
      ({ nd with moyenne := interpVal qt pnd index, epsilon := 0, u := valOf d (p + 2) 1 },
        rs d w (p + 2 + 1)) := by
  unfold interpolation_4th_child interpVal
  rw [if_neg (by rw [h]; exact Bool.false_ne_true)]
  rw [read_n_bits_rs (by omega) d w p hd]
  simp only []
  rw [he, if_pos rfl]
  rw [read_n_bits_rs (by omega) d w (p + 2) hd]

theorem interp_node1 {d : ℕ → ℕ} (w p : ℕ) {qt : Quadtree} (nd pnd : Node) (index : ℕ)
    (hd : byteOK d) (h : is_leaf qt index = false) (e0 : ℕ) (he : valOf d p 2 = e0)
    (hne : e0 ≠ 0) :
    interpolation_4th_child (rs d w p) qt nd pnd index =
      ({ nd with moyenne := interpVal qt pnd index, epsilon := e0, u := 0 },
        rs d w (p + 2)) := by
  unfold interpolation_4th_child interpVal
  rw [if_neg (by rw [h]; exact Bool.false_ne_true)]
  rw [read_n_bits_rs (by omega) d w p hd]
  simp only []
  rw [he, if_neg hne]

theorem decode_node_zero (qtm : Quadtree) (stm : BitStream) :
    decode_node 0 (qtm, stm) =
      ({ qtm with nodes := updN qtm.nodes 0 (read_node stm (qtm.nodes 0)).1 },
        (read_node stm (qtm.nodes 0)).2) := by
  unfold decode_node
  rw [if_pos rfl]

theorem decode_node_copy (i : ℕ) (qtm : Quadtree) (stm : BitStream) (hi : i ≠ 0)
    (hu : (qtm.nodes ((i - 1) / 4)).u ≠ 0) :
    decode_node i (qtm, stm) =
      ({ qtm with nodes := updN qtm.nodes i (copyNode qtm i) }, stm) := by
  unfold decode_node copyNode
  rw [if_neg hi, if_pos hu]

theorem decode_node_interp (i : ℕ) (qtm : Quadtree) (stm : BitStream) (hi : i ≠ 0)
    (hu : ¬ (qtm.nodes ((i - 1) / 4)).u ≠ 0) (h4 : i % 4 = 0) :
    decode_node i (qtm, stm) =
      ({ qtm with
         nodes := updN qtm.nodes i
           (interpolation_4th_child stm qtm (qtm.nodes i) (qtm.nodes ((i - 1) / 4)) i).1 },
        (interpolation_4th_child stm qtm (qtm.nodes i) (qtm.nodes ((i - 1) / 4)) i).2) := by
  unfold decode_node
  rw [if_neg hi, if_neg hu, if_pos h4]

theorem decode_node_leaf (i : ℕ) (qtm : Quadtree) (stm : BitStream) (hi : i ≠ 0)
    (hu : ¬ (qtm.nodes ((i - 1) / 4)).u ≠ 0) (h4 : ¬ i % 4 = 0) (hl : is_leaf qtm i = true) :
    decode_node i (qtm, stm) =
      ({ qtm with nodes := updN qtm.nodes i (read_leaf stm (qtm.nodes i)).1 },
        (read_leaf stm (qtm.nodes i)).2) := by
  unfold decode_node
  rw [if_neg hi, if_neg hu, if_neg h4, if_pos hl]

theorem decode_node_internal (i : ℕ) (qtm : Quadtree) (stm : BitStream) (hi : i ≠ 0)
    (hu : ¬ (qtm.nodes ((i - 1) / 4)).u ≠ 0) (h4 : ¬ i % 4 = 0)
    (hl : ¬ is_leaf qtm i = true) :
    decode_node i (qtm, stm) =
      ({ qtm with nodes := updN qtm.nodes i (read_node stm (qtm.nodes i)).1 },
        (read_node stm (qtm.nodes i)).2) := by
  unfold decode_node
  rw [if_neg hi, if_neg hu, if_neg h4, if_neg hl]

/-- Writing the correct node at position `m` extends the prefix agreement. -/
theorem updN_pref (qtm B : Quadtree) (m : ℕ) (nd : Node)
    (hpref : ∀ j, j < m → (qtm.nodes j).moyenne = (B.nodes j).moyenne ∧
      (qtm.nodes j).epsilon = (B.nodes j).epsilon ∧ (qtm.nodes j).u = (B.nodes j).u)
    (hnd : nd.moyenne = (B.nodes m).moyenne ∧ nd.epsilon = (B.nodes m).epsilon ∧
      nd.u = (B.nodes m).u) :
    ∀ j, j < m + 1 → ((updN qtm.nodes m nd) j).moyenne = (B.nodes j).moyenne ∧
      ((updN qtm.nodes m nd) j).epsilon = (B.nodes j).epsilon ∧
      ((updN qtm.nodes m nd) j).u = (B.nodes j).u := by
  intro j hj
  unfold updN
  by_cases hjm : j = m
  · rw [if_pos hjm, hjm]
    exact hnd
  · rw [if_neg hjm]
    exact hpref j (by omega)

/-- Invariant of the decode loop run on the encoder's bit layout: after `m`
steps the stream sits exactly past the fields of nodes `0, …, m - 1`, the
tree scalars are those of the complete empty tree, and the decoded prefix
agrees with the built tree on the three serialized fields. -/
theorem decodeLoop_inv (sq : ℚ → ℚ) (image : Image) (L : ℕ) (hw : image.width = 2 ^ L)
    (hpix : ∀ p, image.image p < 256) (efin : ℕ → ℕ) (wfin : ℕ) (hok : byteOK efin)
    (hspec : bitsSpec efin 8
      (allFields (build_quadtree_from_image sq image) (tLevel (L + 1)))) :
    ∀ m, m ≤ tLevel (L + 1) →
      ∃ qtm, decodeLoop m (create_empty_quadtree L, rs efin wfin 8) =
          (qtm, rs efin wfin
            (8 + bitsLen (allFields (build_quadtree_from_image sq image) m))) ∧
        qtm.total_nodes = tLevel (L + 1) ∧ qtm.levels = L ∧
        ∀ j, j < m →
          (qtm.nodes j).moyenne = ((build_quadtree_from_image sq image).nodes j).moyenne ∧
          (qtm.nodes j).epsilon = ((build_quadtree_from_image sq image).nodes j).epsilon ∧
          (qtm.nodes j).u = ((build_quadtree_from_image sq image).nodes j).u := by
  set B := build_quadtree_from_image sq image with hB
  have hBfacts := built_node_facts sq image L hw hpix
  rw [← hB] at hBfacts
  have hBtot : B.total_nodes = tLevel (L + 1) := by
    rw [hB]
    exact built_total sq image L hw
  have hBlev : B.levels = L := by
    rw [hB]
    exact built_levels sq image L hw
  intro m
  induction m with
  | zero =>
    intro _
    refine ⟨create_empty_quadtree L, rfl, create_empty_total L, rfl, ?_⟩
    intro j hj
    exact absurd hj (by omega)
  | succ m ih =>
    intro hm1
    obtain ⟨qtm, heq, htotm, hlevm, hpref⟩ := ih (by omega)
    have hmlt : m < tLevel (L + 1) := by omega
    have hspecm := bitsSpec_at efin B (tLevel (L + 1)) hspec m hmlt
    obtain ⟨hm256, he4, hu1, hue, hleafB, hintB⟩ := hBfacts m hmlt
    have hil : is_leaf qtm m = is_leaf B m := by
      unfold is_leaf
      rw [htotm, hlevm, hBtot, hBlev]
    have hlen1 : allFields B (m + 1) = allFields B m ++ nodeFields B m := rfl
    rw [show decodeLoop (m + 1) (create_empty_quadtree L, rs efin wfin 8) =
      decode_node m (decodeLoop m (create_empty_quadtree L, rs efin wfin 8)) from rfl, heq]
    by_cases hm0 : m = 0
    · -- the root always goes through read_node
      subst hm0
      have hnf : nodeFields B 0 = (8, (B.nodes 0).moyenne) :: (2, (B.nodes 0).epsilon) ::
          (if (B.nodes 0).epsilon = 0 then [(1, (B.nodes 0).u)] else []) := by
        unfold nodeFields writeNodeFields
        rw [if_pos rfl, if_pos (Or.inr rfl)]
        rfl
      rw [hnf] at hspecm
      obtain ⟨hv8, hv2, hv3⟩ := hspecm
      have hv8e : valOf efin (8 + bitsLen (allFields B 0)) 8 = (B.nodes 0).moyenne := by
        rw [hv8]
        exact Nat.mod_eq_of_lt hm256
      have hv2e : valOf efin (8 + bitsLen (allFields B 0) + 8) 2 = (B.nodes 0).epsilon := by
        rw [hv2]
        exact Nat.mod_eq_of_lt he4
      rw [decode_node_zero qtm (rs efin wfin (8 + bitsLen (allFields B 0)))]
      by_cases he0 : (B.nodes 0).epsilon = 0
      · rw [if_pos he0] at hv3
        obtain ⟨hv1, _⟩ := hv3
        have hv1e : valOf efin (8 + bitsLen (allFields B 0) + 8 + 2) 1 = (B.nodes 0).u := by
          rw [hv1]
          exact Nat.mod_eq_of_lt (show (B.nodes 0).u < 2 by omega)
        rw [read_node_rs0 wfin (8 + bitsLen (allFields B 0)) (qtm.nodes 0) hok
          (hv2e.trans he0)]
        simp only []
        have hpp : 8 + bitsLen (allFields B (0 + 1)) =
            8 + bitsLen (allFields B 0) + 8 + 2 + 1 := by
          rw [hlen1, bitsLen_append, hnf]
          rw [if_pos he0]
          rw [show bitsLen [(8, (B.nodes 0).moyenne), (2, (B.nodes 0).epsilon),
            (1, (B.nodes 0).u)] = 11 from rfl]
          omega
        rw [hpp]
        refine ⟨_, rfl, htotm, hlevm, ?_⟩
        exact updN_pref qtm B 0 _ hpref ⟨hv8e, he0.symm, hv1e⟩
      · rw [read_node_rs1 wfin (8 + bitsLen (allFields B 0)) (qtm.nodes 0) hok
          (B.nodes 0).epsilon hv2e he0]
        simp only []
        have hu0 : (B.nodes 0).u = 0 := by
          by_cases h : (B.nodes 0).u = 1
          · exact absurd (hue h) he0
          · omega
        have hpp : 8 + bitsLen (allFields B (0 + 1)) =
            8 + bitsLen (allFields B 0) + 8 + 2 := by
          rw [hlen1, bitsLen_append, hnf]
          rw [if_neg he0]
          rw [show bitsLen [(8, (B.nodes 0).moyenne), (2, (B.nodes 0).epsilon)] = 10 from rfl]
          omega
        rw [hpp]
        refine ⟨_, rfl, htotm, hlevm, ?_⟩
        exact updN_pref qtm B 0 _ hpref ⟨hv8e, rfl, hu0.symm⟩
    · -- non-root: locate the parent
      obtain ⟨dm, hdmL, hdescm⟩ := flat_to_desc m hmlt
      have hdm1 : 1 ≤ dm := by
        by_contra h
        have hd0 : dm = 0 := by omega
        subst hd0
        exact hm0 hdescm
      obtain ⟨p, k, hk1, hk4, hmeq, hdescp⟩ := desc_parent (dm - 1) 0 m (by
        have h1 : dm - 1 + 1 = dm := by omega
        rw [h1]
        exact hdescm)
      have hpeq : (m - 1) / 4 = p := by omega
      have hplt : p < tLevel (L + 1) := by omega
      have hbp := descAt_bounds (dm - 1) 0 p hdescp
      simp only [Nat.mul_zero, Nat.zero_add] at hbp
      have hpt1 : tLevel (dm - 1 + 1) = 4 * tLevel (dm - 1) + 1 := rfl
      have hpt2 := tLevel_pow (dm - 1)
      have hptL : tLevel (dm - 1 + 1) ≤ tLevel L := tLevel_le_tLevel (by omega)
      have hilp : is_leaf B p = false := by
        cases hb2 : is_leaf B p
        · rfl
        · have := (is_leaf_iff B L hBlev hBtot p).mp hb2
          omega
      obtain ⟨hpm256, hpe4, hpu1, hpue, _, hpint⟩ := hBfacts p hplt
      have hup : (qtm.nodes ((m - 1) / 4)).u = (B.nodes ((m - 1) / 4)).u :=
        (hpref ((m - 1) / 4) (by omega)).2.2
      by_cases hbu : (B.nodes ((m - 1) / 4)).u ≠ 0
      · -- children of a uniform parent are skipped and copied
        have hqu : (qtm.nodes ((m - 1) / 4)).u ≠ 0 := by
          rw [hup]
          exact hbu
        have hnfv : nodeFields B m = [] := by
          unfold nodeFields
          rw [if_neg hm0, if_pos hbu]
        have hpu1' : (B.nodes p).u = 1 := by
          rw [hpeq] at hbu
          omega
        have hchild := (hpint hilp).2 hpu1' k hk1 hk4
        rw [← hmeq] at hchild
        obtain ⟨hcm, hce, hcu⟩ := hchild
        rw [decode_node_copy m qtm (rs efin wfin (8 + bitsLen (allFields B m))) hm0 hqu]
        have hpp : 8 + bitsLen (allFields B (m + 1)) = 8 + bitsLen (allFields B m) := by
          rw [hlen1, bitsLen_append, hnfv]
          rw [show bitsLen ([] : List (ℕ × ℕ)) = 0 from rfl]
          omega
        rw [hpp]
        refine ⟨_, rfl, htotm, hlevm, ?_⟩
        refine updN_pref qtm B m _ hpref ⟨?_, ?_, ?_⟩
        · show (qtm.nodes ((m - 1) / 4)).moyenne = (B.nodes m).moyenne
          rw [(hpref ((m - 1) / 4) (by omega)).1, hpeq, ← hcm]
        · exact hce.symm
        · exact hcu.symm
      · -- parent not uniform: the node's own fields are in the stream
        have hqu : ¬ (qtm.nodes ((m - 1) / 4)).u ≠ 0 := by
          rw [hup]
          exact hbu
        have hbu0 : (B.nodes ((m - 1) / 4)).u = 0 := by omega
        by_cases h4 : m % 4 = 0
        · -- fourth child: mean is interpolated
          have hk4' : k = 4 := by omega
          have hC2p := (hpint hilp).1
          unfold childSum at hC2p
          have hm4m : 4 * p + 4 = m := by omega
          rw [hm4m] at hC2p
          have hiv : interpVal qtm (qtm.nodes ((m - 1) / 4)) m = (B.nodes m).moyenne := by
            unfold interpVal
            rw [hpeq]
            rw [(hpref (m - 1) (by omega)).1, (hpref (m - 2) (by omega)).1,
              (hpref (m - 3) (by omega)).1, (hpref p (by omega)).1,
              (hpref p (by omega)).2.1]
            rw [show m - 1 = 4 * p + 3 from by omega, show m - 2 = 4 * p + 2 from by omega,
              show m - 3 = 4 * p + 1 from by omega]
            have hz : 4 * ((B.nodes p).moyenne : ℤ) + ((B.nodes p).epsilon : ℤ) -
                ((B.nodes (4 * p + 3)).moyenne : ℤ) - ((B.nodes (4 * p + 2)).moyenne : ℤ) -
                ((B.nodes (4 * p + 1)).moyenne : ℤ) = ((B.nodes m).moyenne : ℤ) := by
              omega
            rw [hz]
            rw [Int.emod_eq_of_lt (by omega) (by omega)]
            omega
          by_cases hlf : is_leaf B m = true
          · -- a fourth-child leaf: nothing read at all
            have hql : is_leaf qtm m = true := by
              rw [hil]
              exact hlf
            have hnfv : nodeFields B m = [] := by
              unfold nodeFields
              rw [if_neg hm0, if_neg hbu, if_pos hlf]
              unfold writeLeafFields
              rw [if_neg (by omega)]
            obtain ⟨hle, hlu⟩ := hleafB hlf
            rw [decode_node_interp m qtm (rs efin wfin (8 + bitsLen (allFields B m))) hm0
              hqu h4]
            rw [interp_leaf (rs efin wfin (8 + bitsLen (allFields B m))) (qtm.nodes m)
              (qtm.nodes ((m - 1) / 4)) m hql]
            simp only []
            have hpp : 8 + bitsLen (allFields B (m + 1)) = 8 + bitsLen (allFields B m) := by
              rw [hlen1, bitsLen_append, hnfv]
              rw [show bitsLen ([] : List (ℕ × ℕ)) = 0 from rfl]
              omega
            rw [hpp]
            refine ⟨_, rfl, htotm, hlevm, ?_⟩
            exact updN_pref qtm B m _ hpref ⟨hiv, hle.symm, hlu.symm⟩
          · -- an internal fourth child: epsilon (and maybe u) are read
            have hlfF : is_leaf B m = false := by
              cases hb2 : is_leaf B m
              · rfl
              · exact absurd hb2 hlf
            have hqlF : is_leaf qtm m = false := by
              rw [hil]
              exact hlfF
            have hnfv : nodeFields B m = (2, (B.nodes m).epsilon) ::
                (if (B.nodes m).epsilon = 0 then [(1, (B.nodes m).u)] else []) := by
              unfold nodeFields
              rw [if_neg hm0, if_neg hbu, if_neg (by rw [hlfF]; exact Bool.false_ne_true)]
              unfold writeNodeFields
              rw [if_neg (by
                rintro (h | h)
                · exact h h4
                · exact hm0 h)]
              rfl
            rw [hnfv] at hspecm
            obtain ⟨hv2, hv3⟩ := hspecm
            have hv2e : valOf efin (8 + bitsLen (allFields B m)) 2 = (B.nodes m).epsilon := by
              rw [hv2]
              exact Nat.mod_eq_of_lt he4
            rw [decode_node_interp m qtm (rs efin wfin (8 + bitsLen (allFields B m))) hm0
              hqu h4]
            by_cases he0 : (B.nodes m).epsilon = 0
            · rw [if_pos he0] at hv3
              obtain ⟨hv1, _⟩ := hv3
              have hv1e : valOf efin (8 + bitsLen (allFields B m) + 2) 1 =
                  (B.nodes m).u := by
                rw [hv1]
                exact Nat.mod_eq_of_lt (show (B.nodes m).u < 2 by omega)
              rw [interp_node0 wfin (8 + bitsLen (allFields B m)) (qtm.nodes m)
                (qtm.nodes ((m - 1) / 4)) m hok hqlF (hv2e.trans he0)]
              simp only []
              have hpp : 8 + bitsLen (allFields B (m + 1)) =
                  8 + bitsLen (allFields B m) + 2 + 1 := by
                rw [hlen1, bitsLen_append, hnfv, if_pos he0]
                rw [show bitsLen [(2, (B.nodes m).epsilon), (1, (B.nodes m).u)] = 3 from rfl]
                omega
              rw [hpp]
              refine ⟨_, rfl, htotm, hlevm, ?_⟩
              exact updN_pref qtm B m _ hpref ⟨hiv, he0.symm, hv1e⟩
            · have hu0 : (B.nodes m).u = 0 := by
                by_cases h : (B.nodes m).u = 1
                · exact absurd (hue h) he0
                · omega
              rw [interp_node1 wfin (8 + bitsLen (allFields B m)) (qtm.nodes m)
                (qtm.nodes ((m - 1) / 4)) m hok hqlF (B.nodes m).epsilon hv2e he0]
              simp only []
              have hpp : 8 + bitsLen (allFields B (m + 1)) =
                  8 + bitsLen (allFields B m) + 2 := by
                rw [hlen1, bitsLen_append, hnfv, if_neg he0]
                rw [show bitsLen [(2, (B.nodes m).epsilon)] = 2 from rfl]
                omega
              rw [hpp]
              refine ⟨_, rfl, htotm, hlevm, ?_⟩
              exact updN_pref qtm B m _ hpref ⟨hiv, rfl, hu0.symm⟩
        · -- not a fourth child: the mean itself is in the stream
          by_cases hlf : is_leaf B m = true
          · have hql : is_leaf qtm m = true := by
              rw [hil]
              exact hlf
            have hnfv : nodeFields B m = [(8, (B.nodes m).moyenne)] := by
              unfold nodeFields
              rw [if_neg hm0, if_neg hbu, if_pos hlf]
              unfold writeLeafFields
              rw [if_pos h4]
            rw [hnfv] at hspecm
            obtain ⟨hv8, _⟩ := hspecm
            have hv8e : valOf efin (8 + bitsLen (allFields B m)) 8 =
                (B.nodes m).moyenne := by
              rw [hv8]
              exact Nat.mod_eq_of_lt hm256
            obtain ⟨hle, hlu⟩ := hleafB hlf
            rw [decode_node_leaf m qtm (rs efin wfin (8 + bitsLen (allFields B m))) hm0
              hqu h4 hql]
            rw [read_leaf_rs wfin (8 + bitsLen (allFields B m)) (qtm.nodes m) hok]
            simp only []
            have hpp : 8 + bitsLen (allFields B (m + 1)) =
                8 + bitsLen (allFields B m) + 8 := by
              rw [hlen1, bitsLen_append, hnfv]
              rw [show bitsLen [(8, (B.nodes m).moyenne)] = 8 from rfl]
              omega
            rw [hpp]
            refine ⟨_, rfl, htotm, hlevm, ?_⟩
            exact updN_pref qtm B m _ hpref ⟨hv8e, hle.symm, hlu.symm⟩
          · have hlfF : is_leaf B m = false := by
              cases hb2 : is_leaf B m
              · rfl
              · exact absurd hb2 hlf
            have hqlF : ¬ is_leaf qtm m = true := by
              rw [hil, hlfF]
              exact Bool.false_ne_true
            have hnfv : nodeFields B m = (8, (B.nodes m).moyenne) ::
                (2, (B.nodes m).epsilon) ::
                (if (B.nodes m).epsilon = 0 then [(1, (B.nodes m).u)] else []) := by
              unfold nodeFields
              rw [if_neg hm0, if_neg hbu, if_neg (by rw [hlfF]; exact Bool.false_ne_true)]
              unfold writeNodeFields
              rw [if_pos (Or.inl h4)]
              rfl
            rw [hnfv] at hspecm
            obtain ⟨hv8, hv2, hv3⟩ := hspecm
            have hv8e : valOf efin (8 + bitsLen (allFields B m)) 8 =
                (B.nodes m).moyenne := by
              rw [hv8]
              exact Nat.mod_eq_of_lt hm256
            have hv2e : valOf efin (8 + bitsLen (allFields B m) + 8) 2 =
                (B.nodes m).epsilon := by
              rw [hv2]
              exact Nat.mod_eq_of_lt he4
            rw [decode_node_internal m qtm (rs efin wfin (8 + bitsLen (allFields B m))) hm0
              hqu h4 hqlF]
            by_cases he0 : (B.nodes m).epsilon = 0
            · rw [if_pos he0] at hv3
              obtain ⟨hv1, _⟩ := hv3
              have hv1e : valOf efin (8 + bitsLen (allFields B m) + 8 + 2) 1 =
                  (B.nodes m).u := by
                rw [hv1]
                exact Nat.mod_eq_of_lt (show (B.nodes m).u < 2 by omega)
              rw [read_node_rs0 wfin (8 + bitsLen (allFields B m)) (qtm.nodes m) hok
                (hv2e.trans he0)]
              simp only []
              have hpp : 8 + bitsLen (allFields B (m + 1)) =
                  8 + bitsLen (allFields B m) + 8 + 2 + 1 := by
                rw [hlen1, bitsLen_append, hnfv, if_pos he0]
                rw [show bitsLen [(8, (B.nodes m).moyenne), (2, (B.nodes m).epsilon),
                  (1, (B.nodes m).u)] = 11 from rfl]
                omega
              rw [hpp]
              refine ⟨_, rfl, htotm, hlevm, ?_⟩
              exact updN_pref qtm B m _ hpref ⟨hv8e, he0.symm, hv1e⟩
            · have hu0 : (B.nodes m).u = 0 := by
                by_cases h : (B.nodes m).u = 1
                · exact absurd (hue h) he0
                · omega
              rw [read_node_rs1 wfin (8 + bitsLen (allFields B m)) (qtm.nodes m) hok
                (B.nodes m).epsilon hv2e he0]
              simp only []
              have hpp : 8 + bitsLen (allFields B (m + 1)) =
                  8 + bitsLen (allFields B m) + 8 + 2 := by
                rw [hlen1, bitsLen_append, hnfv, if_neg he0]
                rw [show bitsLen [(8, (B.nodes m).moyenne),
                  (2, (B.nodes m).epsilon)] = 10 from rfl]
                omega
              rw [hpp]
              refine ⟨_, rfl, htotm, hlevm, ?_⟩
              exact updN_pref qtm B m _ hpref ⟨hv8e, rfl, hu0.symm⟩

/-- Decoding the encoder's output restores every node's serialized fields:
mean, epsilon and uniformity flag, together with the tree scalars. -/
theorem decode_encode_nodes (sq : ℚ → ℚ) (image : Image) (L : ℕ) (hw : image.width = 2 ^ L)
    (hL : L < 256) (hpix : ∀ p, image.image p < 256) :
    (decode (encode (build_quadtree_from_image sq image))).levels = L ∧
    (decode (encode (build_quadtree_from_image sq image))).total_nodes = tLevel (L + 1) ∧
    ∀ j, j < tLevel (L + 1) →
      ((decode (encode (build_quadtree_from_image sq image))).nodes j).moyenne =
        ((build_quadtree_from_image sq image).nodes j).moyenne ∧
      ((decode (encode (build_quadtree_from_image sq image))).nodes j).epsilon =
        ((build_quadtree_from_image sq image).nodes j).epsilon ∧
      ((decode (encode (build_quadtree_from_image sq image))).nodes j).u =
        ((build_quadtree_from_image sq image).nodes j).u := by
  set B := build_quadtree_from_image sq image with hB
  have hBtot : B.total_nodes = tLevel (L + 1) := by
    rw [hB]
    exact built_total sq image L hw
  have hBlev : B.levels = L := by
    rw [hB]
    exact built_levels sq image L hw
  have hF : ∀ f ∈ ((8, B.levels) :: allFields B B.total_nodes), f.1 ≤ 8 := by
    intro f hf
    rcases List.mem_cons.mp hf with h | h
    · rw [h]
    · exact (allFields_width B B.total_nodes f h).2
  have hd0 : byteOK (fun _ => 0) := fun _ => by norm_num
  obtain ⟨e, he, hok, _, hspec⟩ :=
    pushFields_spec ((8, B.levels) :: allFields B B.total_nodes) 0 (fun _ => 0) 0 hd0 hF
  have hinit : initBitStream (B.total_nodes * 2) = ws (fun _ => 0) 0 0 := rfl
  have hEnc1 : encode B = finishBitStream
      (ws e 0 (0 + bitsLen ((8, B.levels) :: allFields B B.total_nodes))) := by
    rw [encode_fields, hinit, he]
  obtain ⟨efin, wfin, hfin, hokfin, hpres⟩ :=
    finishBitStream_ws (b := 0 + bitsLen ((8, B.levels) :: allFields B B.total_nodes)) 0 hok
  have hEnc : encode B = rs efin wfin 0 := by
    rw [hEnc1, hfin]
    rfl
  have hspecfin : bitsSpec efin 0 ((8, B.levels) :: allFields B B.total_nodes) :=
    bitsSpec_congr _ 0 (fun p hp => hpres p (by omega)) hspec
  obtain ⟨hv8, hrest⟩ := hspecfin
  have hlev8 : valOf efin 0 8 = L := by
    rw [hv8, hBlev]
    exact Nat.mod_eq_of_lt hL
  have hrest8 : bitsSpec efin 8 (allFields B (tLevel (L + 1))) := by
    rw [← hBtot]
    exact hrest
  have hrn : read_n_bits (rs efin wfin 0) 8 = (L, rs efin wfin 8) := by
    rw [read_n_bits_rs (by omega) efin wfin 0 hokfin]
    rw [hlev8]
  have hdec : decode (encode B) = (decodeLoop (create_empty_quadtree L).total_nodes
      (create_empty_quadtree L, rs efin wfin 8)).1 := by
    rw [hEnc]
    show (decodeLoop (create_empty_quadtree (read_n_bits (rs efin wfin 0) 8).1).total_nodes
      (create_empty_quadtree (read_n_bits (rs efin wfin 0) 8).1,
        (read_n_bits (rs efin wfin 0) 8).2)).1 = _
    rw [hrn]
  obtain ⟨qtf, heq, htotf, hlevf, hpreff⟩ :=
    decodeLoop_inv sq image L hw hpix efin wfin hokfin hrest8 (tLevel (L + 1)) (le_refl _)
  rw [← hB] at heq hpreff
  have hdec2 : decode (encode B) = qtf := by
    rw [hdec, create_empty_total L, heq]
  refine ⟨by rw [hdec2]; exact hlevf, by rw [hdec2]; exact htotf, ?_⟩
  intro j hj
  rw [hdec2]
  exact hpreff j hj

/-- Claim C1: for a square power-of-two raster with byte pixels (and a depth
that fits the header byte), decoding the encoding of the built tree restores
the tree node-by-node on the three serialized fields — mean, epsilon,
uniformity; the transient variance is never serialized, and the spec defines
the decoder's zero variances as correct — and painting the decoded tree
reproduces the raster exactly: same width, every pixel equal. -/
theorem C1_lossless_roundtrip (sq : ℚ → ℚ) (image : Image) (L : ℕ)
    (hw : image.width = 2 ^ L) (hL : L < 256) (hpix : ∀ p, image.image p < 256) :
    ((decode (encode (build_quadtree_from_image sq image))).levels =
      (build_quadtree_from_image sq image).levels ∧
     (decode (encode (build_quadtree_from_image sq image))).total_nodes =
      (build_quadtree_from_image sq image).total_nodes ∧
     ∀ j, j < (build_quadtree_from_image sq image).total_nodes →
      ((decode (encode (build_quadtree_from_image sq image))).nodes j).moyenne =
        ((build_quadtree_from_image sq image).nodes j).moyenne ∧
      ((decode (encode (build_quadtree_from_image sq image))).nodes j).epsilon =
        ((build_quadtree_from_image sq image).nodes j).epsilon ∧
      ((decode (encode (build_quadtree_from_image sq image))).nodes j).u =
        ((build_quadtree_from_image sq image).nodes j).u) ∧
    (build_image_from_quadtree
      (decode (encode (build_quadtree_from_image sq image)))).width = image.width ∧
    ∀ a b, a < 2 ^ L → b < 2 ^ L →
      (build_image_from_quadtree
        (decode (encode (build_quadtree_from_image sq image)))).image (b * 2 ^ L + a) =
        image.image (b * image.width + a) := by
  obtain ⟨hDlev, hDtot, hDpref⟩ := decode_encode_nodes sq image L hw hL hpix
  have hBtot : (build_quadtree_from_image sq image).total_nodes = tLevel (L + 1) :=
    built_total sq image L hw
  have hBlev : (build_quadtree_from_image sq image).levels = L :=
    built_levels sq image L hw
  set D := decode (encode (build_quadtree_from_image sq image)) with hD
  -- the painter on the decoded tree
  have hW : (1 <<< D.levels : ℕ) = 2 ^ L := by
    rw [hDlev, Nat.shiftLeft_eq, one_mul]
  have hwrap : build_image_from_quadtree D = build_image_from_quadtree_rec D L
      (allocate_image (2 ^ L) (2 ^ L * 2 ^ L) 255) 0 0 0 (2 ^ L) := by
    show build_image_from_quadtree_rec D D.levels
        (allocate_image (1 <<< D.levels) ((1 <<< D.levels) * (1 <<< D.levels)) 255) 0 0 0
        (1 <<< D.levels) = _
    rw [hW, hDlev]
  have hFD : ∀ d j, d < L → descAt d 0 j → is_leaf D j = false := by
    intro d j hd hdesc
    have hb := descAt_bounds d 0 j hdesc
    simp only [Nat.mul_zero, Nat.zero_add] at hb
    have ht1 : tLevel (d + 1) = 4 * tLevel d + 1 := rfl
    have ht2 := tLevel_pow d
    have hjlt : j < tLevel (d + 1) := by omega
    have hjL : j < tLevel L := lt_of_lt_of_le hjlt (tLevel_le_tLevel (by omega))
    cases hb2 : is_leaf D j
    · rfl
    · have := (is_leaf_iff D L hDlev hDtot j).mp hb2
      omega
  have hTD : ∀ j, descAt L 0 j → is_leaf D j = true := by
    intro j hdesc
    have hb := descAt_bounds L 0 j hdesc
    simp only [Nat.mul_zero, Nat.zero_add] at hb
    exact (is_leaf_iff D L hDlev hDtot j).mpr (by omega)
  have P := paint_exact D (fun c r => (D.nodes (qIndex L 0 c r)).moyenne) L 0 0 0
    (allocate_image (2 ^ L) (2 ^ L * 2 ^ L) 255) hFD hTD
    (fun a b ha hb => by
      have e1 : 0 + a = a := by omega
      have e2 : 0 + b = b := by omega
      rw [e1, e2])
    (by show 0 + 2 ^ L ≤ 2 ^ L; omega)
  refine ⟨⟨by rw [hBlev]; exact hDlev, by rw [hBtot]; exact hDtot, ?_⟩, ?_, ?_⟩
  · intro j hj
    exact hDpref j (by omega)
  · rw [hwrap, paint_width]
    show (2 : ℕ) ^ L = image.width
    rw [hw]
  · intro a b ha hb
    have hkey := P.1 a b ha hb
    have hAW2 : (allocate_image (2 ^ L) (2 ^ L * 2 ^ L) 255).width = 2 ^ L := rfl
    rw [hAW2] at hkey
    have e1 : 0 + a = a := by omega
    have e2 : 0 + b = b := by omega
    rw [e1, e2] at hkey
    rw [hwrap, hkey]
    -- the decoded leaf holds the built leaf's mean, which is the raster pixel
    have hdesc := qIndex_desc L 0 a b ha hb
    have hbq := descAt_bounds L 0 (qIndex L 0 a b) hdesc
    simp only [Nat.mul_zero, Nat.zero_add] at hbq
    have ht1 : tLevel (L + 1) = 4 * tLevel L + 1 := rfl
    have ht2 := tLevel_pow L
    have hqlt : qIndex L 0 a b < tLevel (L + 1) := by omega
    have hDB := (hDpref (qIndex L 0 a b) hqlt).1
    show (D.nodes (qIndex L 0 a b)).moyenne = image.image (b * image.width + a)
    rw [hDB]
    have hlog : log2i image.width = L := by
      rw [hw]
      exact log2i_two_pow L
    have hraw := build_leaf_exact sq image L (create_empty_quadtree L) 0 0 0 a b ha hb
    have hn : (build_quadtree_from_image sq image).nodes =
        (build_quadtree_rec sq image L (create_empty_quadtree L) 0 0 0).nodes := by
      rw [built_nodes_raw, hlog]
    have hq0 : 4 * 0 + (qIndex L 0 a b) = qIndex L 0 a b := by omega
    rw [hn]
    -- hraw is about qIndex L 0 a b directly
    rw [hraw]
    show image.image ((0 + b) * image.width + (0 + a)) = image.image (b * image.width + a)
    rw [e1, e2]

/-- Witness for C1 on the 2×2 raster `[10, 20, 30, 40]`. -/
theorem C1_lossless_roundtrip_witness :
    raster2x2.width = 2 ^ 1 ∧ 1 < 256 ∧ (∀ p, raster2x2.image p < 256) ∧
    (((decode (encode (build_quadtree_from_image sqZero raster2x2))).levels =
        (build_quadtree_from_image sqZero raster2x2).levels ∧
      (decode (encode (build_quadtree_from_image sqZero raster2x2))).total_nodes =
        (build_quadtree_from_image sqZero raster2x2).total_nodes ∧
      ∀ j, j < (build_quadtree_from_image sqZero raster2x2).total_nodes →
        ((decode (encode (build_quadtree_from_image sqZero raster2x2))).nodes j).moyenne =
          ((build_quadtree_from_image sqZero raster2x2).nodes j).moyenne ∧
        ((decode (encode (build_quadtree_from_image sqZero raster2x2))).nodes j).epsilon =
          ((build_quadtree_from_image sqZero raster2x2).nodes j).epsilon ∧
        ((decode (encode (build_quadtree_from_image sqZero raster2x2))).nodes j).u =
          ((build_quadtree_from_image sqZero raster2x2).nodes j).u) ∧
     (build_image_from_quadtree
        (decode (encode (build_quadtree_from_image sqZero raster2x2)))).width =
        raster2x2.width ∧
     ∀ a b, a < 2 ^ 1 → b < 2 ^ 1 →
      (build_image_from_quadtree
        (decode (encode (build_quadtree_from_image sqZero raster2x2)))).image
          (b * 2 ^ 1 + a) = raster2x2.image (b * raster2x2.width + a)) :=
  ⟨rfl, by norm_num, fun p => by show p % 4 * 10 + 10 < 256; omega,
    C1_lossless_roundtrip sqZero raster2x2 1 rfl (by norm_num)
      (fun p => by show p % 4 * 10 + 10 < 256; omega)⟩

end QTC
